import Mathlib

/-!
# Header block codec of go-rtsp-lib (`header.go`)

A shallow embedding of `headerKeyNormalize`, `headerRead` and `Header.write`.

* A Go `string` / `[]byte` is a finite sequence of bytes.  Bytes are natural
  numbers (a real byte is `< 256`; no definition below needs wrap-around
  arithmetic, and every concrete input used below consists of real bytes).
* A `bufio.Reader` over a finite stream is the list of bytes not yet read.
* A Go `map[string]HeaderValue` is an association list with pairwise
  distinct keys; `len`, indexing and assignment are the list operations
  `Header.len`, `Header.get` and `Header.set`.
-/

namespace Gortsplib

/-- A Go string: a sequence of bytes, each byte a natural number. -/
abbrev Str := List Nat

/-- The bytes of an ASCII string literal. -/
def bytes (s : String) : Str := s.data.map Char.toNat

/-- Carriage return. -/
def CR : Nat := 13
/-- Line feed. -/
def LF : Nat := 10
/-- The colon that ends a key. -/
def COLON : Nat := 58
/-- The ASCII space. -/
def SP : Nat := 32
/-- The hyphen that separates the segments of a key. -/
def HYPHEN : Nat := 45

/-! ## Constants -/

def headerMaxEntryCount : Nat := 255
def headerMaxKeyLength : Nat := 1024
def headerMaxValueLength : Nat := 1024

/-! ## Go standard library functions used by `headerKeyNormalize` -/

/-- ASCII lower-casing of one byte: `A`..`Z` become `a`..`z`. -/
def lowerByte (c : Nat) : Nat := if 65 ≤ c ∧ c ≤ 90 then c + 32 else c

/-- ASCII upper-casing of one byte: `a`..`z` become `A`..`Z`. -/
def upperByte (c : Nat) : Nat := if 97 ≤ c ∧ c ≤ 122 then c - 32 else c

/-- Go `strings.ToLower`.  A string of ASCII bytes only is lower-cased byte
by byte.  Any other string goes through `strings.Map(unicode.ToLower, s)`,
which depends on the Unicode case tables; that pass is the argument
`unicodeLower`, left uninterpreted. -/
def stringsToLower (unicodeLower : Str → Str) (s : Str) : Str :=
  if s.all (fun c => decide (c < 128)) then s.map lowerByte else unicodeLower s

/-- Go `textproto.validHeaderFieldByte`: the token characters of RFC 7230,
that is letters, digits and the punctuation
`! # $ % & ' * + - . ^ _ BACKTICK | ~`. -/
def validHeaderFieldByte (c : Nat) : Bool :=
  (48 ≤ c && c ≤ 57) || (97 ≤ c && c ≤ 122) || (65 ≤ c && c ≤ 90) ||
  c == 33 || c == 35 || c == 36 || c == 37 || c == 38 || c == 39 || c == 42 ||
  c == 43 || c == 45 || c == 46 || c == 94 || c == 95 || c == 96 || c == 124 ||
  c == 126

/-- The rewriting loop of Go `textproto.canonicalMIMEHeaderKey`: a letter is
upper-cased when `upper` is set (at the start and after a hyphen) and
lower-cased otherwise. -/
def canonicalize : Bool → Str → Str
  | _, [] => []
  | upper, c :: cs =>
    let c1 := if upper then upperByte c else lowerByte c
    c1 :: canonicalize (c1 == HYPHEN) cs

/-- Go `http.CanonicalHeaderKey`: a key that contains a space or any other
byte that is not a valid header field byte is returned without
modification; any other key is rewritten by `canonicalize`. -/
def CanonicalHeaderKey (s : Str) : Str :=
  if s.all validHeaderFieldByte then canonicalize true s else s

/-! ## `headerKeyNormalize` -/

def headerKeyNormalize (unicodeLower : Str → Str) (s : Str) : Str :=
  let low := stringsToLower unicodeLower s
  if low = bytes "rtp-info" then bytes "RTP-INFO"
  else if low = bytes "www-authenticate" then bytes "WWW-Authenticate"
  else if low = bytes "cseq" then bytes "CSeq"
  else CanonicalHeaderKey s

/-- Two strings differ only in letter case: they agree byte for byte once
the ASCII letters are lower-cased. -/
def sameUpToCase (a b : Str) : Prop := a.map lowerByte = b.map lowerByte

/-- Whether two strings differ only in letter case can be computed. -/
instance sameUpToCase.instDecidable (a b : Str) : Decidable (sameUpToCase a b) :=
  inferInstanceAs (Decidable (a.map lowerByte = b.map lowerByte))

/-- The string split on every occurrence of `sep` (Go `strings.Split`). -/
def splitOn (sep : Nat) : Str → List Str
  | [] => [[]]
  | c :: cs =>
    if c = sep then [] :: splitOn sep cs
    else
      match splitOn sep cs with
      | [] => [[c]]
      | seg :: segs => (c :: seg) :: segs

/-- The segments joined with `sep` between them (Go `strings.Join`). -/
def joinWith (sep : Nat) : List Str → Str
  | [] => []
  | [seg] => seg
  | seg :: seg2 :: segs => seg ++ sep :: joinWith sep (seg2 :: segs)

/-- A segment with its first letter upper-cased and the rest lower-cased. -/
def titleSegment : Str → Str
  | [] => []
  | c :: cs => upperByte c :: cs.map lowerByte

/-- The generic rule of the spec: "split on hyphens, capitalize each
segment's first letter, lowercase the rest, rejoin with hyphens". -/
def titleCaseKey (s : Str) : Str :=
  joinWith HYPHEN ((splitOn HYPHEN s).map titleSegment)

/-- The key normalizer as the spec words it: the three fixed exceptions,
matched on the lower-cased key, and the generic rule for every other key. -/
def normalizeSpec (unicodeLower : Str → Str) (s : Str) : Str :=
  let low := stringsToLower unicodeLower s
  if low = bytes "cseq" then bytes "CSeq"
  else if low = bytes "www-authenticate" then bytes "WWW-Authenticate"
  else if low = bytes "rtp-info" then bytes "RTP-INFO"
  else titleCaseKey s

/-! ## The header collection -/

/-- Go `HeaderValue`, a `[]string`. -/
abbrev HeaderValue := List Str

/-- Go `Header`, a `map[string]HeaderValue`: the entries of the map, one per
key. -/
abbrev Header := List (Str × HeaderValue)

/-- The keys stored in the map. -/
def Header.keys (h : Header) : List Str := h.map Prod.fst

/-- A list of entries represents a Go map when no key occurs twice. -/
def Header.WF (h : Header) : Prop := (Header.keys h).Nodup

/-- Go `len(h)`. -/
def Header.len (h : Header) : Nat := h.length

/-- Go `v, ok := h[key]`. -/
def Header.find? : Header → Str → Option HeaderValue
  | [], _ => none
  | (k, v) :: h, key => if k = key then some v else Header.find? h key

/-- Go `h[key]` as an expression: the nil slice when the key is absent. -/
def Header.get (h : Header) (key : Str) : HeaderValue :=
  (Header.find? h key).getD []

/-- Go `h[key] = v`. -/
def Header.set : Header → Str → HeaderValue → Header
  | [], key, v => [(key, v)]
  | (k, w) :: h, key, v =>
    if k = key then (k, v) :: h else (k, w) :: Header.set h key v

/-- Line 96 of `headerRead`, `h[key] = append(h[key], val)`. -/
def Header.add (h : Header) (key : Str) (val : Str) : Header :=
  Header.set h key (Header.get h key ++ [val])

/-- Two collections are equal as maps: they hold the same keys with the same
value lists. -/
def Header.Equiv (h1 h2 : Header) : Prop :=
  ∀ key, Header.find? h1 key = Header.find? h2 key

/-! ## The decoder -/

/-- The failures of the decoder.  `lengthExceeded n` is the failure of a
bounded read with bound `n`.  The stream is a finite sequence of bytes, so
the only failure of a read is the end of the stream. -/
inductive DecodeError
  | unexpectedEndOfStream
  | malformedLineEnding
  | lengthExceeded (n : Nat)
  | emptyValue
  | tooManyHeaders
  deriving DecidableEq, Repr

/-- Results of the decoder can be compared. -/
instance instDecidableEqExcept {ε α : Type} [DecidableEq ε] [DecidableEq α] :
    DecidableEq (Except ε α)
  | .ok a, .ok b =>
    if h : a = b then isTrue (congrArg Except.ok h)
    else isFalse (fun h2 => h (Except.ok.inj h2))
  | .error a, .error b =>
    if h : a = b then isTrue (congrArg Except.error h)
    else isFalse (fun h2 => h (Except.error.inj h2))
  | .ok _, .error _ => isFalse (fun h => Except.noConfusion h)
  | .error _, .ok _ => isFalse (fun h => Except.noConfusion h)

/-- The spec's `KeyTooLong`: the bounded read of the key scan failed. -/
def DecodeError.keyTooLong : DecodeError :=
  .lengthExceeded (headerMaxKeyLength - 1)

/-- The spec's `ValueTooLong`: the bounded read of the value scan failed. -/
def DecodeError.valueTooLong : DecodeError :=
  .lengthExceeded headerMaxValueLength

/-- A `bufio.Reader` over a finite stream: the bytes not yet read. -/
abbrev Reader := List Nat

/-- Equality of a collection and a stream is decidable. -/
instance instDecidableEqHeaderReader : DecidableEq (Header × Reader) :=
  inferInstance

/-- Equality of decoder results is decidable. -/
instance instDecidableEqDecodeResult :
    DecidableEq (Except DecodeError (Header × Reader)) :=
  instDecidableEqExcept

/-- Go `bufio.Reader.ReadByte`; the end of the stream is `io.EOF`. -/
def ReadByte (rb : Reader) : Except DecodeError (Nat × Reader) :=
  match rb with
  | [] => .error .unexpectedEndOfStream
  | byt :: rb => .ok (byt, rb)

/-- Modelled from the spec: `readByteEqual` is not part of `header.go`.  It
reads one byte and requires it to be `cmp` ("require the byte immediately
after to be line-feed (fail `MalformedLineEnding` otherwise)"). -/
def readByteEqual (rb : Reader) (cmp : Nat) : Except DecodeError Reader :=
  match ReadByte rb with
  | .error e => .error e
  | .ok (byt, rb) => if byt = cmp then .ok rb else .error .malformedLineEnding

/-- Modelled from the spec: the scan of `readBytesLimited`, which is not
part of `header.go`.  At most `n` more bytes are read; `limit` is the bound
of the whole read, reported when it is exceeded. -/
def readUntil (delim : Nat) (limit : Nat) :
    Nat → Reader → Except DecodeError (List Nat × Reader)
  | 0, _ => .error (.lengthExceeded limit)
  | _ + 1, [] => .error .unexpectedEndOfStream
  | n + 1, byt :: rb =>
    if byt = delim then .ok ([byt], rb)
    else
      match readUntil delim limit n rb with
      | .error e => .error e
      | .ok (byts, rb) => .ok (byt :: byts, rb)

/-- Modelled from the spec: `readBytesLimited` is not part of `header.go`
("read-until-delimiter-bounded-by-N-bytes").  It reads up to and including
the next `delim` and returns the bytes read, the delimiter last (the caller
drops it with `byts[:len(byts)-1]`); it fails when the first `n` bytes hold
no delimiter, and with end-of-stream when the stream ends first.  The bound
counts the delimiter.  This is the reading under which the key scan of line
60, which passes `headerMaxKeyLength-1`, does what the spec says of it: the
key is the byte read at line 41 followed by the bytes returned without the
colon, it "never exceeds 1023 bytes", and "a key line whose key portion is
1024 bytes long fails with `KeyTooLong`"; a bound that left the delimiter out
would accept a key of 1024 bytes.  Line 81 calls the same function with
`headerMaxValueLength`, so a value and its carriage return together are
bounded by 1024 bytes, as a key and its colon are. -/
def readBytesLimited (rb : Reader) (delim : Nat) (n : Nat) :
    Except DecodeError (List Nat × Reader) :=
  readUntil delim n n rb

/-- Lines 69 to 79 of `headerRead`: bytes are read while they are spaces; the
first other byte is pushed back with `UnreadByte`. -/
def skipSpaces : Reader → Except DecodeError Reader
  | [] => .error .unexpectedEndOfStream
  | byt :: rb => if byt = SP then skipSpaces rb else .ok (byt :: rb)

/-- Lines 55 to 96 of `headerRead`: the body of the loop for a line whose
first byte `byt` is not a carriage return. -/
def headerReadEntry (unicodeLower : Str → Str) (h : Header) (byt : Nat)
    (rb : Reader) : Except DecodeError (Header × Reader) :=
  if Header.len h ≥ headerMaxEntryCount then .error .tooManyHeaders
  else
    match readBytesLimited rb COLON (headerMaxKeyLength - 1) with
    | .error e => .error e
    | .ok (byts, rb) =>
      let key := headerKeyNormalize unicodeLower ([byt] ++ byts.dropLast)
      match skipSpaces rb with
      | .error e => .error e
      | .ok rb =>
        match readBytesLimited rb CR headerMaxValueLength with
        | .error e => .error e
        | .ok (byts, rb) =>
          let val := byts.dropLast
          if val.length = 0 then .error .emptyValue
          else
            match readByteEqual rb LF with
            | .error e => .error e
            | .ok rb => .ok (Header.add h key val, rb)

/-- The loop of `headerRead`, with a bound on the number of iterations;
`none` means that the bound was reached. -/
def headerReadLoop (unicodeLower : Str → Str) :
    Nat → Header → Reader → Option (Except DecodeError (Header × Reader))
  | 0, _, _ => none
  | fuel + 1, h, rb =>
    match ReadByte rb with
    | .error e => some (.error e)
    | .ok (byt, rb) =>
      if byt = CR then
        match readByteEqual rb LF with
        | .error e => some (.error e)
        | .ok rb => some (.ok (h, rb))
      else
        match headerReadEntry unicodeLower h byt rb with
        | .error e => some (.error e)
        | .ok (h, rb) => headerReadLoop unicodeLower fuel h rb

/-- Go `headerRead`.  The result is the collection together with the bytes
left unread.  Every iteration of the loop reads at least one byte, so one
iteration more than the length of the stream is enough. -/
def headerRead (unicodeLower : Str → Str) (rb : Reader) :
    Option (Except DecodeError (Header × Reader)) :=
  headerReadLoop unicodeLower (rb.length + 1) [] rb

/-! ## The encoder -/

/-- Go string comparison `a <= b`: byte-wise lexicographic order. -/
def strLe : Str → Str → Bool
  | [], _ => true
  | _ :: _, [] => false
  | a :: as, b :: bs => decide (a < b) || (a == b && strLe as bs)

/-- Go `sort.Strings`. -/
def sortStrings (keys : List Str) : List Str :=
  keys.insertionSort (fun a b => strLe a b = true)

/-- The inner loop of `Header.write`: one write per value of `key`.  `Write`
is `bufio.Writer.Write` on a sink of state `σ`. -/
def writeValues {σ ε : Type} (Write : σ → List Nat → Except ε σ) (key : Str) :
    List Str → σ → Except ε σ
  | [], wb => .ok wb
  | val :: vals, wb =>
    match Write wb (key ++ bytes ": " ++ val ++ bytes "\r\n") with
    | .error e => .error e
    | .ok wb => writeValues Write key vals wb

/-- The outer loop of `Header.write` over the sorted keys. -/
def writeKeys {σ ε : Type} (Write : σ → List Nat → Except ε σ) (h : Header) :
    List Str → σ → Except ε σ
  | [], wb => .ok wb
  | key :: keys, wb =>
    match writeValues Write key (Header.get h key) wb with
    | .error e => .error e
    | .ok wb => writeKeys Write h keys wb

/-- Go `Header.write`: the sink after the writes, or the first write
failure. -/
def Header.write {σ ε : Type} (Write : σ → List Nat → Except ε σ) (h : Header)
    (wb : σ) : Except ε σ :=
  match writeKeys Write h (sortStrings (Header.keys h)) wb with
  | .error e => .error e
  | .ok wb => Write wb (bytes "\r\n")

/-- A sink that never fails: it appends what is written. -/
def bufferWrite (wb : List Nat) (p : List Nat) : Except Unit (List Nat) :=
  .ok (wb ++ p)

/-- The bytes that `Header.write` writes to a sink that never fails. -/
def encode (h : Header) : List Nat :=
  match Header.write bufferWrite h [] with
  | .ok out => out
  | .error _ => []


/-! ## The wire format -/

/-- One header line on the wire: `key + ": " + value + "\r\n"`. -/
def renderLine (l : Str × Str) : List Nat :=
  l.1 ++ bytes ": " ++ l.2 ++ bytes "\r\n"

/-- A sequence of header lines on the wire. -/
def renderLines : List (Str × Str) → List Nat
  | [] => []
  | l :: ls => renderLine l ++ renderLines ls

/-- A well-formed header line: the key has 1 to 1023 bytes, does not start
with a carriage return and holds no colon; the value has 1 to 1023 bytes,
holds no carriage return and does not start with a space. -/
def WellFormedLine (l : Str × Str) : Prop :=
  (1 ≤ l.1.length ∧ l.1.length ≤ 1023 ∧ l.1.head? ≠ some CR ∧ COLON ∉ l.1) ∧
  (1 ≤ l.2.length ∧ l.2.length ≤ 1023 ∧ CR ∉ l.2 ∧ l.2.head? ≠ some SP)

/-- Whether a line is well formed can be computed. -/
instance WellFormedLine.instDecidable (l : Str × Str) :
    Decidable (WellFormedLine l) :=
  inferInstanceAs (Decidable (_ ∧ _))

/-- The collection built from `h` by appending, line after line, the value
of each line under its normalized key. -/
def addLines (unicodeLower : Str → Str) (h : Header) (ls : List (Str × Str)) :
    Header :=
  ls.foldl (fun h l => Header.add h (headerKeyNormalize unicodeLower l.1) l.2) h

/-- The normalized keys of a sequence of lines. -/
def lineKeys (unicodeLower : Str → Str) (ls : List (Str × Str)) : List Str :=
  ls.map (fun l => headerKeyNormalize unicodeLower l.1)

/-- The values, in wire order, of the lines whose normalized key is `K`. -/
def valuesOf (unicodeLower : Str → Str) (ls : List (Str × Str)) (K : Str) :
    List Str :=
  (ls.filter (fun l => headerKeyNormalize unicodeLower l.1 = K)).map Prod.snd

/-- The invariants of a decoded collection: at most 255 keys, no key twice,
every key at most 1023 bytes long, every value at most 1024 bytes long,
non-empty and not starting with a space. -/
def Header.Decoded (h : Header) : Prop :=
  Header.len h ≤ 255 ∧ Header.WF h ∧
  ∀ e ∈ h, e.1.length ≤ 1023 ∧
    ∀ v ∈ e.2, v.length ≤ 1024 ∧ v ≠ [] ∧ v.head? ≠ some SP

/-- The number of distinct normalized keys of a sequence of lines. -/
def distinctKeys (unicodeLower : Str → Str) (ls : List (Str × Str)) : Nat :=
  ((lineKeys unicodeLower ls).dedup).length

/-- The lines `x: 1`, `xx: 1`, `xxx: 1`, ...: `n` lines with pairwise distinct
keys. -/
def distinctLines (n : Nat) : List (Str × Str) :=
  (List.range n).map (fun i => (List.replicate (i + 1) 120, [49]))

/-- The header lines of the keys `keys` of `h`: for each key, in the order
given, one line per value, in list order. -/
def linesOf (h : Header) : List Str → List (Str × Str)
  | [] => []
  | key :: keys => (Header.get h key).map (fun val => (key, val)) ++ linesOf h keys

/-- Whether a list of entries has pairwise distinct keys can be computed. -/
instance Header.WF.instDecidable (h : Header) : Decidable (Header.WF h) :=
  inferInstanceAs (Decidable (Header.keys h).Nodup)

/-- The invariants of §3 of the spec, as they are worded there: at most 255
keys, every key with its colon at most 1024 bytes, every value at most 1024
bytes, every value non-empty after leading-space trimming. -/
def Header.SpecInvariants (h : Header) : Prop :=
  Header.len h ≤ 255 ∧
  ∀ e ∈ h, e.1.length + 1 ≤ 1024 ∧
    ∀ v ∈ e.2, v.length ≤ 1024 ∧ v.dropWhile (fun c => c == SP) ≠ []

/-- Whether the invariants of §3 hold can be computed. -/
instance Header.SpecInvariants.instDecidable (h : Header) :
    Decidable (Header.SpecInvariants h) :=
  inferInstanceAs (Decidable (_ ∧ _))

/-- The collection with the single key `X` and a single value of 1024 bytes
`a`. -/
def longValueHeader : Header := [([88], [List.replicate 1024 97])]

/-- The collection with the 255 keys `X`, `Xx`, `Xxx`, ..., each with the two
values `1` and `2`. -/
def fullHeader : Header :=
  (List.range 255).map (fun i => (88 :: List.replicate i 120, [[49], [50]]))

/-! ## Lines as the decoder accepts them -/

/-- A line that the decoder accepts: the key has 1 to 1023 bytes, does not
start with a carriage return and holds no colon after its first byte; the
value has 1 to 1023 bytes, holds no carriage return and does not start with a
space. -/
def DecodableLine (l : Str × Str) : Prop :=
  (1 ≤ l.1.length ∧ l.1.length ≤ 1023 ∧ l.1.head? ≠ some CR ∧ COLON ∉ l.1.tail) ∧
  (1 ≤ l.2.length ∧ l.2.length ≤ 1023 ∧ CR ∉ l.2 ∧ l.2.head? ≠ some SP)

/-- Whether the decoder accepts a line can be computed. -/
instance DecodableLine.instDecidable (l : Str × Str) :
    Decidable (DecodableLine l) :=
  inferInstanceAs (Decidable (_ ∧ _))

/-- A header line as it arrives: the key, the number of spaces between the
colon and the value, and the value. -/
abbrev RawLine := Str × Nat × Str

/-- The key and the value of a line. -/
def RawLine.line (l : RawLine) : Str × Str := (l.1, l.2.2)

/-- The bytes of a line: key, colon, spaces, value, carriage return and line
feed. -/
def renderRaw (l : RawLine) : List Nat :=
  l.1 ++ COLON :: (List.replicate l.2.1 SP ++ (l.2.2 ++ [CR, LF]))

/-- The bytes of a sequence of lines. -/
def renderRaws : List RawLine → List Nat
  | [] => []
  | l :: ls => renderRaw l ++ renderRaws ls

/-- Every carriage return of the byte sequence is immediately followed by a
line feed. -/
def crThenLf : List Nat → Bool
  | [] => true
  | c :: t => (c != CR || t.head? == some LF) && crThenLf t

/-- A collection that the decoder returns can be written and read again: every
key is its own normalized key and has at least one value, and every key with
each of its values is a line that the decoder accepts. -/
def Header.Reencodable (unicodeLower : Str → Str) (h : Header) : Prop :=
  ∀ e ∈ h, headerKeyNormalize unicodeLower e.1 = e.1 ∧ e.2 ≠ [] ∧
    ∀ v ∈ e.2, DecodableLine (e.1, v)

/-! # Theorems -/

/-! ## Bytes and literals -/

theorem bytes_rtp_info : bytes "rtp-info" = [114, 116, 112, 45, 105, 110, 102, 111] := by
  decide

theorem bytes_RTP_INFO : bytes "RTP-INFO" = [82, 84, 80, 45, 73, 78, 70, 79] := by
  decide

theorem bytes_www_authenticate : bytes "www-authenticate" =
    [119, 119, 119, 45, 97, 117, 116, 104, 101, 110, 116, 105, 99, 97, 116, 101] := by
  decide

theorem bytes_WWW_Authenticate : bytes "WWW-Authenticate" =
    [87, 87, 87, 45, 65, 117, 116, 104, 101, 110, 116, 105, 99, 97, 116, 101] := by
  decide

theorem bytes_cseq : bytes "cseq" = [99, 115, 101, 113] := by decide

theorem bytes_CSeq : bytes "CSeq" = [67, 83, 101, 113] := by decide

theorem bytes_colon_space : bytes ": " = [COLON, SP] := by decide

theorem bytes_crlf : bytes "\r\n" = [CR, LF] := by decide

theorem lowerByte_idem (c : Nat) : lowerByte (lowerByte c) = lowerByte c := by
  unfold lowerByte; split_ifs <;> omega

theorem lowerByte_upperByte (c : Nat) : lowerByte (upperByte c) = lowerByte c := by
  unfold lowerByte upperByte; split_ifs <;> omega

theorem upperByte_lowerByte (c : Nat) : upperByte (lowerByte c) = upperByte c := by
  unfold lowerByte upperByte; split_ifs <;> omega

theorem upperByte_idem (c : Nat) : upperByte (upperByte c) = upperByte c := by
  unfold upperByte; split_ifs <;> omega

theorem lowerByte_eq_hyphen (c : Nat) : lowerByte c = HYPHEN ↔ c = HYPHEN := by
  unfold lowerByte HYPHEN; split_ifs <;> omega

theorem upperByte_eq_hyphen (c : Nat) : upperByte c = HYPHEN ↔ c = HYPHEN := by
  unfold upperByte HYPHEN; split_ifs <;> omega

theorem validHeaderFieldByte_iff (c : Nat) :
    validHeaderFieldByte c = true ↔
      (48 ≤ c ∧ c ≤ 57) ∨ (97 ≤ c ∧ c ≤ 122) ∨ (65 ≤ c ∧ c ≤ 90) ∨
      c = 33 ∨ c = 35 ∨ c = 36 ∨ c = 37 ∨ c = 38 ∨ c = 39 ∨ c = 42 ∨
      c = 43 ∨ c = 45 ∨ c = 46 ∨ c = 94 ∨ c = 95 ∨ c = 96 ∨ c = 124 ∨
      c = 126 := by
  simp [validHeaderFieldByte, or_assoc]

theorem validHeaderFieldByte_lt (c : Nat) (h : validHeaderFieldByte c = true) :
    c < 128 := by
  rw [validHeaderFieldByte_iff] at h; omega

theorem validHeaderFieldByte_lowerByte (c : Nat) :
    validHeaderFieldByte (lowerByte c) = validHeaderFieldByte c := by
  rw [Bool.eq_iff_iff, validHeaderFieldByte_iff, validHeaderFieldByte_iff]
  unfold lowerByte; split_ifs <;> omega

theorem validHeaderFieldByte_upperByte (c : Nat) :
    validHeaderFieldByte (upperByte c) = validHeaderFieldByte c := by
  rw [Bool.eq_iff_iff, validHeaderFieldByte_iff, validHeaderFieldByte_iff]
  unfold upperByte; split_ifs <;> omega

/-! ## The key normalizer -/

theorem canonicalize_length (u : Bool) (s : Str) :
    (canonicalize u s).length = s.length := by
  induction s generalizing u with
  | nil => rfl
  | cons c cs ih => simp [canonicalize, ih]

theorem map_lowerByte_canonicalize (u : Bool) (s : Str) :
    (canonicalize u s).map lowerByte = s.map lowerByte := by
  induction s generalizing u with
  | nil => rfl
  | cons c cs ih =>
    cases u <;> simp [canonicalize, ih, lowerByte_idem, lowerByte_upperByte]

theorem all_valid_canonicalize (u : Bool) (s : Str) :
    (canonicalize u s).all validHeaderFieldByte = s.all validHeaderFieldByte := by
  induction s generalizing u with
  | nil => rfl
  | cons c cs ih =>
    cases u <;>
      simp [canonicalize, ih, validHeaderFieldByte_lowerByte,
        validHeaderFieldByte_upperByte]

theorem canonicalize_idem (u : Bool) (s : Str) :
    canonicalize u (canonicalize u s) = canonicalize u s := by
  induction s generalizing u with
  | nil => rfl
  | cons c cs ih =>
    cases u <;> simp [canonicalize, ih, lowerByte_idem, upperByte_idem]

theorem canonicalize_congr (u : Bool) (a b : Str)
    (h : a.map lowerByte = b.map lowerByte) :
    canonicalize u a = canonicalize u b := by
  induction a generalizing u b with
  | nil =>
    cases b with
    | nil => rfl
    | cons d ds => simp at h
  | cons c cs ih =>
    cases b with
    | nil => simp at h
    | cons d ds =>
      simp only [List.map_cons, List.cons.injEq] at h
      obtain ⟨h1, h2⟩ := h
      have hu : upperByte c = upperByte d := by
        rw [← upperByte_lowerByte c, ← upperByte_lowerByte d, h1]
      cases u
      · simp only [canonicalize, Bool.false_eq_true, if_false, h1]
        rw [ih _ ds h2]
      · simp only [canonicalize, if_true, hu]
        rw [ih _ ds h2]

theorem all_lt_of_all_valid (s : Str) (h : s.all validHeaderFieldByte = true) :
    s.all (fun c => decide (c < 128)) = true := by
  rw [List.all_eq_true] at h ⊢
  intro c hc
  simpa using validHeaderFieldByte_lt c (h c hc)

theorem stringsToLower_ascii (ul : Str → Str) (s : Str)
    (h : s.all (fun c => decide (c < 128)) = true) :
    stringsToLower ul s = s.map lowerByte := by
  simp only [stringsToLower, h, if_true]

theorem stringsToLower_CanonicalHeaderKey (ul : Str → Str) (s : Str) :
    stringsToLower ul (CanonicalHeaderKey s) = stringsToLower ul s := by
  unfold CanonicalHeaderKey
  split_ifs with h
  · have h2 : (canonicalize true s).all validHeaderFieldByte = true := by
      rw [all_valid_canonicalize]; exact h
    rw [stringsToLower_ascii ul _ (all_lt_of_all_valid _ h2),
      stringsToLower_ascii ul _ (all_lt_of_all_valid _ h),
      map_lowerByte_canonicalize]
  · rfl

theorem CanonicalHeaderKey_idem (s : Str) :
    CanonicalHeaderKey (CanonicalHeaderKey s) = CanonicalHeaderKey s := by
  unfold CanonicalHeaderKey
  split_ifs with h h2
  · exact canonicalize_idem true s
  · rfl
  · rfl

theorem headerKeyNormalize_RTP_INFO (ul : Str → Str) :
    headerKeyNormalize ul (bytes "RTP-INFO") = bytes "RTP-INFO" := by
  have h : stringsToLower ul (bytes "RTP-INFO") = bytes "rtp-info" := by
    rw [stringsToLower_ascii ul _ (by decide)]; decide
  simp only [headerKeyNormalize, h, if_true]

theorem headerKeyNormalize_WWW_Authenticate (ul : Str → Str) :
    headerKeyNormalize ul (bytes "WWW-Authenticate") = bytes "WWW-Authenticate" := by
  have h : stringsToLower ul (bytes "WWW-Authenticate") = bytes "www-authenticate" := by
    rw [stringsToLower_ascii ul _ (by decide)]; decide
  have h2 : ¬ bytes "www-authenticate" = bytes "rtp-info" := by decide
  simp only [headerKeyNormalize, h, h2, if_true, if_false]

theorem headerKeyNormalize_CSeq (ul : Str → Str) :
    headerKeyNormalize ul (bytes "CSeq") = bytes "CSeq" := by
  have h : stringsToLower ul (bytes "CSeq") = bytes "cseq" := by
    rw [stringsToLower_ascii ul _ (by decide)]; decide
  have h2 : ¬ bytes "cseq" = bytes "rtp-info" := by decide
  have h3 : ¬ bytes "cseq" = bytes "www-authenticate" := by decide
  simp only [headerKeyNormalize, h, h2, h3, if_true, if_false]

/-- C5: the key normalizer is a total function, and it is idempotent: a
normalized key normalizes to itself, whatever the input string. -/
theorem headerKeyNormalize_idempotent (unicodeLower : Str → Str) (k : Str) :
    headerKeyNormalize unicodeLower (headerKeyNormalize unicodeLower k) =
      headerKeyNormalize unicodeLower k := by
  by_cases h1 : stringsToLower unicodeLower k = bytes "rtp-info"
  · have e : headerKeyNormalize unicodeLower k = bytes "RTP-INFO" := by
      simp only [headerKeyNormalize, h1, if_true]
    rw [e]; exact headerKeyNormalize_RTP_INFO unicodeLower
  by_cases h2 : stringsToLower unicodeLower k = bytes "www-authenticate"
  · have e : headerKeyNormalize unicodeLower k = bytes "WWW-Authenticate" := by
      unfold headerKeyNormalize; simp only []; rw [if_neg h1, if_pos h2]
    rw [e]; exact headerKeyNormalize_WWW_Authenticate unicodeLower
  by_cases h3 : stringsToLower unicodeLower k = bytes "cseq"
  · have e : headerKeyNormalize unicodeLower k = bytes "CSeq" := by
      unfold headerKeyNormalize; simp only []
      rw [if_neg h1, if_neg h2, if_pos h3]
    rw [e]; exact headerKeyNormalize_CSeq unicodeLower
  have e : headerKeyNormalize unicodeLower k = CanonicalHeaderKey k := by
    simp only [headerKeyNormalize, h1, h2, h3, if_false]
  rw [e]
  simp only [headerKeyNormalize, stringsToLower_CanonicalHeaderKey, h1, h2, h3,
    if_false, CanonicalHeaderKey_idem]

theorem headerKeyNormalize_generic (ul : Str → Str) (k : Str)
    (h1 : stringsToLower ul k ≠ bytes "rtp-info")
    (h2 : stringsToLower ul k ≠ bytes "www-authenticate")
    (h3 : stringsToLower ul k ≠ bytes "cseq") :
    headerKeyNormalize ul k = CanonicalHeaderKey k := by
  unfold headerKeyNormalize; simp only []
  rw [if_neg h1, if_neg h2, if_neg h3]

theorem headerKeyNormalize_ascii (ul : Str → Str) (k : Str)
    (h : k.all (fun c => decide (c < 128)) = true) :
    headerKeyNormalize ul k = headerKeyNormalize id k := by
  unfold headerKeyNormalize
  rw [stringsToLower_ascii ul k h, stringsToLower_ascii id k h]

theorem all_valid_of_sameUpToCase (a b : Str) (h : sameUpToCase a b) :
    b.all validHeaderFieldByte = a.all validHeaderFieldByte := by
  have e : ∀ s : Str, (s.map lowerByte).all validHeaderFieldByte =
      s.all validHeaderFieldByte := by
    intro s
    induction s with
    | nil => rfl
    | cons c cs ih =>
      simp only [List.map_cons, List.all_cons, validHeaderFieldByte_lowerByte, ih]
  rw [← e b, ← e a, h]

/-- C4, as amended: two raw keys made of valid header field bytes (RFC 7230
token characters) that differ only in letter case normalize to the same
key. -/
theorem headerKeyNormalize_case_insensitive (unicodeLower : Str → Str) (a b : Str)
    (ha : a.all validHeaderFieldByte = true) (h : sameUpToCase a b) :
    headerKeyNormalize unicodeLower a = headerKeyNormalize unicodeLower b := by
  have hb : b.all validHeaderFieldByte = true := by
    rw [all_valid_of_sameUpToCase a b h]; exact ha
  have la : stringsToLower unicodeLower a = stringsToLower unicodeLower b := by
    rw [stringsToLower_ascii _ _ (all_lt_of_all_valid _ ha),
      stringsToLower_ascii _ _ (all_lt_of_all_valid _ hb)]
    exact h
  have ca : CanonicalHeaderKey a = CanonicalHeaderKey b := by
    unfold CanonicalHeaderKey
    rw [if_pos ha, if_pos hb]
    exact canonicalize_congr true a b h
  unfold headerKeyNormalize
  rw [la, ca]

/-- C4, witness: `content-length` and `CONTENT-Length`. -/
theorem headerKeyNormalize_case_insensitive_witness :
    (bytes "content-length").all validHeaderFieldByte = true ∧
      sameUpToCase (bytes "content-length") (bytes "CONTENT-Length") ∧
      headerKeyNormalize id (bytes "content-length") =
        headerKeyNormalize id (bytes "CONTENT-Length") :=
  ⟨by decide, by decide,
    headerKeyNormalize_case_insensitive id (bytes "content-length")
      (bytes "CONTENT-Length") (by decide) (by decide)⟩

/-- C4, counterexample: `a b` and `A B` differ only in letter case, and each
is its own normalized key, because a key with a space is not rewritten by
`http.CanonicalHeaderKey`. -/
theorem headerKeyNormalize_case_sensitive_with_space :
    sameUpToCase (bytes "a b") (bytes "A B") ∧
      (∀ unicodeLower : Str → Str,
        headerKeyNormalize unicodeLower (bytes "a b") = bytes "a b" ∧
        headerKeyNormalize unicodeLower (bytes "A B") = bytes "A B") ∧
      bytes "a b" ≠ bytes "A B" := by
  refine ⟨by decide, fun ul => ⟨?_, ?_⟩, by decide⟩
  · rw [headerKeyNormalize_ascii ul _ (by decide)]; decide
  · rw [headerKeyNormalize_ascii ul _ (by decide)]; decide

theorem splitOn_ne_nil (sep : Nat) (s : Str) : splitOn sep s ≠ [] := by
  cases s with
  | nil => simp [splitOn]
  | cons c cs =>
    unfold splitOn
    split_ifs
    · simp
    · split <;> simp

theorem joinWith_cons_cons (sep c : Nat) (seg : Str) (segs : List Str) :
    joinWith sep ((c :: seg) :: segs) = c :: joinWith sep (seg :: segs) := by
  cases segs <;> simp [joinWith]

theorem canonicalize_eq_joinWith (u : Bool) (s : Str) :
    ∃ seg segs, splitOn HYPHEN s = seg :: segs ∧
      canonicalize u s = joinWith HYPHEN
        ((if u then titleSegment seg else seg.map lowerByte) ::
          segs.map titleSegment) := by
  induction s generalizing u with
  | nil => exact ⟨[], [], rfl, by cases u <;> rfl⟩
  | cons c cs ih =>
    by_cases hc : c = HYPHEN
    · obtain ⟨seg, segs, e1, e2⟩ := ih true
      refine ⟨[], seg :: segs, by simp [splitOn, hc, e1], ?_⟩
      have hc1 : (if u then upperByte c else lowerByte c) = HYPHEN := by
        subst hc; cases u <;> decide
      simp only [canonicalize, hc1, beq_self_eq_true, e2, if_true]
      cases u <;> simp [joinWith, titleSegment]
    · obtain ⟨seg, segs, e1, e2⟩ := ih false
      refine ⟨c :: seg, segs, by simp [splitOn, hc, e1], ?_⟩
      have hc1 : ((if u then upperByte c else lowerByte c) == HYPHEN) = false := by
        cases u
        · simpa [lowerByte_eq_hyphen] using hc
        · simpa [upperByte_eq_hyphen] using hc
      simp only [canonicalize, hc1, e2]
      cases u <;> simp [titleSegment, joinWith_cons_cons]

theorem canonicalize_eq_titleCaseKey (s : Str) :
    canonicalize true s = titleCaseKey s := by
  obtain ⟨seg, segs, e1, e2⟩ := canonicalize_eq_joinWith true s
  simp [titleCaseKey, e1, e2]

/-- C6, as amended: the three exceptions are matched on the lower-cased key;
every other key made of valid header field bytes (RFC 7230 token characters)
is split on hyphens, each segment with its first letter upper-cased and the
rest lower-cased, and rejoined with hyphens; every other key that holds some
other byte is returned unchanged. -/
theorem headerKeyNormalize_eq_reference (unicodeLower : Str → Str) (k : Str) :
    headerKeyNormalize unicodeLower k =
      if stringsToLower unicodeLower k = bytes "cseq" ∨
          stringsToLower unicodeLower k = bytes "www-authenticate" ∨
          stringsToLower unicodeLower k = bytes "rtp-info" ∨
          k.all validHeaderFieldByte = true
      then normalizeSpec unicodeLower k else k := by
  have d1 : bytes "cseq" ≠ bytes "rtp-info" := by decide
  have d2 : bytes "cseq" ≠ bytes "www-authenticate" := by decide
  have d3 : bytes "www-authenticate" ≠ bytes "rtp-info" := by decide
  by_cases h3 : stringsToLower unicodeLower k = bytes "cseq"
  · simp [headerKeyNormalize, normalizeSpec, h3, d1, d2]
  by_cases h2 : stringsToLower unicodeLower k = bytes "www-authenticate"
  · simp [headerKeyNormalize, normalizeSpec, h2, d3, d2.symm]
  by_cases h1 : stringsToLower unicodeLower k = bytes "rtp-info"
  · simp [headerKeyNormalize, normalizeSpec, h1, d1.symm, d3.symm]
  rw [headerKeyNormalize_generic unicodeLower k h1 h2 h3]
  by_cases hv : k.all validHeaderFieldByte = true
  · rw [if_pos (Or.inr (Or.inr (Or.inr hv)))]
    unfold normalizeSpec CanonicalHeaderKey; simp only []
    rw [if_neg h3, if_neg h2, if_neg h1, if_pos hv, canonicalize_eq_titleCaseKey]
  · rw [if_neg (by simp [h1, h2, h3, hv])]
    unfold CanonicalHeaderKey; rw [if_neg hv]

/-- C6, counterexample: the key `a b` is returned unchanged, while the
generic rule of the spec gives `A b`. -/
theorem headerKeyNormalize_differs_from_spec :
    (∀ unicodeLower : Str → Str,
        headerKeyNormalize unicodeLower (bytes "a b") = bytes "a b" ∧
        normalizeSpec unicodeLower (bytes "a b") = bytes "A b") ∧
      bytes "a b" ≠ bytes "A b" := by
  refine ⟨fun ul => ⟨?_, ?_⟩, by decide⟩
  · rw [headerKeyNormalize_ascii ul _ (by decide)]; decide
  · unfold normalizeSpec
    rw [stringsToLower_ascii ul _ (by decide)]; decide

/-! ## The bounded reads -/

theorem readUntil_found (delim lim : Nat) (pre rest : List Nat) (n : Nat)
    (h1 : delim ∉ pre) (h2 : pre.length < n) :
    readUntil delim lim n (pre ++ delim :: rest) = .ok (pre ++ [delim], rest) := by
  induction pre generalizing n with
  | nil =>
    cases n with
    | zero => simp at h2
    | succ m => simp [readUntil]
  | cons c cs ih =>
    cases n with
    | zero => simp at h2
    | succ m =>
      have hc : c ≠ delim := fun e => h1 (by simp [e])
      have hcs : delim ∉ cs := fun e => h1 (by simp [e])
      have hm : cs.length < m := by simpa using h2
      simp [readUntil, hc, ih m hcs hm]

theorem readUntil_exceeded (delim lim : Nat) (n : Nat) (s : List Nat)
    (h1 : n ≤ s.length) (h2 : ∀ c ∈ s.take n, c ≠ delim) :
    readUntil delim lim n s = .error (.lengthExceeded lim) := by
  induction n generalizing s with
  | zero => simp [readUntil]
  | succ m ih =>
    cases s with
    | nil => simp at h1
    | cons c cs =>
      have hc : c ≠ delim := h2 c (by simp)
      have hm : m ≤ cs.length := by simpa using h1
      have hcs : ∀ d ∈ cs.take m, d ≠ delim := fun d hd => h2 d (by simp [hd])
      simp [readUntil, hc, ih cs hm hcs]

theorem skipSpaces_replicate (n c : Nat) (rest : List Nat) (h : c ≠ SP) :
    skipSpaces (List.replicate n SP ++ c :: rest) = .ok (c :: rest) := by
  induction n with
  | zero => simp [skipSpaces, h]
  | succ m ih => simp [List.replicate_succ, skipSpaces, ih]

theorem readByteEqual_cons (c : Nat) (rest : List Nat) :
    readByteEqual (c :: rest) c = .ok rest := by
  simp [readByteEqual, ReadByte]

/-- One line, seen from the loop body: the first byte of the key has been
read, the rest of the key, the colon, a run of spaces, the value and the line
ending follow. -/
theorem headerReadEntry_line (ul : Str → Str) (h : Header) (byt : Nat)
    (krest : Str) (n : Nat) (v : Str) (rest : List Nat)
    (hlen : Header.len h < headerMaxEntryCount)
    (hk1 : COLON ∉ krest) (hk2 : krest.length + 1 ≤ 1023)
    (hv1 : v ≠ []) (hv2 : v.head? ≠ some SP) (hv3 : CR ∉ v)
    (hv4 : v.length ≤ 1023) :
    headerReadEntry ul h byt
        (krest ++ COLON :: (List.replicate n SP ++ (v ++ CR :: LF :: rest))) =
      .ok (Header.add h (headerKeyNormalize ul (byt :: krest)) v, rest) := by
  obtain ⟨c, cs, rfl⟩ := List.exists_cons_of_ne_nil hv1
  have hc : c ≠ SP := by simpa using hv2
  have e1 : readBytesLimited
      (krest ++ COLON :: (List.replicate n SP ++ (c :: cs ++ CR :: LF :: rest)))
      COLON (headerMaxKeyLength - 1) =
      .ok (krest ++ [COLON], List.replicate n SP ++ (c :: cs ++ CR :: LF :: rest)) :=
    readUntil_found COLON _ krest _ _ hk1 (by simp [headerMaxKeyLength]; omega)
  have e2 : skipSpaces (List.replicate n SP ++ (c :: cs ++ CR :: LF :: rest)) =
      .ok (c :: cs ++ CR :: LF :: rest) := by
    simpa using skipSpaces_replicate n c (cs ++ CR :: LF :: rest) hc
  have e3 : readBytesLimited (c :: cs ++ CR :: LF :: rest) CR headerMaxValueLength =
      .ok ((c :: cs) ++ [CR], LF :: rest) :=
    readUntil_found CR _ (c :: cs) _ _ hv3
      (by simp [headerMaxValueLength] at hv4 ⊢; omega)
  unfold headerReadEntry
  rw [if_neg (by omega), e1]
  simp only [e2, e3, List.dropLast_concat, List.singleton_append]
  rw [if_neg (by simp)]
  simp only [readByteEqual_cons]

/-! ## The collection as a map -/

theorem Header.find?_eq_none (h : Header) (key : Str) :
    Header.find? h key = none ↔ key ∉ Header.keys h := by
  induction h with
  | nil => simp [Header.find?, Header.keys]
  | cons e h ih =>
    obtain ⟨k, v⟩ := e
    by_cases hk : k = key
    · simp [Header.find?, Header.keys, hk]
    · have hk2 : ¬ key = k := fun e => hk e.symm
      simp only [Header.find?, if_neg hk, ih]
      simp [Header.keys, hk2]

theorem Header.find?_set (h : Header) (key : Str) (v : HeaderValue) (key2 : Str) :
    Header.find? (Header.set h key v) key2 =
      if key = key2 then some v else Header.find? h key2 := by
  induction h with
  | nil => simp [Header.set, Header.find?]
  | cons e h ih =>
    obtain ⟨k, w⟩ := e
    by_cases hk : k = key
    · subst hk
      by_cases h2 : k = key2 <;> simp [Header.set, Header.find?, h2]
    · by_cases h2 : k = key2
      · subst h2
        have hk3 : ¬ key = k := fun e => hk e.symm
        simp [Header.set, Header.find?, hk, hk3]
      · simp [Header.set, Header.find?, hk, h2, ih]

theorem Header.keys_set (h : Header) (key : Str) (v : HeaderValue) :
    Header.keys (Header.set h key v) =
      if key ∈ Header.keys h then Header.keys h else Header.keys h ++ [key] := by
  induction h with
  | nil => simp [Header.set, Header.keys]
  | cons e h ih =>
    obtain ⟨k, w⟩ := e
    by_cases hk : k = key
    · subst hk; simp [Header.set, Header.keys]
    · have hk2 : ¬ key = k := fun e => hk e.symm
      have ih2 := ih
      simp only [Header.keys] at ih2
      simp only [Header.set, if_neg hk, Header.keys, List.map_cons, List.mem_cons,
        hk2, false_or, ih2]
      split_ifs <;> simp

theorem Header.len_eq_keys (h : Header) : Header.len h = (Header.keys h).length := by
  simp [Header.len, Header.keys]

theorem Header.len_set (h : Header) (key : Str) (v : HeaderValue) :
    Header.len (Header.set h key v) =
      if key ∈ Header.keys h then Header.len h else Header.len h + 1 := by
  rw [Header.len_eq_keys, Header.keys_set, Header.len_eq_keys]
  split_ifs <;> simp

theorem Header.WF_set (h : Header) (key : Str) (v : HeaderValue)
    (hw : Header.WF h) : Header.WF (Header.set h key v) := by
  unfold Header.WF at hw ⊢
  rw [Header.keys_set]
  split_ifs with hk
  · exact hw
  · rw [List.nodup_append]
    refine ⟨hw, by simp, ?_⟩
    intro a ha hb
    simp only [List.mem_singleton] at hb
    subst hb
    exact absurd ha hk

theorem Header.get_add (h : Header) (key val key2 : Str) :
    Header.get (Header.add h key val) key2 =
      if key = key2 then Header.get h key ++ [val] else Header.get h key2 := by
  unfold Header.add Header.get
  rw [Header.find?_set]
  split_ifs <;> rfl

theorem Header.len_add_le (h : Header) (key val : Str) :
    Header.len (Header.add h key val) ≤ Header.len h + 1 := by
  unfold Header.add
  rw [Header.len_set]
  split_ifs <;> omega

theorem Header.mem_keys_add (h : Header) (key val key2 : Str) :
    key2 ∈ Header.keys (Header.add h key val) ↔ key2 = key ∨ key2 ∈ Header.keys h := by
  unfold Header.add
  rw [Header.keys_set]
  split_ifs with hk
  · constructor
    · exact fun h => Or.inr h
    · rintro (h | h)
      · subst h; exact hk
      · exact h
  · simp [or_comm]

theorem Header.mem_keys_of_get_ne_nil (h : Header) (key : Str)
    (hg : Header.get h key ≠ []) : key ∈ Header.keys h := by
  by_contra hk
  rw [← Header.find?_eq_none] at hk
  simp [Header.get, hk] at hg

/-! ## The collection built from a sequence of lines -/

theorem addLines_cons (ul : Str → Str) (h : Header) (l : Str × Str)
    (ls : List (Str × Str)) :
    addLines ul h (l :: ls) =
      addLines ul (Header.add h (headerKeyNormalize ul l.1) l.2) ls := rfl

theorem addLines_append (ul : Str → Str) (h : Header) (ls ms : List (Str × Str)) :
    addLines ul h (ls ++ ms) = addLines ul (addLines ul h ls) ms := by
  simp [addLines, List.foldl_append]

theorem get_addLines (ul : Str → Str) (h : Header) (ls : List (Str × Str))
    (K : Str) :
    Header.get (addLines ul h ls) K = Header.get h K ++ valuesOf ul ls K := by
  induction ls generalizing h with
  | nil => simp [addLines, valuesOf]
  | cons l ls ih =>
    rw [addLines_cons, ih, Header.get_add]
    by_cases hk : headerKeyNormalize ul l.1 = K
    · subst hk
      simp [valuesOf, List.filter_cons]
    · simp [valuesOf, List.filter_cons, hk]

theorem mem_keys_addLines (ul : Str → Str) (h : Header) (ls : List (Str × Str))
    (K : Str) :
    K ∈ Header.keys (addLines ul h ls) ↔ K ∈ Header.keys h ∨ K ∈ lineKeys ul ls := by
  induction ls generalizing h with
  | nil => simp [addLines, lineKeys]
  | cons l ls ih =>
    rw [addLines_cons, ih, Header.mem_keys_add]
    simp only [lineKeys, List.map_cons, List.mem_cons]
    tauto

theorem WF_addLines (ul : Str → Str) (h : Header) (ls : List (Str × Str))
    (hw : Header.WF h) : Header.WF (addLines ul h ls) := by
  induction ls generalizing h with
  | nil => exact hw
  | cons l ls ih =>
    rw [addLines_cons]
    exact ih _ (Header.WF_set _ _ _ hw)

theorem len_addLines_le (ul : Str → Str) (h : Header) (ls : List (Str × Str)) :
    Header.len (addLines ul h ls) ≤ Header.len h + ls.length := by
  induction ls generalizing h with
  | nil => simp [addLines]
  | cons l ls ih =>
    rw [addLines_cons]
    have h1 := ih (Header.add h (headerKeyNormalize ul l.1) l.2)
    have h2 := Header.len_add_le h (headerKeyNormalize ul l.1) l.2
    simp only [List.length_cons]
    omega

theorem valuesOf_ne_nil (ul : Str → Str) (ls : List (Str × Str)) (K : Str)
    (hK : K ∈ lineKeys ul ls) : valuesOf ul ls K ≠ [] := by
  simp only [lineKeys, List.mem_map] at hK
  obtain ⟨l, hl, e⟩ := hK
  intro hv
  have : l ∈ ls.filter (fun l => headerKeyNormalize ul l.1 = K) := by
    simp [List.mem_filter, hl, e]
  simp only [valuesOf, List.map_eq_nil_iff] at hv
  rw [hv] at this
  simp at this

theorem find?_addLines (ul : Str → Str) (ls : List (Str × Str)) (K : Str) :
    Header.find? (addLines ul [] ls) K =
      if K ∈ lineKeys ul ls then some (valuesOf ul ls K) else none := by
  split_ifs with hK
  · have hg := get_addLines ul [] ls K
    have hm : K ∈ Header.keys (addLines ul [] ls) :=
      (mem_keys_addLines ul [] ls K).2 (Or.inr hK)
    cases hf : Header.find? (addLines ul [] ls) K with
    | none => exact absurd hm ((Header.find?_eq_none _ _).1 hf)
    | some vs =>
      simp only [Header.get, hf, Option.getD_some, Header.find?, Option.getD_none,
        List.nil_append] at hg
      rw [hg]
  · rw [Header.find?_eq_none, mem_keys_addLines]
    simp [Header.keys, hK]

/-! ## The decoder on a block of well-formed lines -/

theorem renderLine_eq (k v : Str) :
    renderLine (k, v) = k ++ COLON :: SP :: (v ++ [CR, LF]) := by
  simp [renderLine, bytes_colon_space, bytes_crlf]

theorem length_le_renderLines (ls : List (Str × Str)) :
    ls.length ≤ (renderLines ls).length := by
  induction ls with
  | nil => simp
  | cons l ls ih =>
    obtain ⟨k, v⟩ := l
    simp only [renderLines, renderLine_eq, List.length_cons, List.length_append]
    omega

theorem renderLines_append (ls ms : List (Str × Str)) :
    renderLines (ls ++ ms) = renderLines ls ++ renderLines ms := by
  induction ls with
  | nil => rfl
  | cons l ls ih => simp [renderLines, ih]

/-- The loop on a block of well-formed lines: as long as the collection holds
fewer than 255 keys whenever a line starts, every line is appended. -/
theorem headerReadLoop_lines (ul : Str → Str) (ls : List (Str × Str)) (h : Header)
    (rest : List Nat) (fuel : Nat)
    (hwf : ∀ l ∈ ls, WellFormedLine l)
    (hg : ∀ i, i < ls.length →
      Header.len (addLines ul h (ls.take i)) < headerMaxEntryCount)
    (hf : ls.length < fuel) :
    headerReadLoop ul fuel h (renderLines ls ++ CR :: LF :: rest) =
      some (.ok (addLines ul h ls, rest)) := by
  induction ls generalizing h fuel with
  | nil =>
    cases fuel with
    | zero => simp at hf
    | succ f => simp [renderLines, headerReadLoop, ReadByte, readByteEqual, addLines]
  | cons l ls ih =>
    cases fuel with
    | zero => simp at hf
    | succ f =>
      obtain ⟨k, v⟩ := l
      obtain ⟨⟨hk1, hk2, hk3, hk4⟩, hv1, hv2, hv3, hv4⟩ :=
        hwf (k, v) (by simp)
      cases k with
      | nil => simp at hk1
      | cons b krest =>
        have hb : b ≠ CR := by simpa using hk3
        have hlen : Header.len h < headerMaxEntryCount := by
          simpa [addLines] using hg 0 (by simp)
        have he := headerReadEntry_line ul h b krest 1 v
          (renderLines ls ++ CR :: LF :: rest) hlen
          (fun hc => hk4 (by simp [hc]))
          (by simpa using hk2)
          (by intro e; simp [e] at hv1) hv4 hv3 hv2
        have hin : renderLines ((b :: krest, v) :: ls) ++ CR :: LF :: rest =
            b :: (krest ++ COLON :: (List.replicate 1 SP ++
              (v ++ CR :: LF :: (renderLines ls ++ CR :: LF :: rest)))) := by
          simp [renderLines, renderLine_eq]
        rw [hin]
        simp only [headerReadLoop, ReadByte, if_neg hb, he]
        rw [addLines_cons]
        apply ih
        · intro l hl; exact hwf l (by simp [hl])
        · intro i hi
          have := hg (i + 1) (by simpa using hi)
          simpa [addLines_cons] using this
        · simpa using hf

theorem headerRead_lines (ul : Str → Str) (ls : List (Str × Str)) (rest : List Nat)
    (hwf : ∀ l ∈ ls, WellFormedLine l)
    (hg : ∀ i, i < ls.length →
      Header.len (addLines ul [] (ls.take i)) < headerMaxEntryCount) :
    headerRead ul (renderLines ls ++ CR :: LF :: rest) =
      some (.ok (addLines ul [] ls, rest)) := by
  unfold headerRead
  apply headerReadLoop_lines ul ls [] rest _ hwf hg
  have := length_le_renderLines ls
  simp only [List.length_append, List.length_cons]
  omega

/-- C3: a block of at most 255 well-formed lines, followed by the blank line,
decodes successfully; the result maps each normalized key that occurs to the
values of the lines with that key, in wire order, and holds no other key;
repeated keys are appended, never merged or overwritten. -/
theorem headerRead_wellFormed_block (unicodeLower : Str → Str)
    (ls : List (Str × Str)) (rest : List Nat)
    (hn : ls.length ≤ 255) (hwf : ∀ l ∈ ls, WellFormedLine l) :
    headerRead unicodeLower (renderLines ls ++ bytes "\r\n" ++ rest) =
        some (.ok (addLines unicodeLower [] ls, rest)) ∧
      Header.WF (addLines unicodeLower [] ls) ∧
      ∀ K, Header.find? (addLines unicodeLower [] ls) K =
        if K ∈ lineKeys unicodeLower ls then some (valuesOf unicodeLower ls K)
        else none := by
  refine ⟨?_, WF_addLines _ _ _ (by simp [Header.WF, Header.keys]),
    find?_addLines unicodeLower ls⟩
  have e : renderLines ls ++ bytes "\r\n" ++ rest =
      renderLines ls ++ CR :: LF :: rest := by
    simp [bytes_crlf]
  rw [e]
  apply headerRead_lines unicodeLower ls rest hwf
  intro i hi
  have h1 := len_addLines_le unicodeLower [] (ls.take i)
  simp only [Header.len, List.length_nil, List.length_take, zero_add] at h1
  simp only [Header.len, headerMaxEntryCount]
  omega

/-- C3, witness: `Set-Cookie: a`, `Set-Cookie: b` and the blank line give one
key with the value list `a`, `b`. -/
theorem headerRead_wellFormed_block_witness :
    headerRead id (bytes "Set-Cookie: a\r\nSet-Cookie: b\r\n\r\n") =
      some (.ok ([(bytes "Set-Cookie", [bytes "a", bytes "b"])], [])) :=
  (headerRead_wellFormed_block id
    [(bytes "Set-Cookie", bytes "a"), (bytes "Set-Cookie", bytes "b")] []
    (by decide) (by decide)).1

/-! ## What a successful read has consumed -/

theorem readUntil_ok_inv (delim lim : Nat) (n : Nat) (s byts r : List Nat)
    (h : readUntil delim lim n s = .ok (byts, r)) :
    ∃ pre, byts = pre ++ [delim] ∧ s = pre ++ delim :: r ∧ delim ∉ pre ∧
      pre.length < n := by
  induction n generalizing s byts r with
  | zero => simp [readUntil] at h
  | succ m ih =>
    cases s with
    | nil => simp [readUntil] at h
    | cons c cs =>
      by_cases hc : c = delim
      · simp only [readUntil, if_pos hc, Except.ok.injEq, Prod.mk.injEq] at h
        obtain ⟨h1, h2⟩ := h
        exact ⟨[], by simp [← h1, hc], by simp [← h2, hc], by simp, by simp⟩
      · simp only [readUntil, if_neg hc] at h
        cases e : readUntil delim lim m cs with
        | error err => simp [e] at h
        | ok p =>
          obtain ⟨b2, r2⟩ := p
          simp only [e, Except.ok.injEq, Prod.mk.injEq] at h
          obtain ⟨h1, h2⟩ := h
          obtain ⟨pre, e1, e2, e3, e4⟩ := ih cs b2 r2 e
          refine ⟨c :: pre, by simp [← h1, e1], by simp [← h2, e2], ?_, by simpa using e4⟩
          simp only [List.mem_cons, not_or]
          exact ⟨fun e => hc e.symm, e3⟩

theorem skipSpaces_ok_inv (s r : List Nat) (h : skipSpaces s = .ok r) :
    ∃ n, s = List.replicate n SP ++ r ∧ r.head? ≠ some SP ∧ r ≠ [] := by
  induction s with
  | nil => simp [skipSpaces] at h
  | cons c cs ih =>
    by_cases hc : c = SP
    · simp only [skipSpaces, if_pos hc] at h
      obtain ⟨n, e1, e2, e3⟩ := ih h
      exact ⟨n + 1, by rw [List.replicate_succ, hc, List.cons_append, ← e1], e2, e3⟩
    · simp only [skipSpaces, if_neg hc, Except.ok.injEq] at h
      exact ⟨0, by simp [h], by simp [← h, hc], by simp [← h]⟩

theorem readByteEqual_ok_inv (s r : List Nat) (c : Nat)
    (h : readByteEqual s c = .ok r) : s = c :: r := by
  cases s with
  | nil => simp [readByteEqual, ReadByte] at h
  | cons d ds =>
    by_cases hd : d = c
    · simp only [readByteEqual, ReadByte, if_pos hd, Except.ok.injEq] at h
      rw [hd, h]
    · simp [readByteEqual, ReadByte, hd] at h

/-- A loop body that succeeds has read one line: the rest of the key, the
colon, a run of spaces, a value and the line ending. -/
theorem headerReadEntry_ok_inv (ul : Str → Str) (h : Header) (byt : Nat)
    (rb : Reader) (h2 : Header) (rb2 : Reader)
    (he : headerReadEntry ul h byt rb = .ok (h2, rb2)) :
    ∃ krest n v,
      rb = krest ++ COLON :: (List.replicate n SP ++ (v ++ CR :: LF :: rb2)) ∧
      Header.len h < headerMaxEntryCount ∧
      COLON ∉ krest ∧ krest.length + 1 ≤ 1023 ∧
      v ≠ [] ∧ v.head? ≠ some SP ∧ CR ∉ v ∧ v.length ≤ 1023 ∧
      h2 = Header.add h (headerKeyNormalize ul (byt :: krest)) v := by
  unfold headerReadEntry at he
  by_cases hl : Header.len h ≥ headerMaxEntryCount
  · simp [hl] at he
  rw [if_neg hl] at he
  cases e1 : readBytesLimited rb COLON (headerMaxKeyLength - 1) with
  | error err => simp [e1] at he
  | ok p1 =>
    obtain ⟨byts1, rb1⟩ := p1
    simp only [e1] at he
    cases e2 : skipSpaces rb1 with
    | error err => simp [e2] at he
    | ok rbs =>
      simp only [e2] at he
      cases e3 : readBytesLimited rbs CR headerMaxValueLength with
      | error err => simp [e3] at he
      | ok p3 =>
        obtain ⟨byts3, rb3⟩ := p3
        simp only [e3] at he
        by_cases hv : byts3.dropLast.length = 0
        · simp [hv] at he
        rw [if_neg hv] at he
        cases e4 : readByteEqual rb3 LF with
        | error err => simp [e4] at he
        | ok rb4 =>
          simp only [e4, Except.ok.injEq, Prod.mk.injEq] at he
          obtain ⟨he1, he2⟩ := he
          obtain ⟨krest, k1, k2, k3, k4⟩ := readUntil_ok_inv _ _ _ _ _ _ e1
          obtain ⟨n, s1, s2, s3⟩ := skipSpaces_ok_inv _ _ e2
          obtain ⟨v, v1, v2, v3, v4⟩ := readUntil_ok_inv _ _ _ _ _ _ e3
          have l1 := readByteEqual_ok_inv _ _ _ e4
          subst k1 v1
          simp only [List.dropLast_concat, List.length_eq_zero] at hv
          refine ⟨krest, n, v, ?_, by omega, k3, ?_, hv, ?_, v3, ?_, ?_⟩
          · rw [k2, s1, v2, l1, he2]
          · simp only [headerMaxKeyLength] at k4; omega
          · rw [v2] at s2
            cases v with
            | nil => exact absurd rfl hv
            | cons c cs => simpa using s2
          · simp only [headerMaxValueLength] at v4; omega
          · rw [← he1]; simp

theorem headerReadEntry_shorter (ul : Str → Str) (h : Header) (byt : Nat)
    (rb : Reader) (h2 : Header) (rb2 : Reader)
    (he : headerReadEntry ul h byt rb = .ok (h2, rb2)) :
    rb2.length < rb.length := by
  obtain ⟨krest, n, v, e, _⟩ := headerReadEntry_ok_inv ul h byt rb h2 rb2 he
  rw [e]
  simp only [List.length_append, List.length_cons]
  omega

/-- The bound on the number of iterations is never reached: the loop returns
a result as soon as the bound exceeds the length of the stream. -/
theorem headerReadLoop_ne_none (ul : Str → Str) (fuel : Nat) (h : Header)
    (rb : Reader) (hf : rb.length < fuel) :
    headerReadLoop ul fuel h rb ≠ none := by
  induction fuel generalizing h rb with
  | zero => simp at hf
  | succ f ih =>
    cases rb with
    | nil => simp [headerReadLoop, ReadByte]
    | cons b rb =>
      simp only [headerReadLoop, ReadByte]
      split_ifs with hb
      · cases readByteEqual rb LF <;> simp
      · cases e : headerReadEntry ul h b rb with
        | error err => simp
        | ok p =>
          obtain ⟨h2, rb2⟩ := p
          simp only
          apply ih
          have := headerReadEntry_shorter ul h b rb h2 rb2 e
          simp only [List.length_cons] at hf
          omega

/-- The decoder always returns: a collection or a failure. -/
theorem headerRead_total (ul : Str → Str) (rb : Reader) :
    ∃ r, headerRead ul rb = some r := by
  have := headerReadLoop_ne_none ul (rb.length + 1) [] rb (by omega)
  exact Option.ne_none_iff_exists'.1 this

/-! ## Invariants of a decoded collection -/

theorem Header.mem_set (h : Header) (key : Str) (v : HeaderValue)
    (e : Str × HeaderValue) (he : e ∈ Header.set h key v) :
    e = (key, v) ∨ e ∈ h := by
  induction h with
  | nil => simpa [Header.set] using he
  | cons e0 h ih =>
    obtain ⟨k, w⟩ := e0
    by_cases hk : k = key
    · simp only [Header.set, if_pos hk, List.mem_cons] at he
      rcases he with he | he
      · left; rw [he, hk]
      · right; simp [he]
    · simp only [Header.set, if_neg hk, List.mem_cons] at he
      rcases he with he | he
      · right; simp [he]
      · rcases ih he with h1 | h1
        · left; exact h1
        · right; simp [h1]

theorem Header.mem_of_find? (h : Header) (key : Str) (vs : HeaderValue)
    (hf : Header.find? h key = some vs) : (key, vs) ∈ h := by
  induction h with
  | nil => simp [Header.find?] at hf
  | cons e0 h ih =>
    obtain ⟨k, w⟩ := e0
    by_cases hk : k = key
    · simp only [Header.find?, if_pos hk, Option.some.injEq] at hf
      simp [hk, hf]
    · simp only [Header.find?, if_neg hk] at hf
      simp [ih hf]

theorem Header.mem_of_mem_get (h : Header) (key : Str) (v : Str)
    (hv : v ∈ Header.get h key) : ∃ e ∈ h, v ∈ e.2 := by
  unfold Header.get at hv
  cases hf : Header.find? h key with
  | none => simp [hf] at hv
  | some vs =>
    simp only [hf, Option.getD_some] at hv
    exact ⟨(key, vs), Header.mem_of_find? h key vs hf, hv⟩

theorem headerKeyNormalize_length_le (ul : Str → Str) (k : Str) (n : Nat)
    (hk : k.length ≤ n) (hn : 16 ≤ n) : (headerKeyNormalize ul k).length ≤ n := by
  unfold headerKeyNormalize
  simp only []
  split_ifs
  · rw [bytes_RTP_INFO]; simp; omega
  · rw [bytes_WWW_Authenticate]; simp; omega
  · rw [bytes_CSeq]; simp; omega
  · unfold CanonicalHeaderKey
    split_ifs
    · rw [canonicalize_length]; exact hk
    · exact hk

theorem Header.Decoded_add (h : Header) (key val : Str) (hd : Header.Decoded h)
    (hl : Header.len h < headerMaxEntryCount) (hk : key.length ≤ 1023)
    (hv1 : val.length ≤ 1024) (hv2 : val ≠ []) (hv3 : val.head? ≠ some SP) :
    Header.Decoded (Header.add h key val) := by
  obtain ⟨_, d2, d3⟩ := hd
  refine ⟨?_, Header.WF_set _ _ _ d2, ?_⟩
  · have := Header.len_add_le h key val
    simp only [headerMaxEntryCount] at hl
    omega
  · intro e he
    rcases Header.mem_set _ _ _ _ he with h1 | h1
    · subst h1
      refine ⟨hk, ?_⟩
      intro v hv
      simp only [List.mem_append, List.mem_singleton] at hv
      rcases hv with hv | hv
      · obtain ⟨e, he2, hv2⟩ := Header.mem_of_mem_get h key v hv
        exact (d3 e he2).2 v hv2
      · subst hv; exact ⟨hv1, hv2, hv3⟩
    · exact d3 e h1

theorem headerReadLoop_decoded (ul : Str → Str) (fuel : Nat) (h : Header)
    (rb : Reader) (h2 : Header) (rest : Reader) (hd : Header.Decoded h)
    (hr : headerReadLoop ul fuel h rb = some (.ok (h2, rest))) :
    Header.Decoded h2 := by
  induction fuel generalizing h rb with
  | zero => simp [headerReadLoop] at hr
  | succ f ih =>
    cases rb with
    | nil => simp [headerReadLoop, ReadByte] at hr
    | cons b rb =>
      simp only [headerReadLoop, ReadByte] at hr
      by_cases hb : b = CR
      · rw [if_pos hb] at hr
        cases e : readByteEqual rb LF with
        | error err => simp [e] at hr
        | ok rb2 =>
          simp only [e, Option.some.injEq, Except.ok.injEq, Prod.mk.injEq] at hr
          rw [← hr.1]; exact hd
      · rw [if_neg hb] at hr
        cases e : headerReadEntry ul h b rb with
        | error err => simp [e] at hr
        | ok p =>
          obtain ⟨h3, rb3⟩ := p
          simp only [e] at hr
          obtain ⟨krest, n, v, _, hl, _, k2, v1, v2, _, v4, e5⟩ :=
            headerReadEntry_ok_inv ul h b rb h3 rb3 e
          apply ih h3 rb3 _ hr
          rw [e5]
          apply Header.Decoded_add h _ v hd hl _ (by omega) v1 v2
          apply headerKeyNormalize_length_le
          · simp only [List.length_cons]; omega
          · omega

/-- C7: whenever the decoder succeeds, the collection it returns has at most
255 keys, all distinct; every key is at most 1023 bytes long, every value is
at most 1024 bytes long, non-empty, and does not begin with a space. -/
theorem headerRead_invariants (unicodeLower : Str → Str) (rb : Reader)
    (h : Header) (rest : Reader)
    (hr : headerRead unicodeLower rb = some (.ok (h, rest))) :
    Header.len h ≤ 255 ∧ (Header.keys h).Nodup ∧
      ∀ e ∈ h, e.1.length ≤ 1023 ∧
        ∀ v ∈ e.2, v.length ≤ 1024 ∧ v ≠ [] ∧ v.head? ≠ some SP :=
  headerReadLoop_decoded unicodeLower _ [] rb h rest
    ⟨by simp [Header.len], by simp [Header.WF, Header.keys], by simp⟩ hr

/-- C7, witness: the block `Content-Length: 10`, `cseq:  2`. -/
theorem headerRead_invariants_witness :
    headerRead id (bytes "Content-Length: 10\r\ncseq:  2\r\n\r\nbody") =
        some (.ok ([(bytes "Content-Length", [bytes "10"]),
          (bytes "CSeq", [bytes "2"])], bytes "body")) ∧
      Header.len [(bytes "Content-Length", [bytes "10"]), (bytes "CSeq", [bytes "2"])] ≤ 255 ∧
      (Header.keys [(bytes "Content-Length", [bytes "10"]),
        (bytes "CSeq", [bytes "2"])]).Nodup ∧
      ∀ e ∈ ([(bytes "Content-Length", [bytes "10"]), (bytes "CSeq", [bytes "2"])] :
          Header),
        e.1.length ≤ 1023 ∧
          ∀ v ∈ e.2, v.length ≤ 1024 ∧ v ≠ [] ∧ v.head? ≠ some SP :=
  ⟨by decide,
    headerRead_invariants id (bytes "Content-Length: 10\r\ncseq:  2\r\n\r\nbody")
      [(bytes "Content-Length", [bytes "10"]), (bytes "CSeq", [bytes "2"])]
      (bytes "body") (by decide)⟩

/-! ## The bound on the number of iterations -/

theorem headerReadLoop_mono (ul : Str → Str) (f k : Nat) (h : Header)
    (rb : Reader) (r : Except DecodeError (Header × Reader))
    (hr : headerReadLoop ul f h rb = some r) :
    headerReadLoop ul (f + k) h rb = some r := by
  induction f generalizing h rb with
  | zero => simp [headerReadLoop] at hr
  | succ f ih =>
    rw [Nat.add_right_comm]
    cases rb with
    | nil => simpa [headerReadLoop, ReadByte] using hr
    | cons b rb =>
      simp only [headerReadLoop, ReadByte] at hr ⊢
      split_ifs at hr ⊢ with hb
      · exact hr
      · cases e : headerReadEntry ul h b rb with
        | error err => simpa [e] using hr
        | ok p =>
          obtain ⟨h2, rb2⟩ := p
          simp only [e] at hr ⊢
          exact ih h2 rb2 hr

theorem headerReadLoop_fuel (ul : Str → Str) (f1 f2 : Nat) (h : Header)
    (rb : Reader) (h1 : rb.length < f1) (h2 : rb.length < f2) :
    headerReadLoop ul f1 h rb = headerReadLoop ul f2 h rb := by
  obtain ⟨r, hr⟩ := Option.ne_none_iff_exists'.1
    (headerReadLoop_ne_none ul (rb.length + 1) h rb (by omega))
  have e1 := headerReadLoop_mono ul _ (f1 - (rb.length + 1)) h rb r hr
  have e2 := headerReadLoop_mono ul _ (f2 - (rb.length + 1)) h rb r hr
  rw [show rb.length + 1 + (f1 - (rb.length + 1)) = f1 by omega] at e1
  rw [show rb.length + 1 + (f2 - (rb.length + 1)) = f2 by omega] at e2
  rw [e1, e2]

/-- The loop on well-formed lines followed by any stream: the lines are
appended and the loop goes on with what follows them. -/
theorem headerReadLoop_lines_then (ul : Str → Str) (ls : List (Str × Str))
    (h : Header) (tail : List Nat) (fuel : Nat)
    (hwf : ∀ l ∈ ls, WellFormedLine l)
    (hg : ∀ i, i < ls.length →
      Header.len (addLines ul h (ls.take i)) < headerMaxEntryCount) :
    headerReadLoop ul (fuel + ls.length) h (renderLines ls ++ tail) =
      headerReadLoop ul fuel (addLines ul h ls) tail := by
  induction ls generalizing h with
  | nil => simp [renderLines, addLines]
  | cons l ls ih =>
    obtain ⟨k, v⟩ := l
    obtain ⟨⟨hk1, hk2, hk3, hk4⟩, hv1, hv2, hv3, hv4⟩ := hwf (k, v) (by simp)
    cases k with
    | nil => simp at hk1
    | cons b krest =>
      have hb : b ≠ CR := by simpa using hk3
      have hlen : Header.len h < headerMaxEntryCount := by
        simpa [addLines] using hg 0 (by simp)
      have he := headerReadEntry_line ul h b krest 1 v
        (renderLines ls ++ tail) hlen
        (fun hc => hk4 (by simp [hc]))
        (by simpa using hk2)
        (by intro e; simp [e] at hv1) hv4 hv3 hv2
      have hin : renderLines ((b :: krest, v) :: ls) ++ tail =
          b :: (krest ++ COLON :: (List.replicate 1 SP ++
            (v ++ CR :: LF :: (renderLines ls ++ tail)))) := by
        simp [renderLines, renderLine_eq]
      rw [hin, List.length_cons, ← Nat.add_assoc]
      simp only [headerReadLoop, ReadByte, if_neg hb, he]
      rw [addLines_cons]
      apply ih
      · intro l hl; exact hwf l (by simp [hl])
      · intro i hi
        have := hg (i + 1) (by simpa using hi)
        simpa [addLines_cons] using this

theorem headerRead_lines_then (ul : Str → Str) (ls : List (Str × Str))
    (tail : List Nat) (hwf : ∀ l ∈ ls, WellFormedLine l)
    (hg : ∀ i, i < ls.length →
      Header.len (addLines ul [] (ls.take i)) < headerMaxEntryCount) :
    headerRead ul (renderLines ls ++ tail) =
      headerReadLoop ul (tail.length + 1) (addLines ul [] ls) tail := by
  unfold headerRead
  have hl := length_le_renderLines ls
  have e : (renderLines ls ++ tail).length + 1 =
      ((renderLines ls).length - ls.length + tail.length + 1) + ls.length := by
    simp only [List.length_append]; omega
  rw [e, headerReadLoop_lines_then ul ls [] tail _ hwf hg]
  apply headerReadLoop_fuel <;> omega

theorem headerReadLoop_tooMany (ul : Str → Str) (fuel : Nat) (h : Header)
    (b : Nat) (tail : List Nat) (hb : b ≠ CR)
    (hl : headerMaxEntryCount ≤ Header.len h) :
    headerReadLoop ul (fuel + 1) h (b :: tail) = some (.error .tooManyHeaders) := by
  simp [headerReadLoop, ReadByte, hb, headerReadEntry, hl]

/-! ## Counting distinct keys -/

theorem Header.len_le_len_add (h : Header) (key val : Str) :
    Header.len h ≤ Header.len (Header.add h key val) := by
  unfold Header.add
  rw [Header.len_set]
  split_ifs <;> omega

theorem len_le_len_addLines (ul : Str → Str) (h : Header) (ls : List (Str × Str)) :
    Header.len h ≤ Header.len (addLines ul h ls) := by
  induction ls generalizing h with
  | nil => simp [addLines]
  | cons l ls ih =>
    rw [addLines_cons]
    exact le_trans (Header.len_le_len_add h _ _) (ih _)

theorem len_addLines_take_le (ul : Str → Str) (h : Header) (ls : List (Str × Str))
    (i : Nat) :
    Header.len (addLines ul h (ls.take i)) ≤ Header.len (addLines ul h ls) := by
  conv_rhs => rw [← List.take_append_drop i ls, addLines_append]
  exact len_le_len_addLines ul _ _

theorem len_addLines_eq_distinctKeys (ul : Str → Str) (ls : List (Str × Str)) :
    Header.len (addLines ul [] ls) = distinctKeys ul ls := by
  rw [Header.len_eq_keys, distinctKeys]
  apply List.Perm.length_eq
  rw [List.perm_ext_iff_of_nodup
    (WF_addLines ul [] ls (by simp [Header.WF, Header.keys])) (List.nodup_dedup _)]
  intro K
  rw [mem_keys_addLines, List.mem_dedup]
  simp [Header.keys]

theorem guard_of_distinctKeys (ul : Str → Str) (ls : List (Str × Str))
    (hd : distinctKeys ul ls < 255) (i : Nat) :
    Header.len (addLines ul [] (ls.take i)) < headerMaxEntryCount := by
  have h1 := len_addLines_take_le ul [] ls i
  rw [len_addLines_eq_distinctKeys ul ls] at h1
  simp only [headerMaxEntryCount]
  omega

/-- A line that starts while the collection holds 255 keys fails, whatever
its key. -/
theorem headerReadLoop_lines_tooMany (ul : Str → Str) (ls : List (Str × Str))
    (h : Header) (tail : List Nat) (fuel : Nat)
    (hwf : ∀ l ∈ ls, WellFormedLine l)
    (hi : ∃ i, i < ls.length ∧
      headerMaxEntryCount ≤ Header.len (addLines ul h (ls.take i))) :
    headerReadLoop ul (fuel + ls.length) h (renderLines ls ++ tail) =
      some (.error .tooManyHeaders) := by
  induction ls generalizing h with
  | nil => obtain ⟨i, hi1, _⟩ := hi; simp at hi1
  | cons l ls ih =>
    obtain ⟨k, v⟩ := l
    obtain ⟨⟨hk1, hk2, hk3, hk4⟩, hv1, hv2, hv3, hv4⟩ := hwf (k, v) (by simp)
    cases k with
    | nil => simp at hk1
    | cons b krest =>
      have hb : b ≠ CR := by simpa using hk3
      have hin : renderLines ((b :: krest, v) :: ls) ++ tail =
          b :: (krest ++ COLON :: (List.replicate 1 SP ++
            (v ++ CR :: LF :: (renderLines ls ++ tail)))) := by
        simp [renderLines, renderLine_eq]
      rw [hin, List.length_cons, ← Nat.add_assoc]
      by_cases hlen : Header.len h < headerMaxEntryCount
      · have he := headerReadEntry_line ul h b krest 1 v
          (renderLines ls ++ tail) hlen
          (fun hc => hk4 (by simp [hc]))
          (by simpa using hk2)
          (by intro e; simp [e] at hv1) hv4 hv3 hv2
        simp only [headerReadLoop, ReadByte, if_neg hb, he]
        apply ih
        · intro l hl; exact hwf l (by simp [hl])
        · obtain ⟨i, hi1, hi2⟩ := hi
          cases i with
          | zero => simp [addLines] at hi2; omega
          | succ j =>
            exact ⟨j, by simpa using hi1, by simpa [addLines_cons] using hi2⟩
      · exact headerReadLoop_tooMany ul _ h b _ hb (by omega)

theorem headerRead_lines_tooMany (ul : Str → Str) (ls : List (Str × Str))
    (tail : List Nat) (hwf : ∀ l ∈ ls, WellFormedLine l)
    (hi : ∃ i, i < ls.length ∧ 255 ≤ distinctKeys ul (ls.take i)) :
    headerRead ul (renderLines ls ++ tail) = some (.error .tooManyHeaders) := by
  unfold headerRead
  have hl := length_le_renderLines ls
  have e : (renderLines ls ++ tail).length + 1 =
      ((renderLines ls).length - ls.length + tail.length + 1) + ls.length := by
    simp only [List.length_append]; omega
  rw [e]
  apply headerReadLoop_lines_tooMany ul ls [] tail _ hwf
  obtain ⟨i, hi1, hi2⟩ := hi
  exact ⟨i, hi1, by rw [len_addLines_eq_distinctKeys]; exact hi2⟩

theorem headerRead_lines_crlf (ul : Str → Str) (ls : List (Str × Str))
    (rest : List Nat) (hwf : ∀ l ∈ ls, WellFormedLine l)
    (hg : ∀ i, i < ls.length → distinctKeys ul (ls.take i) < 255) :
    headerRead ul (renderLines ls ++ bytes "\r\n" ++ rest) =
      some (.ok (addLines ul [] ls, rest)) := by
  have e : renderLines ls ++ bytes "\r\n" ++ rest =
      renderLines ls ++ CR :: LF :: rest := by
    simp [bytes_crlf]
  rw [e]
  apply headerRead_lines ul ls rest hwf
  intro i hi
  rw [len_addLines_eq_distinctKeys]
  exact hg i hi

theorem distinctKeys_take_le (ul : Str → Str) (ls : List (Str × Str)) (i : Nat) :
    distinctKeys ul (ls.take i) ≤ distinctKeys ul ls := by
  rw [← len_addLines_eq_distinctKeys, ← len_addLines_eq_distinctKeys]
  exact len_addLines_take_le ul [] ls i

/-! ## A block of lines with pairwise distinct keys -/

theorem canonicalize_false_replicate (n : Nat) :
    canonicalize false (List.replicate n 120) = List.replicate n 120 := by
  induction n with
  | zero => rfl
  | succ m ih =>
    have e : ((120 : Nat) == HYPHEN) = false := by decide
    have e2 : lowerByte 120 = 120 := by decide
    simp only [List.replicate_succ, canonicalize, Bool.false_eq_true, if_false, e2, e, ih]

theorem headerKeyNormalize_replicate (ul : Str → Str) (i : Nat) :
    headerKeyNormalize ul (List.replicate (i + 1) 120) =
      88 :: List.replicate i 120 := by
  have ha : (List.replicate (i + 1) 120).all (fun c => decide (c < 128)) = true := by
    simp [List.all_eq_true]
  have hv : (List.replicate (i + 1) 120).all validHeaderFieldByte = true := by
    rw [List.all_eq_true]
    intro c hc
    rw [List.eq_of_mem_replicate hc]
    decide
  have hl : stringsToLower ul (List.replicate (i + 1) 120) =
      120 :: List.replicate i 120 := by
    rw [stringsToLower_ascii ul _ ha, List.map_replicate, List.replicate_succ]
    rfl
  rw [headerKeyNormalize_generic ul _ (by rw [hl, bytes_rtp_info]; simp)
    (by rw [hl, bytes_www_authenticate]; simp) (by rw [hl, bytes_cseq]; simp)]
  unfold CanonicalHeaderKey
  rw [if_pos hv, List.replicate_succ]
  have e : ((88 : Nat) == HYPHEN) = false := by decide
  have e2 : upperByte 120 = 88 := by decide
  simp only [canonicalize, if_true, e2, e, canonicalize_false_replicate]

theorem length_distinctLines (n : Nat) : (distinctLines n).length = n := by
  simp [distinctLines]

theorem wellFormed_distinctLines (n : Nat) (hn : n ≤ 1023) :
    ∀ l ∈ distinctLines n, WellFormedLine l := by
  intro l hl
  simp only [distinctLines, List.mem_map, List.mem_range] at hl
  obtain ⟨i, hi, rfl⟩ := hl
  refine ⟨⟨by simp, by simp; omega, by simp [List.replicate_succ, CR], ?_⟩,
    by simp, by simp, by simp [CR], by simp [SP]⟩
  intro hc
  have := List.eq_of_mem_replicate hc
  simp [COLON] at this

theorem lineKeys_distinctLines (ul : Str → Str) (n : Nat) :
    lineKeys ul (distinctLines n) =
      (List.range n).map (fun i => 88 :: List.replicate i 120) := by
  simp [lineKeys, distinctLines, headerKeyNormalize_replicate]

theorem nodup_lineKeys_distinctLines (ul : Str → Str) (n : Nat) :
    (lineKeys ul (distinctLines n)).Nodup := by
  rw [lineKeys_distinctLines]
  apply List.Nodup.map _ (List.nodup_range n)
  intro i j hij
  have := congrArg List.length hij
  simpa using this

theorem distinctKeys_of_nodup (ul : Str → Str) (ls : List (Str × Str))
    (hd : (lineKeys ul ls).Nodup) : distinctKeys ul ls = ls.length := by
  rw [distinctKeys, hd.dedup]
  simp [lineKeys]

theorem nodup_lineKeys_take (ul : Str → Str) (ls : List (Str × Str)) (i : Nat)
    (hd : (lineKeys ul ls).Nodup) : (lineKeys ul (ls.take i)).Nodup := by
  have : lineKeys ul (ls.take i) = (lineKeys ul ls).take i := by
    simp [lineKeys, List.map_take]
  rw [this]
  exact hd.sublist (List.take_sublist _ _)

/-! ## The limit on the number of headers -/

/-- C8, as amended: a block of well-formed lines that uses at most 254
distinct normalized keys decodes successfully, however many lines repeat a
key and wherever the repeats occur; more generally the block decodes when
fewer than 255 distinct keys occur before each of its lines.  The count check
runs on every line before its key is read: a line that starts after 255
distinct keys fails with `TooManyHeaders`, also when it repeats a stored
key. -/
theorem headerRead_repeated_keys (unicodeLower : Str → Str)
    (ls : List (Str × Str)) (rest : List Nat)
    (hwf : ∀ l ∈ ls, WellFormedLine l) :
    (distinctKeys unicodeLower ls ≤ 254 →
      headerRead unicodeLower (renderLines ls ++ bytes "\r\n" ++ rest) =
        some (.ok (addLines unicodeLower [] ls, rest))) ∧
    ((∀ i, i < ls.length → distinctKeys unicodeLower (ls.take i) < 255) →
      headerRead unicodeLower (renderLines ls ++ bytes "\r\n" ++ rest) =
        some (.ok (addLines unicodeLower [] ls, rest))) ∧
    ((∃ i, i < ls.length ∧ 255 ≤ distinctKeys unicodeLower (ls.take i)) →
      headerRead unicodeLower (renderLines ls ++ bytes "\r\n" ++ rest) =
        some (.error .tooManyHeaders)) := by
  refine ⟨fun hd => ?_, fun hg => ?_, fun hi => ?_⟩
  · apply headerRead_lines_crlf unicodeLower ls rest hwf
    intro i _
    have := distinctKeys_take_le unicodeLower ls i
    omega
  · exact headerRead_lines_crlf unicodeLower ls rest hwf hg
  · rw [List.append_assoc]
    exact headerRead_lines_tooMany unicodeLower ls _ hwf hi

/-- C8, witness: `Set-Cookie: a`, `X: 1`, `set-cookie: b`, `x: 2`. -/
theorem headerRead_repeated_keys_witness :
    headerRead id (bytes "Set-Cookie: a\r\nX: 1\r\nset-cookie: b\r\nx: 2\r\n\r\n") =
      some (.ok ([(bytes "Set-Cookie", [bytes "a", bytes "b"]),
        (bytes "X", [bytes "1", bytes "2"])], [])) :=
  (headerRead_repeated_keys id
    [(bytes "Set-Cookie", bytes "a"), (bytes "X", bytes "1"),
      (bytes "set-cookie", bytes "b"), (bytes "x", bytes "2")] []
    (by decide)).1 (by decide)

theorem distinctKeys_distinctLines (ul : Str → Str) (n : Nat) :
    distinctKeys ul (distinctLines n) = n := by
  rw [distinctKeys_of_nodup ul _ (nodup_lineKeys_distinctLines ul n),
    length_distinctLines]

theorem mem_lineKeys_distinctLines (ul : Str → Str) (n : Nat) (hn : 0 < n) :
    headerKeyNormalize ul [120] ∈ lineKeys ul (distinctLines n) := by
  rw [lineKeys_distinctLines, List.mem_map]
  exact ⟨0, by simpa using hn, (headerKeyNormalize_replicate ul 0).symm⟩

theorem distinctKeys_append_repeat (ul : Str → Str) (ls : List (Str × Str))
    (l : Str × Str) (hl : headerKeyNormalize ul l.1 ∈ lineKeys ul ls) :
    distinctKeys ul (ls ++ [l]) = distinctKeys ul ls := by
  rw [← len_addLines_eq_distinctKeys, ← len_addLines_eq_distinctKeys,
    addLines_append]
  have hm : headerKeyNormalize ul l.1 ∈ Header.keys (addLines ul [] ls) :=
    (mem_keys_addLines ul [] ls _).2 (Or.inr hl)
  have e : addLines ul (addLines ul [] ls) [l] =
      Header.set (addLines ul [] ls) (headerKeyNormalize ul l.1)
        (Header.get (addLines ul [] ls) (headerKeyNormalize ul l.1) ++ [l.2]) := rfl
  rw [e, Header.len_set, if_pos hm]

/-- C8, counterexample: the 255 lines `x: 1`, `xx: 1`, ... with pairwise
distinct keys, followed by the line `x: 1` once more and the blank line.  The
block is well formed and uses 255 distinct normalized keys, its last line
repeats the key of its first line, and the decoder fails with
`TooManyHeaders`. -/
theorem headerRead_repeat_after_255_keys_fails :
    (∀ l ∈ distinctLines 255 ++ [([120], [49])], WellFormedLine l) ∧
    ∀ unicodeLower : Str → Str,
      distinctKeys unicodeLower (distinctLines 255 ++ [([120], [49])]) = 255 ∧
      headerKeyNormalize unicodeLower [120] ∈
        lineKeys unicodeLower (distinctLines 255) ∧
      headerRead unicodeLower
          (renderLines (distinctLines 255 ++ [([120], [49])]) ++ bytes "\r\n") =
        some (.error .tooManyHeaders) := by
  have hwf : ∀ l ∈ distinctLines 255 ++ [([120], [49])], WellFormedLine l := by
    intro l hl
    rw [List.mem_append] at hl
    rcases hl with hl | hl
    · exact wellFormed_distinctLines 255 (by omega) l hl
    · rw [List.mem_singleton] at hl
      subst hl
      decide
  refine ⟨hwf, fun ul => ⟨?_, mem_lineKeys_distinctLines ul 255 (by omega), ?_⟩⟩
  · rw [distinctKeys_append_repeat ul _ _ (mem_lineKeys_distinctLines ul 255 (by omega)),
      distinctKeys_distinctLines]
  · apply headerRead_lines_tooMany ul _ _ hwf
    refine ⟨255, by simp [length_distinctLines], ?_⟩
    rw [List.take_left' (length_distinctLines 255), distinctKeys_distinctLines]

/-- C9: a block of exactly 255 well-formed lines with pairwise distinct
normalized keys, followed by the blank line, decodes into a collection of 255
keys; when a further line starts after these 255 lines, the decoder fails
with `TooManyHeaders`. -/
theorem headerRead_count_boundary (unicodeLower : Str → Str)
    (ls : List (Str × Str)) (hn : ls.length = 255)
    (hwf : ∀ l ∈ ls, WellFormedLine l)
    (hd : (lineKeys unicodeLower ls).Nodup) :
    (∀ rest, headerRead unicodeLower (renderLines ls ++ bytes "\r\n" ++ rest) =
        some (.ok (addLines unicodeLower [] ls, rest))) ∧
    Header.len (addLines unicodeLower [] ls) = 255 ∧
    (∀ b tail, b ≠ CR →
      headerRead unicodeLower (renderLines ls ++ b :: tail) =
        some (.error .tooManyHeaders)) := by
  have hg : ∀ i, i < ls.length → distinctKeys unicodeLower (ls.take i) < 255 := by
    intro i hi
    rw [distinctKeys_of_nodup unicodeLower _ (nodup_lineKeys_take unicodeLower ls i hd),
      List.length_take]
    omega
  have hlen : Header.len (addLines unicodeLower [] ls) = 255 := by
    rw [len_addLines_eq_distinctKeys, distinctKeys_of_nodup unicodeLower ls hd, hn]
  refine ⟨fun rest => headerRead_lines_crlf unicodeLower ls rest hwf hg, hlen, ?_⟩
  intro b tail hb
  rw [headerRead_lines_then unicodeLower ls (b :: tail) hwf
    (fun i hi => by rw [len_addLines_eq_distinctKeys]; exact hg i hi)]
  exact headerReadLoop_tooMany unicodeLower _ _ b tail hb
    (by rw [hlen]; simp [headerMaxEntryCount])

/-- C9, witness: the 255 lines `x: 1`, `xx: 1`, `xxx: 1`, ... -/
theorem headerRead_count_boundary_witness :
    (∀ rest, headerRead id (renderLines (distinctLines 255) ++ bytes "\r\n" ++ rest) =
        some (.ok (addLines id [] (distinctLines 255), rest))) ∧
    Header.len (addLines id [] (distinctLines 255)) = 255 ∧
    (∀ b tail, b ≠ CR →
      headerRead id (renderLines (distinctLines 255) ++ b :: tail) =
        some (.error .tooManyHeaders)) :=
  headerRead_count_boundary id (distinctLines 255) (length_distinctLines 255)
    (wellFormed_distinctLines 255 (by decide)) (nodup_lineKeys_distinctLines id 255)

/-! ## The encoder -/

theorem strLe_refl (a : Str) : strLe a a = true := by
  induction a with
  | nil => rfl
  | cons c cs ih => simp [strLe, ih]

theorem strLe_total (a b : Str) : strLe a b = true ∨ strLe b a = true := by
  induction a generalizing b with
  | nil => simp [strLe]
  | cons c cs ih =>
    cases b with
    | nil => simp [strLe]
    | cons d ds =>
      simp only [strLe, Bool.or_eq_true, decide_eq_true_eq, Bool.and_eq_true,
        beq_iff_eq]
      rcases Nat.lt_trichotomy c d with h | h | h
      · exact Or.inl (Or.inl h)
      · rcases ih ds with h2 | h2
        · exact Or.inl (Or.inr ⟨h, h2⟩)
        · exact Or.inr (Or.inr ⟨h.symm, h2⟩)
      · exact Or.inr (Or.inl h)

theorem strLe_trans (a b c : Str) (h1 : strLe a b = true) (h2 : strLe b c = true) :
    strLe a c = true := by
  induction a generalizing b c with
  | nil => simp [strLe]
  | cons x xs ih =>
    cases b with
    | nil => simp [strLe] at h1
    | cons y ys =>
      cases c with
      | nil => simp [strLe] at h2
      | cons z zs =>
        simp only [strLe, Bool.or_eq_true, decide_eq_true_eq, Bool.and_eq_true,
          beq_iff_eq] at h1 h2 ⊢
        rcases h1 with h1 | ⟨h1, h1b⟩
        · rcases h2 with h2 | ⟨h2, _⟩
          · exact Or.inl (by omega)
          · exact Or.inl (by omega)
        · rcases h2 with h2 | ⟨h2, h2b⟩
          · exact Or.inl (by omega)
          · exact Or.inr ⟨by omega, ih ys zs h1b h2b⟩

theorem strLe_antisymm (a b : Str) (h1 : strLe a b = true) (h2 : strLe b a = true) :
    a = b := by
  induction a generalizing b with
  | nil =>
    cases b with
    | nil => rfl
    | cons d ds => simp [strLe] at h2
  | cons c cs ih =>
    cases b with
    | nil => simp [strLe] at h1
    | cons d ds =>
      simp only [strLe, Bool.or_eq_true, decide_eq_true_eq, Bool.and_eq_true,
        beq_iff_eq] at h1 h2
      rcases h1 with h1 | ⟨h1, h1b⟩
      · rcases h2 with h2 | ⟨h2, _⟩ <;> omega
      · rcases h2 with h2 | ⟨_, h2b⟩
        · omega
        · rw [h1, ih ds h1b h2b]

theorem sorted_sortStrings (keys : List Str) :
    (sortStrings keys).Sorted (fun a b => strLe a b = true) := by
  haveI : IsTotal Str (fun a b => strLe a b = true) := ⟨strLe_total⟩
  haveI : IsTrans Str (fun a b => strLe a b = true) := ⟨strLe_trans⟩
  exact List.sorted_insertionSort _ keys

theorem perm_sortStrings (keys : List Str) : (sortStrings keys).Perm keys :=
  List.perm_insertionSort _ keys

theorem writeValues_buffer (key : Str) (vals : List Str) (wb : List Nat) :
    writeValues bufferWrite key vals wb =
      .ok (wb ++ vals.flatMap
        (fun val => key ++ bytes ": " ++ val ++ bytes "\r\n")) := by
  induction vals generalizing wb with
  | nil => simp [writeValues]
  | cons val vals ih =>
    simp only [writeValues, bufferWrite, ih, List.flatMap_cons, List.append_assoc]

theorem writeKeys_buffer (h : Header) (keys : List Str) (wb : List Nat) :
    writeKeys bufferWrite h keys wb =
      .ok (wb ++ keys.flatMap (fun key => (Header.get h key).flatMap
        (fun val => key ++ bytes ": " ++ val ++ bytes "\r\n"))) := by
  induction keys generalizing wb with
  | nil => simp [writeKeys]
  | cons key keys ih =>
    simp only [writeKeys, writeValues_buffer, ih, List.flatMap_cons,
      List.append_assoc]

/-- C2: written to a sink that never fails, the output of `Header.write` is
the concatenation, over the keys of `h` in ascending byte-wise lexicographic
order and for each key over its values in list order, of
`key ++ ": " ++ value ++ "\r\n"`, followed by one final `"\r\n"`. -/
theorem Header.write_output (h : Header) (wb : List Nat) :
    Header.write bufferWrite h wb =
        .ok (wb ++
          (sortStrings (Header.keys h)).flatMap (fun key =>
            (Header.get h key).flatMap
              (fun val => key ++ bytes ": " ++ val ++ bytes "\r\n")) ++
          bytes "\r\n") ∧
      (sortStrings (Header.keys h)).Sorted (fun a b => strLe a b = true) ∧
      (sortStrings (Header.keys h)).Perm (Header.keys h) := by
  refine ⟨?_, sorted_sortStrings _, perm_sortStrings _⟩
  simp only [Header.write, writeKeys_buffer, bufferWrite]

theorem flatMap_render_eq (h : Header) (keys : List Str) :
    keys.flatMap (fun key => (Header.get h key).flatMap
        (fun val => key ++ bytes ": " ++ val ++ bytes "\r\n")) =
      renderLines (linesOf h keys) := by
  induction keys with
  | nil => rfl
  | cons key keys ih =>
    simp only [List.flatMap_cons, ih, linesOf, renderLines_append]
    congr 1
    induction Header.get h key with
    | nil => rfl
    | cons val vals ih2 =>
      simp only [List.flatMap_cons, ih2, List.map_cons, renderLines, renderLine]

theorem write_buffer_eq_encode (h : Header) :
    Header.write bufferWrite h [] = .ok (encode h) := by
  simp only [encode, Header.write, writeKeys_buffer, bufferWrite]

theorem encode_eq (h : Header) :
    encode h = renderLines (linesOf h (sortStrings (Header.keys h))) ++
      bytes "\r\n" := by
  simp only [encode, Header.write, writeKeys_buffer, bufferWrite, List.nil_append,
    flatMap_render_eq]

/-! ## Decoding what the encoder wrote -/

theorem mem_linesOf (h : Header) (keys : List Str) (l : Str × Str) :
    l ∈ linesOf h keys ↔ l.1 ∈ keys ∧ l.2 ∈ Header.get h l.1 := by
  induction keys with
  | nil => simp [linesOf]
  | cons key keys ih =>
    obtain ⟨k, v⟩ := l
    simp only [linesOf, List.mem_append, List.mem_map, Prod.mk.injEq, ih,
      List.mem_cons]
    constructor
    · rintro (⟨val, hv, rfl, rfl⟩ | ⟨h1, h2⟩)
      · exact ⟨Or.inl rfl, hv⟩
      · exact ⟨Or.inr h1, h2⟩
    · rintro ⟨h1 | h1, h2⟩
      · subst h1; exact Or.inl ⟨v, h2, rfl, rfl⟩
      · exact Or.inr ⟨h1, h2⟩

theorem linesOf_append (h : Header) (a b : List Str) :
    linesOf h (a ++ b) = linesOf h a ++ linesOf h b := by
  induction a with
  | nil => rfl
  | cons key keys ih => simp [linesOf, ih]

theorem Header.find?_of_mem_keys (h : Header) (key : Str)
    (hk : key ∈ Header.keys h) :
    Header.find? h key = some (Header.get h key) := by
  cases hf : Header.find? h key with
  | none => exact absurd hk ((Header.find?_eq_none h key).1 hf)
  | some vs => simp [Header.get, hf]

theorem Header.mem_of_mem_keys (h : Header) (key : Str)
    (hk : key ∈ Header.keys h) : (key, Header.get h key) ∈ h :=
  Header.mem_of_find? h key _ (Header.find?_of_mem_keys h key hk)

theorem distinctKeys_le_of_subset (ul : Str → Str) (ls : List (Str × Str))
    (ks : List Str) (hs : ∀ K ∈ lineKeys ul ls, K ∈ ks) :
    distinctKeys ul ls ≤ ks.length := by
  unfold distinctKeys
  apply List.Subperm.length_le
  apply List.subperm_of_subset (List.nodup_dedup _)
  intro K hK
  exact hs K (List.mem_dedup.1 hK)

theorem valuesOf_linesOf (ul : Str → Str) (h : Header) (keys : List Str) (K : Str)
    (hn : keys.Nodup) (hc : ∀ k ∈ keys, headerKeyNormalize ul k = k) :
    valuesOf ul (linesOf h keys) K = if K ∈ keys then Header.get h K else [] := by
  induction keys with
  | nil => simp [linesOf, valuesOf]
  | cons key keys ih =>
    have hc2 : ∀ k ∈ keys, headerKeyNormalize ul k = k :=
      fun k hk => hc k (by simp [hk])
    have hn2 := (List.nodup_cons.1 hn).2
    have hkey : key ∉ keys := (List.nodup_cons.1 hn).1
    have ih2 := ih hn2 hc2
    simp only [valuesOf] at ih2 ⊢
    simp only [linesOf, List.filter_append, List.map_append, ih2, List.filter_map,
      List.map_map]
    have hck := hc key (by simp)
    by_cases hK : key = K
    · subst hK
      have e : (List.filter ((fun l : Str × Str =>
          decide (headerKeyNormalize ul l.1 = key)) ∘ fun val => (key, val))
          (Header.get h key)) = Header.get h key := by
        rw [List.filter_eq_self]
        intro v _
        simp [hck]
      rw [e]
      simp [hkey, Function.comp_def]
    · have e : (List.filter ((fun l : Str × Str =>
          decide (headerKeyNormalize ul l.1 = K)) ∘ fun val => (key, val))
          (Header.get h key)) = [] := by
        rw [List.filter_eq_nil_iff]
        intro v _
        simp [hck, hK]
      have hK2 : ¬ K = key := fun e => hK e.symm
      rw [e]
      simp [hK2]

theorem lineKeys_linesOf (ul : Str → Str) (h : Header) (keys : List Str) (K : Str)
    (hc : ∀ k ∈ keys, headerKeyNormalize ul k = k) :
    K ∈ lineKeys ul (linesOf h keys) ↔ K ∈ keys ∧ Header.get h K ≠ [] := by
  simp only [lineKeys, List.mem_map]
  constructor
  · rintro ⟨l, hl, rfl⟩
    rw [mem_linesOf] at hl
    rw [hc _ hl.1]
    exact ⟨hl.1, List.ne_nil_of_mem hl.2⟩
  · rintro ⟨h1, h2⟩
    obtain ⟨v, vs, hv⟩ := List.exists_cons_of_ne_nil h2
    exact ⟨(K, v), (mem_linesOf h keys (K, v)).2 ⟨h1, by simp [hv]⟩, hc K h1⟩

theorem lineKeys_subset_of_linesOf (ul : Str → Str) (h : Header) (keys : List Str)
    (hc : ∀ k ∈ keys, headerKeyNormalize ul k = k) (ls : List (Str × Str))
    (hls : ∀ l ∈ ls, l ∈ linesOf h keys) :
    ∀ K ∈ lineKeys ul ls, K ∈ keys := by
  intro K hK
  simp only [lineKeys, List.mem_map] at hK
  obtain ⟨l, hl, rfl⟩ := hK
  have h1 := ((mem_linesOf h keys l).1 (hls l hl)).1
  rw [hc _ h1]
  exact h1

/-- The decoder on the output of the encoder, for a collection whose keys are
canonical and whose lines are well formed. -/
theorem headerRead_encode (ul : Str → Str) (h : Header)
    (hw : Header.WF h) (hn : Header.len h ≤ 255)
    (hk : ∀ e ∈ h, headerKeyNormalize ul e.1 = e.1 ∧ e.2 ≠ [] ∧
      ∀ v ∈ e.2, WellFormedLine (e.1, v))
    (hlast : Header.len h = 255 → ∀ k,
      (sortStrings (Header.keys h)).getLast? = some k →
        (Header.get h k).length = 1) :
    headerRead ul (encode h) =
        some (.ok (addLines ul [] (linesOf h (sortStrings (Header.keys h))), [])) ∧
      Header.Equiv (addLines ul [] (linesOf h (sortStrings (Header.keys h)))) h := by
  have hperm := perm_sortStrings (Header.keys h)
  have hmem : ∀ k, k ∈ sortStrings (Header.keys h) ↔ k ∈ Header.keys h :=
    fun k => hperm.mem_iff
  have hnd : (sortStrings (Header.keys h)).Nodup := hperm.nodup_iff.2 hw
  have hlen : (sortStrings (Header.keys h)).length = Header.len h := by
    rw [hperm.length_eq, Header.len_eq_keys]
  have hc : ∀ k ∈ sortStrings (Header.keys h), headerKeyNormalize ul k = k :=
    fun k hk1 => (hk _ (Header.mem_of_mem_keys h k ((hmem k).1 hk1))).1
  have hwf : ∀ l ∈ linesOf h (sortStrings (Header.keys h)), WellFormedLine l := by
    intro l hl
    obtain ⟨h1, h2⟩ := (mem_linesOf h _ l).1 hl
    exact (hk _ (Header.mem_of_mem_keys h l.1 ((hmem _).1 h1))).2.2 l.2 h2
  constructor
  · rw [encode_eq, ← List.append_nil (_ ++ bytes "\r\n")]
    apply headerRead_lines_crlf ul _ [] hwf
    intro i hi
    by_cases h255 : Header.len h < 255
    · have h1 := distinctKeys_take_le ul (linesOf h (sortStrings (Header.keys h))) i
      have h2 := distinctKeys_le_of_subset ul _ _
        (lineKeys_subset_of_linesOf ul h _ hc _ (fun l hl => hl))
      omega
    · have h255e : Header.len h = 255 := by omega
      rcases List.eq_nil_or_concat (sortStrings (Header.keys h)) with e | ⟨L, b, e⟩
      · rw [e] at hlen; simp at hlen; omega
      · rw [List.concat_eq_append] at e
        have hb := hlast h255e b (by rw [e]; simp)
        obtain ⟨v, hv⟩ := List.length_eq_one.1 hb
        have hL : L.length = 254 := by
          rw [e] at hlen; simp at hlen; omega
        have hcL : ∀ k ∈ L, headerKeyNormalize ul k = k :=
          fun k hk1 => hc k (by rw [e]; simp [hk1])
        have el : linesOf h (sortStrings (Header.keys h)) =
            linesOf h L ++ [(b, v)] := by
          rw [e, linesOf_append]; simp [linesOf, hv]
        rw [el] at hi ⊢
        rw [List.length_append, List.length_singleton] at hi
        rw [List.take_append_of_le_length (by omega)]
        have h2 := distinctKeys_le_of_subset ul ((linesOf h L).take i) L
          (lineKeys_subset_of_linesOf ul h L hcL _
            (fun l hl => List.mem_of_mem_take hl))
        omega
  · intro K
    rw [find?_addLines]
    by_cases hK : K ∈ Header.keys h
    · have hK2 := (hmem K).2 hK
      have hne : Header.get h K ≠ [] := (hk _ (Header.mem_of_mem_keys h K hK)).2.1
      rw [if_pos ((lineKeys_linesOf ul h _ K hc).2 ⟨hK2, hne⟩),
        valuesOf_linesOf ul h _ K hnd hc, if_pos hK2, Header.find?_of_mem_keys h K hK]
    · have hK2 : K ∉ sortStrings (Header.keys h) := fun hm => hK ((hmem K).1 hm)
      rw [if_neg (fun hm => hK2 ((lineKeys_linesOf ul h _ K hc).1 hm).1),
        (Header.find?_eq_none h K).2 hK]

/-! ## ASCII streams -/

theorem headerReadEntry_ascii (ul : Str → Str) (h : Header) (byt : Nat)
    (rb : Reader) (hb : byt < 128) (hrb : ∀ c ∈ rb, c < 128) :
    headerReadEntry ul h byt rb = headerReadEntry id h byt rb := by
  unfold headerReadEntry
  split_ifs with hl
  · rfl
  · cases e1 : readBytesLimited rb COLON (headerMaxKeyLength - 1) with
    | error err => rfl
    | ok p =>
      obtain ⟨byts, rb1⟩ := p
      obtain ⟨pre, k1, k2, _, _⟩ := readUntil_ok_inv _ _ _ _ _ _ e1
      have hkey : headerKeyNormalize ul ([byt] ++ byts.dropLast) =
          headerKeyNormalize id ([byt] ++ byts.dropLast) := by
        apply headerKeyNormalize_ascii
        rw [List.all_eq_true]
        intro c hc
        rw [k1, List.dropLast_concat] at hc
        simp only [List.singleton_append, List.mem_cons] at hc
        rcases hc with hc | hc
        · simpa [hc] using hb
        · simpa using hrb c (by rw [k2]; simp [hc])
      simp only [hkey]

theorem headerReadLoop_ascii (ul : Str → Str) (fuel : Nat) (h : Header)
    (rb : Reader) (hrb : ∀ c ∈ rb, c < 128) :
    headerReadLoop ul fuel h rb = headerReadLoop id fuel h rb := by
  induction fuel generalizing h rb with
  | zero => rfl
  | succ f ih =>
    cases rb with
    | nil => rfl
    | cons b rb =>
      simp only [headerReadLoop, ReadByte]
      split_ifs with hb
      · rfl
      · rw [headerReadEntry_ascii ul h b rb (hrb b (by simp))
          (fun c hc => hrb c (by simp [hc]))]
        cases e : headerReadEntry id h b rb with
        | error err => rfl
        | ok p =>
          obtain ⟨h2, rb2⟩ := p
          obtain ⟨krest, n, v, e1, _⟩ := headerReadEntry_ok_inv id h b rb h2 rb2 e
          apply ih
          intro c hc
          apply hrb c
          rw [e1]
          simp [hc]

/-- On a stream of ASCII bytes the decoder does not depend on the Unicode
lower-casing pass. -/
theorem headerRead_ascii (ul : Str → Str) (rb : Reader)
    (hrb : rb.all (fun c => decide (c < 128)) = true) :
    headerRead ul rb = headerRead id rb := by
  apply headerReadLoop_ascii
  intro c hc
  simpa using (List.all_eq_true.1 hrb) c hc

/-! ## A value that is too long -/

theorem headerReadEntry_valueTooLong (ul : Str → Str) (h : Header) (byt : Nat)
    (krest : Str) (n : Nat) (c : Nat) (s : List Nat)
    (hlen : Header.len h < headerMaxEntryCount)
    (hk1 : COLON ∉ krest) (hk2 : krest.length + 1 ≤ 1023)
    (hc : c ≠ SP) (hs1 : 1024 ≤ (c :: s).length)
    (hs2 : ∀ d ∈ (c :: s).take 1024, d ≠ CR) :
    headerReadEntry ul h byt (krest ++ COLON :: (List.replicate n SP ++ c :: s)) =
      .error .valueTooLong := by
  have e1 : readBytesLimited (krest ++ COLON :: (List.replicate n SP ++ c :: s))
      COLON (headerMaxKeyLength - 1) =
      .ok (krest ++ [COLON], List.replicate n SP ++ c :: s) :=
    readUntil_found COLON _ krest _ _ hk1 (by simp [headerMaxKeyLength]; omega)
  have e2 := skipSpaces_replicate n c s hc
  have e3 : readBytesLimited (c :: s) CR headerMaxValueLength =
      .error (.lengthExceeded headerMaxValueLength) :=
    readUntil_exceeded CR _ _ (c :: s) (by simpa [headerMaxValueLength] using hs1)
      (by simpa [headerMaxValueLength] using hs2)
  unfold headerReadEntry
  rw [if_neg (by omega), e1]
  simp only [e2, e3, DecodeError.valueTooLong]

/-! ## Collections that are not decoded from their own encoding -/

theorem roundtrip_noncanonical_key (ul : Str → Str) :
    headerRead ul (encode [(bytes "cseq", [bytes "1"])]) =
      some (.ok ([(bytes "CSeq", [bytes "1"])], [])) := by
  rw [headerRead_ascii ul _ (by decide)]; decide

theorem roundtrip_leading_space (ul : Str → Str) :
    headerRead ul (encode [(bytes "X", [bytes " a"])]) =
      some (.ok ([(bytes "X", [bytes "a"])], [])) := by
  rw [headerRead_ascii ul _ (by decide)]; decide

theorem roundtrip_no_value (ul : Str → Str) :
    headerRead ul (encode [(bytes "X", [])]) = some (.ok ([], [])) := by
  rw [headerRead_ascii ul _ (by decide)]; decide

theorem roundtrip_value_with_cr (ul : Str → Str) :
    headerRead ul (encode [(bytes "X", [bytes "a\rb"])]) =
      some (.error .malformedLineEnding) := by
  rw [headerRead_ascii ul _ (by decide)]; decide

theorem roundtrip_key_with_colon (ul : Str → Str) :
    headerRead ul (encode [(bytes "a:b", [bytes "c"])]) =
      some (.ok ([(bytes "A", [bytes "b: c"])], [])) := by
  rw [headerRead_ascii ul _ (by decide)]; decide

theorem roundtrip_empty_key (ul : Str → Str) :
    headerRead ul (encode [([], [bytes "v"])]) =
      some (.error .unexpectedEndOfStream) := by
  rw [headerRead_ascii ul _ (by decide)]; decide

theorem roundtrip_key_with_cr (ul : Str → Str) :
    headerRead ul (encode [(bytes "\rX", [bytes "v"])]) =
      some (.error .malformedLineEnding) := by
  rw [headerRead_ascii ul _ (by decide)]; decide

theorem encode_single (k v : Str) :
    encode [(k, [v])] =
      renderLines [] ++ (k ++ COLON :: (List.replicate 1 SP ++ (v ++ [CR, LF, CR, LF]))) := by
  rw [encode_eq]
  simp [Header.keys, sortStrings, linesOf, Header.get, Header.find?, renderLines,
    renderLine_eq, bytes_crlf]

theorem headerReadLoop_entry_error (ul : Str → Str) (fuel : Nat) (h : Header)
    (b : Nat) (rb : Reader) (err : DecodeError) (hb : b ≠ CR)
    (he : headerReadEntry ul h b rb = .error err) :
    headerReadLoop ul (fuel + 1) h (b :: rb) = some (.error err) := by
  simp [headerReadLoop, ReadByte, hb, he]

theorem roundtrip_long_value (ul : Str → Str) :
    headerRead ul (encode longValueHeader) = some (.error .valueTooLong) := by
  have hv : List.replicate 1024 97 = 97 :: List.replicate 1023 97 := rfl
  have hs : 97 :: (List.replicate 1023 97 ++ [CR, LF, CR, LF]) =
      List.replicate 1024 97 ++ [CR, LF, CR, LF] := rfl
  have he := headerReadEntry_valueTooLong ul [] 88 [] 1 97
    (List.replicate 1023 97 ++ [CR, LF, CR, LF])
    (by decide) (by simp) (by simp) (by decide)
    (by rw [hs, List.length_append, List.length_replicate]; omega)
    (by
      rw [hs, List.take_left' (List.length_replicate 1024 97)]
      intro d hd
      rw [List.eq_of_mem_replicate hd]
      decide)
  rw [longValueHeader, encode_single, hv,
    headerRead_lines_then ul [] _ (by simp) (by simp)]
  exact headerReadLoop_entry_error ul _ [] 88 _ _ (by decide) he

theorem distinctKeys_ge_of_subset (ul : Str → Str) (ls : List (Str × Str))
    (ks : List Str) (hn : ks.Nodup) (hs : ∀ k ∈ ks, k ∈ lineKeys ul ls) :
    ks.length ≤ distinctKeys ul ls := by
  unfold distinctKeys
  apply List.Subperm.length_le
  apply List.subperm_of_subset hn
  intro k hk
  exact List.mem_dedup.2 (hs k hk)

theorem keys_fullHeader :
    Header.keys fullHeader =
      (List.range 255).map (fun i => 88 :: List.replicate i 120) := by
  simp [Header.keys, fullHeader, Function.comp_def]

theorem WF_fullHeader : Header.WF fullHeader := by
  unfold Header.WF
  rw [keys_fullHeader]
  apply List.Nodup.map _ (List.nodup_range 255)
  intro i j hij
  have := congrArg List.length hij
  simpa using this

theorem mem_fullHeader (e : Str × HeaderValue) (he : e ∈ fullHeader) :
    ∃ i, i < 255 ∧ e = (88 :: List.replicate i 120, [[49], [50]]) := by
  simp only [fullHeader, List.mem_map, List.mem_range] at he
  obtain ⟨i, hi, rfl⟩ := he
  exact ⟨i, hi, rfl⟩

theorem get_fullHeader (k : Str) (hk : k ∈ Header.keys fullHeader) :
    Header.get fullHeader k = [[49], [50]] := by
  have h1 := Header.mem_of_mem_keys fullHeader k hk
  obtain ⟨i, _, e⟩ := mem_fullHeader _ h1
  exact (Prod.mk.inj e).2

theorem canonical_fullHeader (ul : Str → Str) (k : Str)
    (hk : k ∈ Header.keys fullHeader) : headerKeyNormalize ul k = k := by
  rw [keys_fullHeader, List.mem_map] at hk
  obtain ⟨i, _, rfl⟩ := hk
  have hall : ∀ c ∈ 88 :: List.replicate i 120, c = 88 ∨ c = 120 := by
    intro c hc
    rcases List.mem_cons.1 hc with h1 | h1
    · exact Or.inl h1
    · exact Or.inr (List.eq_of_mem_replicate h1)
  have ha : (88 :: List.replicate i 120).all (fun c => decide (c < 128)) = true := by
    rw [List.all_eq_true]
    intro c hc
    rcases hall c hc with rfl | rfl <;> decide
  have hv : (88 :: List.replicate i 120).all validHeaderFieldByte = true := by
    rw [List.all_eq_true]
    intro c hc
    rcases hall c hc with rfl | rfl <;> decide
  have hl : stringsToLower ul (88 :: List.replicate i 120) =
      120 :: List.replicate i 120 := by
    rw [stringsToLower_ascii ul _ ha, List.map_cons, List.map_replicate]
    rfl
  rw [headerKeyNormalize_generic ul _ (by rw [hl, bytes_rtp_info]; simp)
    (by rw [hl, bytes_www_authenticate]; simp) (by rw [hl, bytes_cseq]; simp)]
  unfold CanonicalHeaderKey
  rw [if_pos hv]
  have e : ((88 : Nat) == HYPHEN) = false := by decide
  have e2 : upperByte 88 = 88 := by decide
  simp only [canonicalize, if_true, e2, e, canonicalize_false_replicate]

theorem wellFormed_fullHeader (k v : Str) (hk : k ∈ Header.keys fullHeader)
    (hv : v = [49] ∨ v = [50]) : WellFormedLine (k, v) := by
  rw [keys_fullHeader, List.mem_map] at hk
  obtain ⟨i, hi, rfl⟩ := hk
  rw [List.mem_range] at hi
  have hcol : COLON ∉ 88 :: List.replicate i 120 := by
    intro hc
    rcases List.mem_cons.1 hc with h1 | h1
    · simp [COLON] at h1
    · have := List.eq_of_mem_replicate h1
      simp [COLON] at this
  rcases hv with rfl | rfl
  · exact ⟨⟨by simp, by simp; omega, by simp [CR], hcol⟩,
      by simp, by simp, by simp [CR], by simp [SP]⟩
  · exact ⟨⟨by simp, by simp; omega, by simp [CR], hcol⟩,
      by simp, by simp, by simp [CR], by simp [SP]⟩

theorem specInvariants_fullHeader : Header.SpecInvariants fullHeader := by
  refine ⟨by simp [Header.len, fullHeader], ?_⟩
  intro e he
  obtain ⟨i, hi, rfl⟩ := mem_fullHeader e he
  refine ⟨by simp; omega, ?_⟩
  intro v hv
  simp only [List.mem_cons, List.mem_singleton, List.not_mem_nil, or_false] at hv
  rcases hv with rfl | rfl <;> simp [SP, List.dropWhile]

theorem roundtrip_full (ul : Str → Str) :
    headerRead ul (encode fullHeader) = some (.error .tooManyHeaders) := by
  have hperm := perm_sortStrings (Header.keys fullHeader)
  have hmem : ∀ k, k ∈ sortStrings (Header.keys fullHeader) →
      k ∈ Header.keys fullHeader := fun k hk => hperm.mem_iff.1 hk
  have hnd : (sortStrings (Header.keys fullHeader)).Nodup :=
    hperm.nodup_iff.2 WF_fullHeader
  have hlen : (sortStrings (Header.keys fullHeader)).length = 255 := by
    rw [hperm.length_eq, keys_fullHeader]; simp
  rw [encode_eq]
  rcases List.eq_nil_or_concat (sortStrings (Header.keys fullHeader)) with
    e | ⟨L, b, e⟩
  · rw [e] at hlen; simp at hlen
  · rw [List.concat_eq_append] at e
    have hb : b ∈ Header.keys fullHeader := hmem b (by rw [e]; simp)
    have hL : ∀ k ∈ L, k ∈ Header.keys fullHeader :=
      fun k hk => hmem k (by rw [e]; simp [hk])
    have el : linesOf fullHeader (sortStrings (Header.keys fullHeader)) =
        (linesOf fullHeader L ++ [(b, [49])]) ++ [(b, [50])] := by
      rw [e, linesOf_append]
      simp [linesOf, get_fullHeader b hb]
    rw [el]
    apply headerRead_lines_tooMany ul
    · intro l hl
      simp only [List.mem_append, List.mem_singleton] at hl
      rcases hl with (hl | rfl) | rfl
      · obtain ⟨h1, h2⟩ := (mem_linesOf _ _ l).1 hl
        rw [get_fullHeader l.1 (hL _ h1)] at h2
        exact wellFormed_fullHeader l.1 l.2 (hL _ h1) (by simpa using h2)
      · exact wellFormed_fullHeader b _ hb (Or.inl rfl)
      · exact wellFormed_fullHeader b _ hb (Or.inr rfl)
    · refine ⟨(linesOf fullHeader L ++ [(b, [49])]).length, by simp, ?_⟩
      rw [List.take_left' rfl, ← hlen]
      apply distinctKeys_ge_of_subset ul _ _ hnd
      intro k hk
      rw [e, List.mem_append, List.mem_singleton] at hk
      simp only [lineKeys, List.mem_map]
      rcases hk with hk | rfl
      · refine ⟨(k, [49]), ?_, canonical_fullHeader ul k (hL k hk)⟩
        rw [List.mem_append]
        left
        rw [mem_linesOf]
        exact ⟨hk, by rw [get_fullHeader k (hL k hk)]; simp⟩
      · exact ⟨(k, [49]), by simp, canonical_fullHeader ul k hb⟩

/-- C1, counterexample: collections that satisfy the invariants of §3 and are
not decoded from their own encoding.  The key `cseq` comes back as `CSeq`;
the value ` a` comes back as `a`; the key `X` without a value is lost; the
value `a\rb` and the key `\rX` give `MalformedLineEnding`; the key `a:b` with
the value `c` comes back as the key `A` with the value `b: c`; the empty key
gives `UnexpectedEndOfStream`; a value of 1024 bytes gives `ValueTooLong`;
255 keys with two values each give `TooManyHeaders`. -/
theorem roundtrip_fails :
    (Header.WF [(bytes "cseq", [bytes "1"])] ∧
      Header.SpecInvariants [(bytes "cseq", [bytes "1"])] ∧
      (∀ ul, headerRead ul (encode [(bytes "cseq", [bytes "1"])]) =
        some (.ok ([(bytes "CSeq", [bytes "1"])], []))) ∧
      ¬ Header.Equiv [(bytes "CSeq", [bytes "1"])] [(bytes "cseq", [bytes "1"])]) ∧
    (Header.WF [(bytes "X", [bytes " a"])] ∧
      Header.SpecInvariants [(bytes "X", [bytes " a"])] ∧
      (∀ ul, headerRead ul (encode [(bytes "X", [bytes " a"])]) =
        some (.ok ([(bytes "X", [bytes "a"])], []))) ∧
      ¬ Header.Equiv [(bytes "X", [bytes "a"])] [(bytes "X", [bytes " a"])]) ∧
    (Header.WF [(bytes "X", [])] ∧ Header.SpecInvariants [(bytes "X", [])] ∧
      (∀ ul, headerRead ul (encode [(bytes "X", [])]) = some (.ok ([], []))) ∧
      ¬ Header.Equiv [] [(bytes "X", [])]) ∧
    (Header.WF [(bytes "X", [bytes "a\rb"])] ∧
      Header.SpecInvariants [(bytes "X", [bytes "a\rb"])] ∧
      ∀ ul, headerRead ul (encode [(bytes "X", [bytes "a\rb"])]) =
        some (.error .malformedLineEnding)) ∧
    (Header.WF [(bytes "a:b", [bytes "c"])] ∧
      Header.SpecInvariants [(bytes "a:b", [bytes "c"])] ∧
      (∀ ul, headerRead ul (encode [(bytes "a:b", [bytes "c"])]) =
        some (.ok ([(bytes "A", [bytes "b: c"])], []))) ∧
      ¬ Header.Equiv [(bytes "A", [bytes "b: c"])] [(bytes "a:b", [bytes "c"])]) ∧
    (Header.WF [([], [bytes "v"])] ∧ Header.SpecInvariants [([], [bytes "v"])] ∧
      ∀ ul, headerRead ul (encode [([], [bytes "v"])]) =
        some (.error .unexpectedEndOfStream)) ∧
    (Header.WF [(bytes "\rX", [bytes "v"])] ∧
      Header.SpecInvariants [(bytes "\rX", [bytes "v"])] ∧
      ∀ ul, headerRead ul (encode [(bytes "\rX", [bytes "v"])]) =
        some (.error .malformedLineEnding)) ∧
    (Header.WF longValueHeader ∧ Header.SpecInvariants longValueHeader ∧
      ∀ ul, headerRead ul (encode longValueHeader) = some (.error .valueTooLong)) ∧
    (Header.WF fullHeader ∧ Header.SpecInvariants fullHeader ∧
      ∀ ul, headerRead ul (encode fullHeader) = some (.error .tooManyHeaders)) := by
  refine ⟨⟨by decide, by decide, roundtrip_noncanonical_key,
      fun he => absurd (he (bytes "cseq")) (by decide)⟩,
    ⟨by decide, by decide, roundtrip_leading_space,
      fun he => absurd (he (bytes "X")) (by decide)⟩,
    ⟨by decide, by decide, roundtrip_no_value,
      fun he => absurd (he (bytes "X")) (by decide)⟩,
    ⟨by decide, by decide, roundtrip_value_with_cr⟩,
    ⟨by decide, by decide, roundtrip_key_with_colon,
      fun he => absurd (he (bytes "a:b")) (by decide)⟩,
    ⟨by decide, by decide, roundtrip_empty_key⟩,
    ⟨by decide, by decide, roundtrip_key_with_cr⟩,
    ⟨by decide, ?_, roundtrip_long_value⟩,
    ⟨WF_fullHeader, specInvariants_fullHeader, roundtrip_full⟩⟩
  refine ⟨by decide, ?_⟩
  intro e he
  simp only [longValueHeader, List.mem_singleton] at he
  subst he
  refine ⟨by decide, ?_⟩
  intro v hv
  simp only [List.mem_singleton] at hv
  subst hv
  have hv : List.replicate 1024 97 = 97 :: List.replicate 1023 97 := rfl
  refine ⟨by rw [List.length_replicate], ?_⟩
  rw [hv, List.dropWhile_cons_of_neg (by decide)]
  exact List.cons_ne_nil _ _

/-! ## Lines with any number of spaces after the colon -/

theorem DecodableLine_of_wellFormed (l : Str × Str) (h : WellFormedLine l) :
    DecodableLine l := by
  obtain ⟨⟨h1, h2, h3, h4⟩, h5⟩ := h
  exact ⟨⟨h1, h2, h3, fun hc => h4 (List.mem_of_mem_tail hc)⟩, h5⟩

theorem renderRaws_append (ls ms : List RawLine) :
    renderRaws (ls ++ ms) = renderRaws ls ++ renderRaws ms := by
  induction ls with
  | nil => rfl
  | cons l ls ih => simp [renderRaws, ih]

theorem length_le_renderRaws (ls : List RawLine) :
    ls.length ≤ (renderRaws ls).length := by
  induction ls with
  | nil => simp
  | cons l ls ih =>
    simp only [renderRaws, renderRaw, List.length_cons, List.length_append]
    omega

/-- One accepted line, seen from the loop: the collection gains the value
under the normalized key and the loop goes on after the line. -/
theorem headerReadLoop_raw (ul : Str → Str) (l : RawLine) (h : Header)
    (tail : List Nat) (fuel : Nat) (hd : DecodableLine l.line)
    (hlen : Header.len h < headerMaxEntryCount) :
    headerReadLoop ul (fuel + 1) h (renderRaw l ++ tail) =
      headerReadLoop ul fuel (Header.add h (headerKeyNormalize ul l.1) l.2.2) tail := by
  obtain ⟨k, n, v⟩ := l
  obtain ⟨⟨hk1, hk2, hk3, hk4⟩, hv1, hv2, hv3, hv4⟩ := hd
  simp only [RawLine.line] at hk1 hk2 hk3 hk4 hv1 hv2 hv3 hv4
  cases k with
  | nil => simp at hk1
  | cons b krest =>
    have hb : b ≠ CR := by simpa using hk3
    have he := headerReadEntry_line ul h b krest n v tail hlen
      (by simpa using hk4) (by simpa using hk2)
      (by intro e; simp [e] at hv1) hv4 hv3 hv2
    have hin : renderRaw (b :: krest, n, v) ++ tail =
        b :: (krest ++ COLON :: (List.replicate n SP ++ (v ++ CR :: LF :: tail))) := by
      simp [renderRaw]
    rw [hin]
    simp only [headerReadLoop, ReadByte, if_neg hb, he]

/-- The loop on accepted lines followed by any stream. -/
theorem headerReadLoop_raws_then (ul : Str → Str) (ls : List RawLine)
    (h : Header) (tail : List Nat) (fuel : Nat)
    (hd : ∀ l ∈ ls, DecodableLine l.line)
    (hg : ∀ i, i < ls.length →
      Header.len (addLines ul h ((ls.take i).map RawLine.line)) <
        headerMaxEntryCount) :
    headerReadLoop ul (fuel + ls.length) h (renderRaws ls ++ tail) =
      headerReadLoop ul fuel (addLines ul h (ls.map RawLine.line)) tail := by
  induction ls generalizing h with
  | nil => simp [renderRaws, addLines]
  | cons l ls ih =>
    have hlen : Header.len h < headerMaxEntryCount := by
      simpa [addLines] using hg 0 (by simp)
    rw [List.length_cons, ← Nat.add_assoc, renderRaws, List.append_assoc,
      headerReadLoop_raw ul l h _ _ (hd l (by simp)) hlen]
    rw [List.map_cons, addLines_cons]
    apply ih
    · intro l2 hl2; exact hd l2 (by simp [hl2])
    · intro i hi
      have := hg (i + 1) (by simpa using hi)
      simpa [addLines_cons, RawLine.line] using this

theorem headerRead_raws_then (ul : Str → Str) (ls : List RawLine)
    (tail : List Nat) (hd : ∀ l ∈ ls, DecodableLine l.line)
    (hg : ∀ i, i < ls.length →
      Header.len (addLines ul [] ((ls.take i).map RawLine.line)) <
        headerMaxEntryCount) :
    headerRead ul (renderRaws ls ++ tail) =
      headerReadLoop ul (tail.length + 1) (addLines ul [] (ls.map RawLine.line))
        tail := by
  unfold headerRead
  have hl := length_le_renderRaws ls
  have e : (renderRaws ls ++ tail).length + 1 =
      ((renderRaws ls).length - ls.length + tail.length + 1) + ls.length := by
    simp only [List.length_append]; omega
  rw [e, headerReadLoop_raws_then ul ls [] tail _ hd hg]
  apply headerReadLoop_fuel <;> omega

theorem headerReadLoop_crlf (ul : Str → Str) (fuel : Nat) (h : Header)
    (rest : List Nat) :
    headerReadLoop ul (fuel + 1) h (CR :: LF :: rest) = some (.ok (h, rest)) := by
  simp [headerReadLoop, ReadByte, readByteEqual]

/-! ## The empty block -/

/-- C18: on every input that begins with the two bytes CR LF the decoder
succeeds, returns the empty collection and leaves everything after these two
bytes unread. -/
theorem headerRead_empty_block (unicodeLower : Str → Str) (rest : List Nat) :
    headerRead unicodeLower (bytes "\r\n" ++ rest) = some (.ok ([], rest)) := by
  rw [bytes_crlf]
  exact headerReadLoop_crlf unicodeLower _ [] rest

/-! ## Empty values and leading spaces -/

theorem headerReadEntry_emptyValue (ul : Str → Str) (h : Header) (byt : Nat)
    (krest : Str) (n : Nat) (tail : List Nat)
    (hlen : Header.len h < headerMaxEntryCount)
    (hk1 : COLON ∉ krest) (hk2 : krest.length + 1 ≤ 1023) :
    headerReadEntry ul h byt (krest ++ COLON :: (List.replicate n SP ++ CR :: tail)) =
      .error .emptyValue := by
  have e1 : readBytesLimited (krest ++ COLON :: (List.replicate n SP ++ CR :: tail))
      COLON (headerMaxKeyLength - 1) =
      .ok (krest ++ [COLON], List.replicate n SP ++ CR :: tail) :=
    readUntil_found COLON _ krest _ _ hk1 (by simp [headerMaxKeyLength]; omega)
  have e2 := skipSpaces_replicate n CR tail (by decide)
  have e3 : readBytesLimited (CR :: tail) CR headerMaxValueLength =
      .ok ([CR], tail) :=
    readUntil_found CR _ [] tail _ (by simp) (by simp [headerMaxValueLength])
  unfold headerReadEntry
  rw [if_neg (by omega), e1]
  simp [e2, e3]

theorem headerRead_first_entry_error (ul : Str → Str) (b : Nat) (rb : Reader)
    (err : DecodeError) (hb : b ≠ CR)
    (he : headerReadEntry ul [] b rb = .error err) :
    headerRead ul (b :: rb) = some (.error err) :=
  headerReadLoop_entry_error ul _ [] b rb err hb he

/-- C13: an input that starts with a key accepted by the key scan, the colon,
any number of spaces and a carriage return fails with `EmptyValue`, whatever
follows. -/
theorem headerRead_empty_value (unicodeLower : Str → Str) (k : Str) (n : Nat)
    (tail : List Nat)
    (hk1 : 1 ≤ k.length) (hk2 : k.length ≤ 1023) (hk3 : k.head? ≠ some CR)
    (hk4 : COLON ∉ k.tail) :
    headerRead unicodeLower
        (k ++ bytes ":" ++ List.replicate n SP ++ bytes "\r" ++ tail) =
      some (.error .emptyValue) := by
  cases k with
  | nil => simp at hk1
  | cons b krest =>
    have hin : b :: krest ++ bytes ":" ++ List.replicate n SP ++ bytes "\r" ++ tail =
        b :: (krest ++ COLON :: (List.replicate n SP ++ CR :: tail)) := by
      have e1 : bytes ":" = [COLON] := by decide
      have e2 : bytes "\r" = [CR] := by decide
      simp [e1, e2]
    rw [hin]
    apply headerRead_first_entry_error unicodeLower b _ _ (by simpa using hk3)
    exact headerReadEntry_emptyValue unicodeLower [] b krest n tail (by decide)
      (by simpa using hk4) (by simpa using hk2)

/-- C13, witness: `X:` followed by the line ending and the blank line. -/
theorem headerRead_empty_value_witness :
    headerRead id (bytes "X" ++ bytes ":" ++ List.replicate 0 SP ++ bytes "\r" ++
        bytes "\n\r\n") =
      some (.error .emptyValue) :=
  headerRead_empty_value id (bytes "X") 0 (bytes "\n\r\n") (by decide) (by decide)
    (by decide) (by decide)

theorem addLines_single (ul : Str → Str) (k v : Str) :
    addLines ul [] [(k, v)] = [(headerKeyNormalize ul k, [v])] := by
  simp [addLines, Header.add, Header.set, Header.get, Header.find?]

theorem headerRead_single_raw (ul : Str → Str) (k : Str) (n : Nat) (v : Str)
    (rest : List Nat) (hd : DecodableLine (k, v)) :
    headerRead ul (renderRaw (k, n, v) ++ CR :: LF :: rest) =
      some (.ok ([(headerKeyNormalize ul k, [v])], rest)) := by
  have h1 := headerRead_raws_then ul [(k, n, v)] (CR :: LF :: rest)
    (by intro l hl; rw [List.mem_singleton] at hl; rw [hl]; exact hd)
    (by
      intro i hi
      have hi0 : i = 0 := by simpa using hi
      subst hi0
      simp [addLines, Header.len, headerMaxEntryCount])
  simp only [renderRaws, List.append_nil] at h1
  rw [h1, headerReadLoop_crlf]
  simp [RawLine.line, addLines_single]

/-- C14: for a key accepted by the key scan and a value that is non-empty, at
most 1023 bytes long, free of carriage returns and does not start with a
space, the decoder returns the collection with the single value `v` under the
normalized key, whatever the number `n` of spaces between the colon and the
value; nothing else of `v` is changed, be it trailing spaces or tabs. -/
theorem headerRead_leading_spaces (unicodeLower : Str → Str) (k v : Str) (n : Nat)
    (hd : DecodableLine (k, v)) :
    headerRead unicodeLower
        (k ++ bytes ":" ++ List.replicate n SP ++ v ++ bytes "\r\n\r\n") =
      some (.ok ([(headerKeyNormalize unicodeLower k, [v])], [])) := by
  have hin : k ++ bytes ":" ++ List.replicate n SP ++ v ++ bytes "\r\n\r\n" =
      renderRaw (k, n, v) ++ CR :: LF :: [] := by
    have e1 : bytes ":" = [COLON] := by decide
    have e2 : bytes "\r\n\r\n" = [CR, LF, CR, LF] := by decide
    simp [e1, e2, renderRaw]
  rw [hin]
  exact headerRead_single_raw unicodeLower k n v [] hd

/-- C14, witness: `X: value` and `X:    value` both give `value`, and the
value `a`, space, tab keeps its trailing space and tab. -/
theorem headerRead_leading_spaces_witness :
    headerRead id (bytes "X: value\r\n\r\n") =
        some (.ok ([(bytes "X", [bytes "value"])], [])) ∧
      headerRead id (bytes "X:    value\r\n\r\n") =
        some (.ok ([(bytes "X", [bytes "value"])], [])) ∧
      headerRead id (bytes "X:a \t\r\n\r\n") =
        some (.ok ([(bytes "X", [bytes "a \t"])], [])) :=
  ⟨headerRead_leading_spaces id (bytes "X") (bytes "value") 1 (by decide),
    headerRead_leading_spaces id (bytes "X") (bytes "value") 4 (by decide),
    headerRead_leading_spaces id (bytes "X") (bytes "a \t") 0 (by decide)⟩

/-! ## The limit on the length of a value -/

theorem headerRead_first_value_tooLong (ul : Str → Str) (k : Str) (n : Nat)
    (v : Str) (tail : List Nat)
    (hk1 : 1 ≤ k.length) (hk2 : k.length ≤ 1023) (hk3 : k.head? ≠ some CR)
    (hk4 : COLON ∉ k.tail) (hv2 : v.head? ≠ some SP) (hv3 : CR ∉ v)
    (hv4 : 1024 ≤ v.length) :
    headerRead ul (k ++ COLON :: (List.replicate n SP ++ (v ++ tail))) =
      some (.error .valueTooLong) := by
  cases k with
  | nil => simp at hk1
  | cons b krest =>
    cases v with
    | nil => simp at hv4
    | cons c cs =>
      rw [List.cons_append]
      apply headerRead_first_entry_error ul b _ _ (by simpa using hk3)
      rw [List.cons_append]
      apply headerReadEntry_valueTooLong ul [] b krest n c (cs ++ tail) (by decide)
        (by simpa using hk4) (by simpa using hk2) (by simpa using hv2)
      · simp only [List.length_cons, List.length_append] at hv4 ⊢; omega
      · intro d hd
        rw [← List.cons_append, List.take_append_of_le_length hv4] at hd
        intro hc
        rw [hc] at hd
        exact hv3 (List.mem_of_mem_take hd)

theorem cr_not_mem_replicate_a (n : Nat) : CR ∉ List.replicate n 97 := by
  intro hc
  have := List.eq_of_mem_replicate hc
  simp [CR] at this

theorem head?_replicate_a (n : Nat) : (List.replicate (n + 1) 97).head? ≠ some SP := by
  simp [List.replicate_succ, SP]

/-- C11, counterexample: the line `X: ` with a value of exactly 1024 bytes
`a`, followed by the blank line, fails with `ValueTooLong`. -/
theorem headerRead_value_of_1024_bytes_fails :
    (List.replicate 1024 97).length = 1024 ∧
    ∀ unicodeLower : Str → Str,
      headerRead unicodeLower
          (bytes "X" ++ COLON :: (List.replicate 1 SP ++
            (List.replicate 1024 97 ++ bytes "\r\n\r\n"))) =
        some (.error .valueTooLong) :=
  ⟨List.length_replicate 1024 97, fun ul =>
    headerRead_first_value_tooLong ul (bytes "X") 1 (List.replicate 1024 97)
      (bytes "\r\n\r\n") (by decide) (by decide) (by decide) (by decide)
      (head?_replicate_a 1023) (cr_not_mem_replicate_a 1024)
      (by rw [List.length_replicate])⟩

/-! ## What a successful decoding has read -/

/-- A successful run of the loop has read a sequence of accepted lines and
the blank line, and has appended the lines to the collection. -/
theorem headerReadLoop_ok_inv (ul : Str → Str) (fuel : Nat) (h : Header)
    (rb : Reader) (h2 : Header) (rest : Reader)
    (hr : headerReadLoop ul fuel h rb = some (.ok (h2, rest))) :
    ∃ ls : List RawLine, (∀ l ∈ ls, DecodableLine l.line) ∧
      rb = renderRaws ls ++ CR :: LF :: rest ∧
      h2 = addLines ul h (ls.map RawLine.line) ∧
      ∀ i, i < ls.length →
        Header.len (addLines ul h ((ls.take i).map RawLine.line)) <
          headerMaxEntryCount := by
  induction fuel generalizing h rb with
  | zero => simp [headerReadLoop] at hr
  | succ f ih =>
    cases rb with
    | nil => simp [headerReadLoop, ReadByte] at hr
    | cons b rb =>
      simp only [headerReadLoop, ReadByte] at hr
      by_cases hb : b = CR
      · rw [if_pos hb] at hr
        cases e : readByteEqual rb LF with
        | error err => simp [e] at hr
        | ok rb2 =>
          simp only [e, Option.some.injEq, Except.ok.injEq, Prod.mk.injEq] at hr
          have e2 := readByteEqual_ok_inv _ _ _ e
          refine ⟨[], by simp, ?_, by simp [addLines, hr.1], by simp⟩
          rw [hb, e2, hr.2]; rfl
      · rw [if_neg hb] at hr
        cases e : headerReadEntry ul h b rb with
        | error err => simp [e] at hr
        | ok p =>
          obtain ⟨h3, rb3⟩ := p
          simp only [e] at hr
          obtain ⟨krest, n, v, e1, hl, k1, k2, v1, v2, v3, v4, e5⟩ :=
            headerReadEntry_ok_inv ul h b rb h3 rb3 e
          obtain ⟨ls, hd, e6, e7, hg⟩ := ih h3 rb3 hr
          refine ⟨(b :: krest, n, v) :: ls, ?_, ?_, ?_, ?_⟩
          · intro l hl2
            rcases List.mem_cons.1 hl2 with rfl | hl2
            · exact ⟨⟨by simp [RawLine.line], by simp [RawLine.line]; omega,
                  by simpa [RawLine.line] using hb,
                  by simpa [RawLine.line] using k1⟩,
                List.length_pos.2 v1, v4, v3, v2⟩
            · exact hd l hl2
          · rw [e1, e6]; simp [renderRaws, renderRaw]
          · rw [e7, e5]; rfl
          · intro i hi
            cases i with
            | zero => simpa [addLines] using hl
            | succ j =>
              have := hg j (by simpa using hi)
              rw [e5] at this
              simpa [addLines_cons, RawLine.line] using this

theorem headerRead_ok_inv (ul : Str → Str) (rb : Reader) (h : Header)
    (rest : Reader) (hr : headerRead ul rb = some (.ok (h, rest))) :
    ∃ ls : List RawLine, (∀ l ∈ ls, DecodableLine l.line) ∧
      rb = renderRaws ls ++ CR :: LF :: rest ∧
      h = addLines ul [] (ls.map RawLine.line) ∧
      ∀ i, i < ls.length →
        Header.len (addLines ul [] ((ls.take i).map RawLine.line)) <
          headerMaxEntryCount :=
  headerReadLoop_ok_inv ul _ [] rb h rest hr

theorem headerRead_raws_crlf (ul : Str → Str) (ls : List RawLine)
    (rest : List Nat) (hd : ∀ l ∈ ls, DecodableLine l.line)
    (hg : ∀ i, i < ls.length →
      Header.len (addLines ul [] ((ls.take i).map RawLine.line)) <
        headerMaxEntryCount) :
    headerRead ul (renderRaws ls ++ CR :: LF :: rest) =
      some (.ok (addLines ul [] (ls.map RawLine.line), rest)) := by
  rw [headerRead_raws_then ul ls _ hd hg]
  exact headerReadLoop_crlf ul _ _ rest

/-! ## The position of the stream after a success -/

/-- C17: when the decoder succeeds, the bytes it has read are a prefix `p` of
the input that ends with CR LF, the stream that remains is the input after
`p`, and the decoder on `p` followed by any bytes `r` returns the same
collection and leaves exactly `r` unread. -/
theorem headerRead_stream_position (unicodeLower : Str → Str) (rb : Reader)
    (h : Header) (rest : Reader)
    (hr : headerRead unicodeLower rb = some (.ok (h, rest))) :
    ∃ p, rb = p ++ rest ∧ (∃ q, p = q ++ bytes "\r\n") ∧
      ∀ r, headerRead unicodeLower (p ++ r) = some (.ok (h, r)) := by
  obtain ⟨ls, hd, e1, e2, hg⟩ := headerRead_ok_inv unicodeLower rb h rest hr
  refine ⟨renderRaws ls ++ [CR, LF], by rw [e1]; simp,
    ⟨renderRaws ls, by rw [bytes_crlf]⟩, ?_⟩
  intro r
  rw [e2, List.append_assoc]
  exact headerRead_raws_crlf unicodeLower ls r hd hg

/-- C17, witness: the block `A: b` followed by a body. -/
theorem headerRead_stream_position_witness :
    headerRead id (bytes "A: b\r\n\r\nbody") =
        some (.ok ([(bytes "A", [bytes "b"])], bytes "body")) ∧
      ∃ p, bytes "A: b\r\n\r\nbody" = p ++ bytes "body" ∧
        (∃ q, p = q ++ bytes "\r\n") ∧
        ∀ r, headerRead id (p ++ r) = some (.ok ([(bytes "A", [bytes "b"])], r)) :=
  ⟨by decide,
    headerRead_stream_position id (bytes "A: b\r\n\r\nbody")
      [(bytes "A", [bytes "b"])] (bytes "body") (by decide)⟩

/-! ## Decoded keys are canonical -/

theorem headerKeyNormalize_fixed (ul : Str → Str) (k : Str) :
    headerKeyNormalize ul (headerKeyNormalize ul k) = headerKeyNormalize ul k := by
  by_cases h1 : stringsToLower ul k = bytes "rtp-info"
  · have e : headerKeyNormalize ul k = bytes "RTP-INFO" := by
      simp only [headerKeyNormalize, h1, if_true]
    rw [e]; exact headerKeyNormalize_RTP_INFO ul
  by_cases h2 : stringsToLower ul k = bytes "www-authenticate"
  · have e : headerKeyNormalize ul k = bytes "WWW-Authenticate" := by
      unfold headerKeyNormalize; simp only []; rw [if_neg h1, if_pos h2]
    rw [e]; exact headerKeyNormalize_WWW_Authenticate ul
  by_cases h3 : stringsToLower ul k = bytes "cseq"
  · have e : headerKeyNormalize ul k = bytes "CSeq" := by
      unfold headerKeyNormalize; simp only []
      rw [if_neg h1, if_neg h2, if_pos h3]
    rw [e]; exact headerKeyNormalize_CSeq ul
  rw [headerKeyNormalize_generic ul k h1 h2 h3]
  rw [headerKeyNormalize_generic ul _
    (by rw [stringsToLower_CanonicalHeaderKey]; exact h1)
    (by rw [stringsToLower_CanonicalHeaderKey]; exact h2)
    (by rw [stringsToLower_CanonicalHeaderKey]; exact h3)]
  exact CanonicalHeaderKey_idem k

/-! ## Line endings -/

theorem crThenLf_append_of_not_mem (s t : List Nat) (hs : CR ∉ s) :
    crThenLf (s ++ t) = crThenLf t := by
  induction s with
  | nil => rfl
  | cons c cs ih =>
    have hc : c ≠ CR := fun e => hs (by simp [e])
    have hcs : CR ∉ cs := fun e => hs (by simp [e])
    simp [crThenLf, hc, ih hcs]

theorem crThenLf_crlf (t : List Nat) : crThenLf (CR :: LF :: t) = crThenLf t := by
  simp [crThenLf, CR, LF]

theorem crThenLf_renderRaw (l : RawLine) (t : List Nat) (hk : CR ∉ l.1)
    (hv : CR ∉ l.2.2) : crThenLf (renderRaw l ++ t) = crThenLf t := by
  have e : renderRaw l ++ t =
      (l.1 ++ COLON :: (List.replicate l.2.1 SP ++ l.2.2)) ++ CR :: LF :: t := by
    simp [renderRaw]
  rw [e, crThenLf_append_of_not_mem _ _ ?_, crThenLf_crlf]
  intro hc
  simp only [List.mem_append, List.mem_cons, List.mem_replicate] at hc
  rcases hc with hc | hc | hc | hc
  · exact hk hc
  · simp [CR, COLON] at hc
  · simp [CR, SP] at hc
  · exact hv hc

theorem crThenLf_renderRaws (ls : List RawLine)
    (hd : ∀ l ∈ ls, DecodableLine l.line) (hk : ∀ l ∈ ls, CR ∉ l.1) :
    crThenLf (renderRaws ls ++ [CR, LF]) = true := by
  induction ls with
  | nil => decide
  | cons l ls ih =>
    rw [renderRaws, List.append_assoc,
      crThenLf_renderRaw l _ (hk l (by simp)) (hd l (by simp)).2.2.2.1]
    exact ih (fun l2 h2 => hd l2 (by simp [h2])) (fun l2 h2 => hk l2 (by simp [h2]))

theorem headerReadEntry_malformed (ul : Str → Str) (h : Header) (byt : Nat)
    (krest : Str) (n : Nat) (v : Str) (c : Nat) (tail : List Nat)
    (hlen : Header.len h < headerMaxEntryCount)
    (hk1 : COLON ∉ krest) (hk2 : krest.length + 1 ≤ 1023)
    (hv1 : v ≠ []) (hv2 : v.head? ≠ some SP) (hv3 : CR ∉ v)
    (hv4 : v.length ≤ 1023) (hc : c ≠ LF) :
    headerReadEntry ul h byt
        (krest ++ COLON :: (List.replicate n SP ++ (v ++ CR :: c :: tail))) =
      .error .malformedLineEnding := by
  obtain ⟨d, ds, rfl⟩ := List.exists_cons_of_ne_nil hv1
  have hd : d ≠ SP := by simpa using hv2
  have e1 : readBytesLimited
      (krest ++ COLON :: (List.replicate n SP ++ (d :: ds ++ CR :: c :: tail)))
      COLON (headerMaxKeyLength - 1) =
      .ok (krest ++ [COLON], List.replicate n SP ++ (d :: ds ++ CR :: c :: tail)) :=
    readUntil_found COLON _ krest _ _ hk1 (by simp [headerMaxKeyLength]; omega)
  have e2 : skipSpaces (List.replicate n SP ++ (d :: ds ++ CR :: c :: tail)) =
      .ok (d :: ds ++ CR :: c :: tail) := by
    simpa using skipSpaces_replicate n d (ds ++ CR :: c :: tail) hd
  have e3 : readBytesLimited (d :: ds ++ CR :: c :: tail) CR headerMaxValueLength =
      .ok ((d :: ds) ++ [CR], c :: tail) :=
    readUntil_found CR _ (d :: ds) _ _ hv3
      (by simp [headerMaxValueLength] at hv4 ⊢; omega)
  unfold headerReadEntry
  rw [if_neg (by omega), e1]
  simp only [e2, e3, List.dropLast_concat, List.singleton_append]
  rw [if_neg (by simp)]
  simp [readByteEqual, ReadByte, hc]

theorem guard_of_distinctKeys_raws (ul : Str → Str) (ls : List RawLine)
    (hd : distinctKeys ul (ls.map RawLine.line) < 255) (i : Nat) :
    Header.len (addLines ul [] ((ls.take i).map RawLine.line)) <
      headerMaxEntryCount := by
  rw [List.map_take]
  exact guard_of_distinctKeys ul _ hd i

/-- C12, as amended: whenever the decoder succeeds, the bytes it has read are
a sequence of lines, each a key, the colon, spaces, a value without carriage
return, CR and LF, followed by the final CR LF; so every carriage return that
is not a byte of a key is immediately followed by a line feed, and when no
key holds a carriage return every carriage return read is.  A carriage return
that starts a line, or that ends a value, and is followed by a byte other
than the line feed gives `MalformedLineEnding`. -/
theorem headerRead_line_endings (unicodeLower : Str → Str) :
    (∀ rb h rest, headerRead unicodeLower rb = some (.ok (h, rest)) →
      ∃ ls : List RawLine, (∀ l ∈ ls, DecodableLine l.line) ∧
        rb = renderRaws ls ++ bytes "\r\n" ++ rest ∧
        ((∀ l ∈ ls, CR ∉ l.1) → crThenLf (renderRaws ls ++ bytes "\r\n") = true)) ∧
    (∀ (ls : List RawLine) (c : Nat) (tail : List Nat),
      (∀ l ∈ ls, DecodableLine l.line) →
      (∀ i, i < ls.length →
        distinctKeys unicodeLower ((ls.take i).map RawLine.line) < 255) →
      c ≠ LF →
      headerRead unicodeLower (renderRaws ls ++ CR :: c :: tail) =
        some (.error .malformedLineEnding)) ∧
    (∀ (ls : List RawLine) (k : Str) (n : Nat) (v : Str) (c : Nat)
        (tail : List Nat),
      (∀ l ∈ ls, DecodableLine l.line) →
      distinctKeys unicodeLower (ls.map RawLine.line) < 255 →
      DecodableLine (k, v) → c ≠ LF →
      headerRead unicodeLower (renderRaws ls ++
          (k ++ COLON :: (List.replicate n SP ++ (v ++ CR :: c :: tail)))) =
        some (.error .malformedLineEnding)) := by
  refine ⟨?_, ?_, ?_⟩
  · intro rb h rest hr
    obtain ⟨ls, hd, e1, _, _⟩ := headerRead_ok_inv unicodeLower rb h rest hr
    refine ⟨ls, hd, by rw [e1, bytes_crlf]; simp, fun hk => ?_⟩
    rw [bytes_crlf]
    exact crThenLf_renderRaws ls hd hk
  · intro ls c tail hd hg hc
    rw [headerRead_raws_then unicodeLower ls _ hd
      (fun i hi => by rw [len_addLines_eq_distinctKeys]; exact hg i hi)]
    simp [headerReadLoop, ReadByte, readByteEqual, hc]
  · intro ls k n v c tail hd hg hkv hc
    rw [headerRead_raws_then unicodeLower ls _ hd
      (fun i _ => guard_of_distinctKeys_raws unicodeLower ls hg i)]
    obtain ⟨⟨hk1, hk2, hk3, hk4⟩, hv1, hv2, hv3, hv4⟩ := hkv
    cases k with
    | nil => simp at hk1
    | cons b krest =>
      have h0 := guard_of_distinctKeys_raws unicodeLower ls hg ls.length
      rw [List.take_length] at h0
      rw [List.cons_append]
      apply headerReadLoop_entry_error unicodeLower _ _ b _ _ (by simpa using hk3)
      exact headerReadEntry_malformed unicodeLower _ b krest n v c tail h0
        (by simpa using hk4) (by simpa using hk2)
        (List.ne_nil_of_length_pos hv1) hv4 hv3 hv2 hc

/-- C12, witness: the block `A: b`, whose carriage returns are all followed
by a line feed; `A: b` followed by CR and `x`; CR and `x` at the start of a
line. -/
theorem headerRead_line_endings_witness :
    crThenLf (bytes "A: b\r\n\r\n") = true ∧
    (∃ ls : List RawLine, (∀ l ∈ ls, DecodableLine l.line) ∧
      bytes "A: b\r\n\r\n" = renderRaws ls ++ bytes "\r\n" ++ [] ∧
      ((∀ l ∈ ls, CR ∉ l.1) → crThenLf (renderRaws ls ++ bytes "\r\n") = true)) ∧
    headerRead id (renderRaws [(bytes "A", 1, bytes "b")] ++ CR :: 120 :: []) =
      some (.error .malformedLineEnding) ∧
    headerRead id (renderRaws [] ++
        (bytes "A" ++ COLON :: (List.replicate 1 SP ++ (bytes "b" ++ CR :: 120 :: [])))) =
      some (.error .malformedLineEnding) :=
  ⟨by decide,
    (headerRead_line_endings id).1 (bytes "A: b\r\n\r\n")
      [(bytes "A", [bytes "b"])] [] (by decide),
    (headerRead_line_endings id).2.1 [(bytes "A", 1, bytes "b")] 120 []
      (by decide) (by decide) (by decide),
    (headerRead_line_endings id).2.2 [] (bytes "A") 1 (bytes "b") 120 []
      (by decide) (by decide) (by decide) (by decide)⟩

/-- C12, counterexample: the block `a`, CR, `b: v` followed by the blank line
is decoded, with the key `a`, CR, `b`; the carriage return of the key has been
read and is followed by `b`, not by a line feed. -/
theorem headerRead_accepts_cr_in_key :
    (∀ unicodeLower : Str → Str,
      headerRead unicodeLower (bytes "a\rb: v\r\n\r\n") =
        some (.ok ([(bytes "a\rb", [bytes "v"])], []))) ∧
    crThenLf (bytes "a\rb: v\r\n\r\n") = false := by
  refine ⟨fun ul => ?_, by decide⟩
  rw [headerRead_ascii ul _ (by decide)]; decide

/-! ## A result that is not the end of the stream does not depend on what follows -/

theorem readUntil_extend_ok (delim lim n : Nat) (q byts q2 s : List Nat)
    (h : readUntil delim lim n q = .ok (byts, q2)) :
    readUntil delim lim n (q ++ s) = .ok (byts, q2 ++ s) := by
  obtain ⟨pre, e1, e2, e3, e4⟩ := readUntil_ok_inv _ _ _ _ _ _ h
  rw [e1, e2, List.append_assoc, List.cons_append]
  exact readUntil_found delim lim pre (q2 ++ s) n e3 e4

theorem readUntil_extend_err (delim lim n : Nat) (q s : List Nat) (e : DecodeError)
    (h : readUntil delim lim n q = .error e)
    (he : e ≠ .unexpectedEndOfStream) :
    readUntil delim lim n (q ++ s) = .error e := by
  induction n generalizing q with
  | zero => simpa [readUntil] using h
  | succ m ih =>
    cases q with
    | nil =>
      simp only [readUntil, Except.error.injEq] at h
      exact absurd h.symm he
    | cons c cs =>
      by_cases hc : c = delim
      · simp [readUntil, hc] at h
      · simp only [readUntil, if_neg hc, List.cons_append] at h ⊢
        cases e2 : readUntil delim lim m cs with
        | error err =>
          simp only [e2, Except.error.injEq] at h
          subst h
          have := ih cs e2
          rw [List.append_eq] at *
          rw [this]
        | ok p => simp [e2] at h

theorem skipSpaces_extend_ok (q q2 s : List Nat) (h : skipSpaces q = .ok q2) :
    skipSpaces (q ++ s) = .ok (q2 ++ s) := by
  obtain ⟨n, e1, e2, e3⟩ := skipSpaces_ok_inv q q2 h
  obtain ⟨c, t, rfl⟩ := List.exists_cons_of_ne_nil e3
  rw [e1, List.append_assoc, List.cons_append]
  exact skipSpaces_replicate n c (t ++ s) (by simpa using e2)

theorem skipSpaces_error (q : List Nat) (e : DecodeError)
    (h : skipSpaces q = .error e) : e = .unexpectedEndOfStream := by
  induction q with
  | nil => simpa [skipSpaces] using h.symm
  | cons c cs ih =>
    by_cases hc : c = SP
    · simp only [skipSpaces, if_pos hc] at h
      exact ih h
    · simp [skipSpaces, hc] at h

theorem readByteEqual_extend_ok (q q2 s : List Nat) (c : Nat)
    (h : readByteEqual q c = .ok q2) : readByteEqual (q ++ s) c = .ok (q2 ++ s) := by
  rw [readByteEqual_ok_inv q q2 c h, List.cons_append]
  exact readByteEqual_cons c (q2 ++ s)

theorem readByteEqual_extend_err (q s : List Nat) (c : Nat) (e : DecodeError)
    (h : readByteEqual q c = .error e) (he : e ≠ .unexpectedEndOfStream) :
    readByteEqual (q ++ s) c = .error e := by
  cases q with
  | nil =>
    simp only [readByteEqual, ReadByte, Except.error.injEq] at h
    exact absurd h.symm he
  | cons d ds =>
    by_cases hd : d = c
    · simp [readByteEqual, ReadByte, hd] at h
    · simpa [readByteEqual, ReadByte, hd] using h

theorem headerReadEntry_extend_ok (ul : Str → Str) (h : Header) (byt : Nat)
    (q : Reader) (h2 : Header) (q2 s : Reader)
    (he : headerReadEntry ul h byt q = .ok (h2, q2)) :
    headerReadEntry ul h byt (q ++ s) = .ok (h2, q2 ++ s) := by
  obtain ⟨krest, n, v, e1, hl, k1, k2, v1, v2, v3, v4, e5⟩ :=
    headerReadEntry_ok_inv ul h byt q h2 q2 he
  have := headerReadEntry_line ul h byt krest n v (q2 ++ s) hl k1 k2 v1 v2 v3 v4
  rw [e1, e5]
  simpa using this

theorem headerReadEntry_extend_err (ul : Str → Str) (h : Header) (byt : Nat)
    (q s : Reader) (e : DecodeError)
    (he : headerReadEntry ul h byt q = .error e)
    (hne : e ≠ .unexpectedEndOfStream) :
    headerReadEntry ul h byt (q ++ s) = .error e := by
  unfold headerReadEntry at he ⊢
  by_cases hl : Header.len h ≥ headerMaxEntryCount
  · rw [if_pos hl] at he ⊢; exact he
  rw [if_neg hl] at he ⊢
  cases e1 : readBytesLimited q COLON (headerMaxKeyLength - 1) with
  | error err =>
    simp only [e1, Except.error.injEq] at he
    subst he
    have := readUntil_extend_err _ _ _ q s err e1 hne
    simp only [readBytesLimited] at this ⊢
    rw [this]
  | ok p1 =>
    obtain ⟨byts1, q1⟩ := p1
    have x1 : readBytesLimited (q ++ s) COLON (headerMaxKeyLength - 1) =
        .ok (byts1, q1 ++ s) := readUntil_extend_ok _ _ _ q byts1 q1 s e1
    simp only [e1] at he
    simp only [x1]
    cases e2 : skipSpaces q1 with
    | error err =>
      simp only [e2, Except.error.injEq] at he
      subst he
      exact absurd (skipSpaces_error q1 err e2) hne
    | ok q2 =>
      simp only [e2] at he
      simp only [skipSpaces_extend_ok q1 q2 s e2]
      cases e3 : readBytesLimited q2 CR headerMaxValueLength with
      | error err =>
        simp only [e3, Except.error.injEq] at he
        subst he
        have := readUntil_extend_err _ _ _ q2 s err e3 hne
        simp only [readBytesLimited] at this ⊢
        rw [this]
      | ok p3 =>
        obtain ⟨byts3, q3⟩ := p3
        have x3 : readBytesLimited (q2 ++ s) CR headerMaxValueLength =
            .ok (byts3, q3 ++ s) := readUntil_extend_ok _ _ _ q2 byts3 q3 s e3
        simp only [e3] at he
        simp only [x3]
        by_cases hv : byts3.dropLast.length = 0
        · rw [if_pos hv] at he ⊢; exact he
        · rw [if_neg hv] at he ⊢
          cases e4 : readByteEqual q3 LF with
          | error err =>
            simp only [e4, Except.error.injEq] at he
            subst he
            rw [readByteEqual_extend_err q3 s LF err e4 hne]
          | ok q4 => simp [e4] at he

theorem headerReadLoop_extend_ok (ul : Str → Str) (fuel : Nat) (h : Header)
    (q : Reader) (h2 : Header) (q2 s : Reader)
    (hr : headerReadLoop ul fuel h q = some (.ok (h2, q2))) :
    headerReadLoop ul fuel h (q ++ s) = some (.ok (h2, q2 ++ s)) := by
  induction fuel generalizing h q with
  | zero => simp [headerReadLoop] at hr
  | succ f ih =>
    cases q with
    | nil => simp [headerReadLoop, ReadByte] at hr
    | cons b q1 =>
      simp only [headerReadLoop, ReadByte, List.cons_append] at hr ⊢
      by_cases hb : b = CR
      · rw [if_pos hb] at hr ⊢
        cases e : readByteEqual q1 LF with
        | error err => simp [e] at hr
        | ok q3 =>
          simp only [e, Option.some.injEq, Except.ok.injEq, Prod.mk.injEq] at hr
          rw [readByteEqual_extend_ok q1 q3 s LF e, hr.1, hr.2]
      · rw [if_neg hb] at hr ⊢
        cases e : headerReadEntry ul h b q1 with
        | error err => simp [e] at hr
        | ok p =>
          obtain ⟨h3, q3⟩ := p
          simp only [e] at hr
          simp only [headerReadEntry_extend_ok ul h b q1 h3 q3 s e]
          exact ih h3 q3 hr

theorem headerReadLoop_extend_err (ul : Str → Str) (fuel : Nat) (h : Header)
    (q s : Reader) (e : DecodeError)
    (hr : headerReadLoop ul fuel h q = some (.error e))
    (hne : e ≠ .unexpectedEndOfStream) :
    headerReadLoop ul fuel h (q ++ s) = some (.error e) := by
  induction fuel generalizing h q with
  | zero => simp [headerReadLoop] at hr
  | succ f ih =>
    cases q with
    | nil =>
      simp only [headerReadLoop, ReadByte, Option.some.injEq, Except.error.injEq] at hr
      exact absurd hr.symm hne
    | cons b q1 =>
      simp only [headerReadLoop, ReadByte, List.cons_append] at hr ⊢
      by_cases hb : b = CR
      · rw [if_pos hb] at hr ⊢
        cases e1 : readByteEqual q1 LF with
        | error err =>
          simp only [e1, Option.some.injEq, Except.error.injEq] at hr
          subst hr
          rw [readByteEqual_extend_err q1 s LF err e1 hne]
        | ok q3 => simp [e1] at hr
      · rw [if_neg hb] at hr ⊢
        cases e1 : headerReadEntry ul h b q1 with
        | error err =>
          simp only [e1, Option.some.injEq, Except.error.injEq] at hr
          subst hr
          rw [headerReadEntry_extend_err ul h b q1 s err e1 hne]
        | ok p =>
          obtain ⟨h3, q3⟩ := p
          simp only [e1] at hr
          simp only [headerReadEntry_extend_ok ul h b q1 h3 q3 s e1]
          exact ih h3 q3 hr

theorem headerRead_extend_ok (ul : Str → Str) (q : Reader) (h2 : Header)
    (q2 s : Reader) (hr : headerRead ul q = some (.ok (h2, q2))) :
    headerRead ul (q ++ s) = some (.ok (h2, q2 ++ s)) := by
  unfold headerRead at hr ⊢
  rw [headerReadLoop_fuel ul _ ((q ++ s).length + 1) [] q (by omega)
    (by simp only [List.length_append]; omega)] at hr
  exact headerReadLoop_extend_ok ul _ [] q h2 q2 s hr

theorem headerRead_extend_err (ul : Str → Str) (q s : Reader) (e : DecodeError)
    (hr : headerRead ul q = some (.error e)) (hne : e ≠ .unexpectedEndOfStream) :
    headerRead ul (q ++ s) = some (.error e) := by
  unfold headerRead at hr ⊢
  rw [headerReadLoop_fuel ul _ ((q ++ s).length + 1) [] q (by omega)
    (by simp only [List.length_append]; omega)] at hr
  exact headerReadLoop_extend_err ul _ [] q s e hr hne

/-! ## A truncated block -/

/-- C19: when the decoder succeeds on an input after reading the prefix `p`,
it fails with `UnexpectedEndOfStream` on every strict prefix `q` of `p`, the
stream ending there: it neither succeeds nor reports another failure. -/
theorem headerRead_truncated (unicodeLower : Str → Str) (p rest : Reader)
    (h : Header)
    (hr : headerRead unicodeLower (p ++ rest) = some (.ok (h, rest)))
    (q s : Reader) (hp : p = q ++ s) (hs : s ≠ []) :
    headerRead unicodeLower q = some (.error .unexpectedEndOfStream) := by
  obtain ⟨r, hq⟩ := headerRead_total unicodeLower q
  have hlen : 0 < s.length := List.length_pos.2 hs
  rw [hp, List.append_assoc] at hr
  cases r with
  | error e =>
    by_cases he : e = .unexpectedEndOfStream
    · rw [hq, he]
    · have := headerRead_extend_err unicodeLower q (s ++ rest) e hq he
      rw [this] at hr
      simp at hr
  | ok res =>
    obtain ⟨h2, q2⟩ := res
    have := headerRead_extend_ok unicodeLower q h2 q2 (s ++ rest) hq
    rw [this] at hr
    simp only [Option.some.injEq, Except.ok.injEq, Prod.mk.injEq] at hr
    have hl := congrArg List.length hr.2
    simp only [List.length_append] at hl
    omega

/-- C19, witness: the block `A: b` followed by a body, cut after the first
carriage return. -/
theorem headerRead_truncated_witness :
    headerRead id (bytes "A: b\r\n\r\n" ++ bytes "body") =
        some (.ok ([(bytes "A", [bytes "b"])], bytes "body")) ∧
      headerRead id (bytes "A: b\r") = some (.error .unexpectedEndOfStream) :=
  ⟨by decide,
    headerRead_truncated id (bytes "A: b\r\n\r\n") (bytes "body")
      [(bytes "A", [bytes "b"])] (by decide) (bytes "A: b\r") (bytes "\n\r\n")
      (by decide) (by decide)⟩

/-! ## The encoder is deterministic -/

theorem Header.find?_eq_some_iff (h : Header) (hw : Header.WF h) (key : Str)
    (vs : HeaderValue) : Header.find? h key = some vs ↔ (key, vs) ∈ h := by
  constructor
  · exact Header.mem_of_find? h key vs
  · intro hm
    induction h with
    | nil => simp at hm
    | cons e h ih =>
      obtain ⟨k, w⟩ := e
      have hnd : k ∉ Header.keys h ∧ (Header.keys h).Nodup := by
        simpa [Header.WF, Header.keys] using hw
      rcases List.mem_cons.1 hm with hm | hm
      · simp only [Prod.mk.injEq] at hm
        simp [Header.find?, hm.1, hm.2]
      · have hk : k ≠ key := by
          intro e
          apply hnd.1
          rw [e]
          exact List.mem_map.2 ⟨(key, vs), hm, rfl⟩
        simp only [Header.find?, if_neg hk]
        exact ih hnd.2 hm

theorem Header.Equiv_of_perm (h1 h2 : Header) (hw : Header.WF h1)
    (hp : h1.Perm h2) : Header.Equiv h1 h2 := by
  have hw2 : Header.WF h2 := by
    unfold Header.WF Header.keys at hw ⊢
    exact (hp.map Prod.fst).nodup_iff.1 hw
  intro key
  cases hf : Header.find? h1 key with
  | none =>
    have h1n := (Header.find?_eq_none h1 key).1 hf
    have h2n : key ∉ Header.keys h2 := by
      intro hm
      apply h1n
      unfold Header.keys at hm ⊢
      exact (hp.map Prod.fst).mem_iff.2 hm
    exact ((Header.find?_eq_none h2 key).2 h2n).symm
  | some vs =>
    have hm := (Header.find?_eq_some_iff h1 hw key vs).1 hf
    exact ((Header.find?_eq_some_iff h2 hw2 key vs).2 (hp.mem_iff.1 hm)).symm

theorem Header.keys_perm_of_equiv (h1 h2 : Header) (hw1 : Header.WF h1)
    (hw2 : Header.WF h2) (he : Header.Equiv h1 h2) :
    (Header.keys h1).Perm (Header.keys h2) := by
  rw [List.perm_ext_iff_of_nodup hw1 hw2]
  intro k
  rw [← not_iff_not, ← Header.find?_eq_none, ← Header.find?_eq_none, he k]

theorem sortStrings_eq_of_perm (ks1 ks2 : List Str) (hp : ks1.Perm ks2) :
    sortStrings ks1 = sortStrings ks2 := by
  haveI : IsAntisymm Str (fun a b => strLe a b = true) := ⟨strLe_antisymm⟩
  apply List.eq_of_perm_of_sorted _ (sorted_sortStrings ks1) (sorted_sortStrings ks2)
  exact (perm_sortStrings ks1).trans (hp.trans (perm_sortStrings ks2).symm)

theorem linesOf_congr (h1 h2 : Header) (he : Header.Equiv h1 h2) (ks : List Str) :
    linesOf h1 ks = linesOf h2 ks := by
  induction ks with
  | nil => rfl
  | cons k ks ih =>
    simp only [linesOf, ih, Header.get, he k]

theorem encode_eq_of_equiv (h1 h2 : Header) (hw1 : Header.WF h1)
    (hw2 : Header.WF h2) (he : Header.Equiv h1 h2) : encode h1 = encode h2 := by
  rw [encode_eq, encode_eq,
    sortStrings_eq_of_perm _ _ (Header.keys_perm_of_equiv h1 h2 hw1 hw2 he),
    linesOf_congr h1 h2 he]

theorem sorted_keys_linesOf (h : Header) (ks : List Str)
    (hs : ks.Sorted (fun a b => strLe a b = true)) :
    ((linesOf h ks).map Prod.fst).Sorted (fun a b => strLe a b = true) := by
  induction ks with
  | nil => simp [linesOf]
  | cons k ks ih =>
    have hs2 := List.sorted_cons.1 hs
    simp only [linesOf, List.map_append, List.map_map]
    unfold List.Sorted
    rw [List.pairwise_append]
    refine ⟨?_, ih hs2.2, ?_⟩
    · rw [List.pairwise_map]
      exact List.pairwise_of_forall (fun a b => strLe_refl k)
    · intro a ha b hb
      simp only [List.mem_map, Function.comp] at ha
      obtain ⟨_, _, rfl⟩ := ha
      simp only [List.mem_map] at hb
      obtain ⟨l, hl, rfl⟩ := hb
      exact hs2.1 _ ((mem_linesOf h ks l).1 hl).1

theorem write_buffer_eq (h : Header) (wb : List Nat) :
    Header.write bufferWrite h wb =
      .ok (wb ++ renderLines (linesOf h (sortStrings (Header.keys h))) ++
        bytes "\r\n") := by
  simp only [Header.write, writeKeys_buffer, bufferWrite, flatMap_render_eq]

/-- C15: two collections that hold the same mapping from keys to value lists,
whatever the order in which their keys were inserted, are written as the same
bytes; the output is the sequence of the header lines followed by the blank
line, and the key of each line is greater than or equal to, in byte-wise
lexicographic order, the key of every line before it. -/
theorem Header.write_deterministic (h1 h2 : Header) (hw1 : Header.WF h1)
    (hw2 : Header.WF h2) (he : Header.Equiv h1 h2) (wb : List Nat) :
    Header.write bufferWrite h1 wb = Header.write bufferWrite h2 wb ∧
      Header.write bufferWrite h1 wb =
        .ok (wb ++ renderLines (linesOf h1 (sortStrings (Header.keys h1))) ++
          bytes "\r\n") ∧
      ((linesOf h1 (sortStrings (Header.keys h1))).map Prod.fst).Sorted
        (fun a b => strLe a b = true) := by
  refine ⟨?_, write_buffer_eq h1 wb, sorted_keys_linesOf h1 _ (sorted_sortStrings _)⟩
  rw [write_buffer_eq, write_buffer_eq,
    sortStrings_eq_of_perm _ _ (Header.keys_perm_of_equiv h1 h2 hw1 hw2 he),
    linesOf_congr h1 h2 he]

/-- C15, witness: the keys `B` and `A` inserted in this order and in the
other order. -/
theorem Header.write_deterministic_witness :
    Header.write bufferWrite
        [(bytes "B", [bytes "1", bytes "2"]), (bytes "A", [bytes "x"])] [] =
      Header.write bufferWrite
        [(bytes "A", [bytes "x"]), (bytes "B", [bytes "1", bytes "2"])] [] ∧
    Header.write bufferWrite
        [(bytes "B", [bytes "1", bytes "2"]), (bytes "A", [bytes "x"])] [] =
      .ok (bytes "A: x\r\nB: 1\r\nB: 2\r\n\r\n") :=
  ⟨(Header.write_deterministic
      [(bytes "B", [bytes "1", bytes "2"]), (bytes "A", [bytes "x"])]
      [(bytes "A", [bytes "x"]), (bytes "B", [bytes "1", bytes "2"])]
      (by decide) (by decide)
      (Header.Equiv_of_perm _ _ (by decide) (List.Perm.swap _ _ _)) []).1,
    by decide⟩

/-! ## Encoding a decoded collection -/

theorem not_mem_of_all_valid (s : Str) (c : Nat)
    (hs : s.all validHeaderFieldByte = true) (hc : validHeaderFieldByte c = false) :
    c ∉ s := by
  intro hm
  have := (List.all_eq_true.1 hs) c hm
  rw [hc] at this
  exact Bool.false_ne_true this

theorem decodableKey_CanonicalHeaderKey (k : Str) (h3 : k.head? ≠ some CR)
    (h4 : COLON ∉ k.tail) :
    (CanonicalHeaderKey k).head? ≠ some CR ∧ COLON ∉ (CanonicalHeaderKey k).tail := by
  unfold CanonicalHeaderKey
  split_ifs with hv
  · have hv2 : (canonicalize true k).all validHeaderFieldByte = true := by
      rw [all_valid_canonicalize]; exact hv
    constructor
    · intro hh
      exact not_mem_of_all_valid _ CR hv2 (by decide) (List.mem_of_mem_head? hh)
    · intro ht
      exact not_mem_of_all_valid _ COLON hv2 (by decide) (List.mem_of_mem_tail ht)
  · exact ⟨h3, h4⟩

theorem decodableKey_normalize (ul : Str → Str) (k : Str)
    (h1 : 1 ≤ k.length) (h2 : k.length ≤ 1023) (h3 : k.head? ≠ some CR)
    (h4 : COLON ∉ k.tail) :
    1 ≤ (headerKeyNormalize ul k).length ∧ (headerKeyNormalize ul k).length ≤ 1023 ∧
      (headerKeyNormalize ul k).head? ≠ some CR ∧
      COLON ∉ (headerKeyNormalize ul k).tail := by
  refine ⟨?_, headerKeyNormalize_length_le ul k 1023 h2 (by omega), ?_⟩
  · unfold headerKeyNormalize
    simp only []
    split_ifs
    · rw [bytes_RTP_INFO]; simp
    · rw [bytes_WWW_Authenticate]; simp
    · rw [bytes_CSeq]; simp
    · unfold CanonicalHeaderKey
      split_ifs
      · rw [canonicalize_length]; exact h1
      · exact h1
  · unfold headerKeyNormalize
    simp only []
    split_ifs
    · rw [bytes_RTP_INFO]; decide
    · rw [bytes_WWW_Authenticate]; decide
    · rw [bytes_CSeq]; decide
    · exact decodableKey_CanonicalHeaderKey k h3 h4

theorem Header.Reencodable_add (ul : Str → Str) (h : Header) (k v : Str)
    (hp : Header.Reencodable ul h) (hd : DecodableLine (k, v)) :
    Header.Reencodable ul (Header.add h (headerKeyNormalize ul k) v) := by
  obtain ⟨⟨k1, k2, k3, k4⟩, hv⟩ := hd
  have hkey := decodableKey_normalize ul k k1 k2 k3 k4
  intro e he
  rcases Header.mem_set _ _ _ _ he with h1 | h1
  · subst h1
    refine ⟨headerKeyNormalize_fixed ul k, by simp, ?_⟩
    intro w hw
    simp only [List.mem_append, List.mem_singleton] at hw
    rcases hw with hw | hw
    · have hm := Header.mem_of_mem_keys h _
        (Header.mem_keys_of_get_ne_nil h _ (List.ne_nil_of_mem hw))
      exact (hp _ hm).2.2 w hw
    · subst hw
      exact ⟨hkey, hv⟩
  · exact hp e h1

theorem Header.Reencodable_addLines (ul : Str → Str) (h : Header)
    (ls : List (Str × Str)) (hp : Header.Reencodable ul h)
    (hd : ∀ l ∈ ls, DecodableLine l) :
    Header.Reencodable ul (addLines ul h ls) := by
  induction ls generalizing h with
  | nil => exact hp
  | cons l ls ih =>
    rw [addLines_cons]
    apply ih
    · exact Header.Reencodable_add ul h l.1 l.2 hp (hd l (by simp))
    · intro l2 h2; exact hd l2 (by simp [h2])

theorem renderLines_eq_renderRaws (ls : List (Str × Str)) :
    renderLines ls = renderRaws (ls.map (fun l => (l.1, 1, l.2))) := by
  induction ls with
  | nil => rfl
  | cons l ls ih =>
    obtain ⟨k, v⟩ := l
    simp [renderLines, renderRaws, renderRaw, renderLine_eq, ih]

theorem headerRead_decodable_lines (ul : Str → Str) (ls : List (Str × Str))
    (rest : List Nat) (hd : ∀ l ∈ ls, DecodableLine l)
    (hg : distinctKeys ul ls < 255) :
    headerRead ul (renderLines ls ++ bytes "\r\n" ++ rest) =
      some (.ok (addLines ul [] ls, rest)) := by
  have em : (ls.map (fun l => ((l.1, 1, l.2) : RawLine))).map RawLine.line = ls := by
    simp [RawLine.line, Function.comp_def]
  have h1 := headerRead_raws_crlf ul (ls.map (fun l => (l.1, 1, l.2))) rest
    (by
      intro l hl
      simp only [List.mem_map] at hl
      obtain ⟨l0, hl0, rfl⟩ := hl
      exact hd l0 hl0)
    (by
      intro i _
      apply guard_of_distinctKeys_raws
      rw [em]; exact hg)
  rw [em] at h1
  rw [renderLines_eq_renderRaws, bytes_crlf, List.append_assoc]
  exact h1

theorem equiv_addLines_linesOf (ul : Str → Str) (h : Header) (hw : Header.WF h)
    (hk : ∀ e ∈ h, headerKeyNormalize ul e.1 = e.1 ∧ e.2 ≠ []) :
    Header.Equiv (addLines ul [] (linesOf h (sortStrings (Header.keys h)))) h := by
  have hperm := perm_sortStrings (Header.keys h)
  have hmem : ∀ k, k ∈ sortStrings (Header.keys h) ↔ k ∈ Header.keys h :=
    fun k => hperm.mem_iff
  have hnd : (sortStrings (Header.keys h)).Nodup := hperm.nodup_iff.2 hw
  have hc : ∀ k ∈ sortStrings (Header.keys h), headerKeyNormalize ul k = k :=
    fun k hk1 => (hk _ (Header.mem_of_mem_keys h k ((hmem k).1 hk1))).1
  intro K
  rw [find?_addLines]
  by_cases hK : K ∈ Header.keys h
  · have hK2 := (hmem K).2 hK
    have hne : Header.get h K ≠ [] := (hk _ (Header.mem_of_mem_keys h K hK)).2
    rw [if_pos ((lineKeys_linesOf ul h _ K hc).2 ⟨hK2, hne⟩),
      valuesOf_linesOf ul h _ K hnd hc, if_pos hK2, Header.find?_of_mem_keys h K hK]
  · have hK2 : K ∉ sortStrings (Header.keys h) := fun hm => hK ((hmem K).1 hm)
    rw [if_neg (fun hm => hK2 ((lineKeys_linesOf ul h _ K hc).1 hm).1),
      (Header.find?_eq_none h K).2 hK]

/-- C20: when the decoder succeeds with a collection `h` of fewer than 255
keys, the decoder on the bytes that the encoder writes for `h` succeeds,
reads all of them, and returns a collection equal to `h` as a map. -/
theorem headerRead_reencode (unicodeLower : Str → Str) (rb : Reader) (h : Header)
    (rest : Reader)
    (hr : headerRead unicodeLower rb = some (.ok (h, rest)))
    (hn : Header.len h < 255) :
    ∃ h2, Header.write bufferWrite h [] = .ok (encode h) ∧
      headerRead unicodeLower (encode h) = some (.ok (h2, [])) ∧
      Header.Equiv h2 h := by
  obtain ⟨ls, hd, _, e2, _⟩ := headerRead_ok_inv unicodeLower rb h rest hr
  have hw : Header.WF h := by
    rw [e2]; exact WF_addLines _ _ _ (by simp [Header.WF, Header.keys])
  have hp : Header.Reencodable unicodeLower h := by
    rw [e2]
    apply Header.Reencodable_addLines unicodeLower [] _ (by intro e he; simp at he)
    intro l hl
    simp only [List.mem_map] at hl
    obtain ⟨l0, hl0, rfl⟩ := hl
    exact hd l0 hl0
  have hperm := perm_sortStrings (Header.keys h)
  have hc : ∀ k ∈ sortStrings (Header.keys h), headerKeyNormalize unicodeLower k = k :=
    fun k hk1 => (hp _ (Header.mem_of_mem_keys h k (hperm.mem_iff.1 hk1))).1
  refine ⟨_, write_buffer_eq_encode h, ?_,
    equiv_addLines_linesOf unicodeLower h hw (fun e he => ⟨(hp e he).1, (hp e he).2.1⟩)⟩
  rw [encode_eq, ← List.append_nil (_ ++ bytes "\r\n")]
  apply headerRead_decodable_lines unicodeLower _ []
  · intro l hl
    obtain ⟨h1, h2⟩ := (mem_linesOf h _ l).1 hl
    exact (hp _ (Header.mem_of_mem_keys h l.1 (hperm.mem_iff.1 h1))).2.2 l.2 h2
  · have h2 := distinctKeys_le_of_subset unicodeLower _ _
      (lineKeys_subset_of_linesOf unicodeLower h _ hc _ (fun l hl => hl))
    rw [hperm.length_eq, ← Header.len_eq_keys] at h2
    omega

/-- C20, witness: the block `cseq: 1`, `:a:  v`, `cseq: 2`. -/
theorem headerRead_reencode_witness :
    headerRead id (bytes "cseq: 1\r\n:a:  v\r\ncseq: 2\r\n\r\n") =
        some (.ok ([(bytes "CSeq", [bytes "1", bytes "2"]), (bytes ":a", [bytes "v"])],
          [])) ∧
      ∃ h2, Header.write bufferWrite
          [(bytes "CSeq", [bytes "1", bytes "2"]), (bytes ":a", [bytes "v"])] [] =
          .ok (encode [(bytes "CSeq", [bytes "1", bytes "2"]), (bytes ":a", [bytes "v"])]) ∧
        headerRead id
            (encode [(bytes "CSeq", [bytes "1", bytes "2"]), (bytes ":a", [bytes "v"])]) =
          some (.ok (h2, [])) ∧
        Header.Equiv h2
          [(bytes "CSeq", [bytes "1", bytes "2"]), (bytes ":a", [bytes "v"])] :=
  ⟨by decide,
    headerRead_reencode id (bytes "cseq: 1\r\n:a:  v\r\ncseq: 2\r\n\r\n")
      [(bytes "CSeq", [bytes "1", bytes "2"]), (bytes ":a", [bytes "v"])] []
      (by decide) (by decide)⟩

/-! ## Decoding what the encoder wrote, for every line the decoder accepts -/

theorem headerRead_decodable_lines_guard (ul : Str → Str) (ls : List (Str × Str))
    (rest : List Nat) (hd : ∀ l ∈ ls, DecodableLine l)
    (hg : ∀ i, i < ls.length → distinctKeys ul (ls.take i) < 255) :
    headerRead ul (renderLines ls ++ bytes "\r\n" ++ rest) =
      some (.ok (addLines ul [] ls, rest)) := by
  have em : ∀ ms : List (Str × Str),
      (ms.map (fun l => ((l.1, 1, l.2) : RawLine))).map RawLine.line = ms := by
    intro ms
    simp [RawLine.line, Function.comp_def]
  have h1 := headerRead_raws_crlf ul (ls.map (fun l => (l.1, 1, l.2))) rest
    (by
      intro l hl
      simp only [List.mem_map] at hl
      obtain ⟨l0, hl0, rfl⟩ := hl
      exact hd l0 hl0)
    (by
      intro i hi
      rw [← List.map_take, em, len_addLines_eq_distinctKeys]
      exact hg i (by simpa using hi))
  rw [em] at h1
  rw [renderLines_eq_renderRaws, bytes_crlf, List.append_assoc]
  exact h1

theorem headerRead_encode_decodable (ul : Str → Str) (h : Header)
    (hn : Header.len h ≤ 255)
    (hk : Header.Reencodable ul h)
    (hlast : Header.len h = 255 → ∀ k,
      (sortStrings (Header.keys h)).getLast? = some k →
        (Header.get h k).length = 1) :
    headerRead ul (encode h) =
      some (.ok (addLines ul [] (linesOf h (sortStrings (Header.keys h))), [])) := by
  have hperm := perm_sortStrings (Header.keys h)
  have hmem : ∀ k, k ∈ sortStrings (Header.keys h) ↔ k ∈ Header.keys h :=
    fun k => hperm.mem_iff
  have hlen : (sortStrings (Header.keys h)).length = Header.len h := by
    rw [hperm.length_eq, Header.len_eq_keys]
  have hc : ∀ k ∈ sortStrings (Header.keys h), headerKeyNormalize ul k = k :=
    fun k hk1 => (hk _ (Header.mem_of_mem_keys h k ((hmem k).1 hk1))).1
  have hd : ∀ l ∈ linesOf h (sortStrings (Header.keys h)), DecodableLine l := by
    intro l hl
    obtain ⟨h1, h2⟩ := (mem_linesOf h _ l).1 hl
    exact (hk _ (Header.mem_of_mem_keys h l.1 ((hmem _).1 h1))).2.2 l.2 h2
  rw [encode_eq, ← List.append_nil (_ ++ bytes "\r\n")]
  apply headerRead_decodable_lines_guard ul _ [] hd
  intro i hi
  by_cases h255 : Header.len h < 255
  · have h1 := distinctKeys_take_le ul (linesOf h (sortStrings (Header.keys h))) i
    have h2 := distinctKeys_le_of_subset ul _ _
      (lineKeys_subset_of_linesOf ul h _ hc _ (fun l hl => hl))
    omega
  · have h255e : Header.len h = 255 := by omega
    rcases List.eq_nil_or_concat (sortStrings (Header.keys h)) with e | ⟨L, b, e⟩
    · rw [e] at hlen; simp at hlen; omega
    · rw [List.concat_eq_append] at e
      have hb := hlast h255e b (by rw [e]; simp)
      obtain ⟨v, hv⟩ := List.length_eq_one.1 hb
      have hL : L.length = 254 := by
        rw [e] at hlen; simp at hlen; omega
      have hcL : ∀ k ∈ L, headerKeyNormalize ul k = k :=
        fun k hk1 => hc k (by rw [e]; simp [hk1])
      have el : linesOf h (sortStrings (Header.keys h)) =
          linesOf h L ++ [(b, v)] := by
        rw [e, linesOf_append]; simp [linesOf, hv]
      rw [el] at hi ⊢
      rw [List.length_append, List.length_singleton] at hi
      rw [List.take_append_of_le_length (by omega)]
      have h2 := distinctKeys_le_of_subset ul ((linesOf h L).take i) L
        (lineKeys_subset_of_linesOf ul h L hcL _
          (fun l hl => List.mem_of_mem_take hl))
      omega

/-- C1, as amended: a collection with at most 255 keys, in which every key is
canonical (it is its own normalized key), has 1 to 1023 bytes, holds no colon
after its first byte and does not start with a carriage return, every key has
at least one value, every value has 1 to 1023 bytes, holds no carriage return
and does not start with a space, and, when there are 255 keys, the greatest
key has a single value, is decoded from its own encoding: the decoder
succeeds, reads the whole output, and returns a collection equal to `h` as a
map. -/
theorem headerRead_write_roundtrip (unicodeLower : Str → Str) (h : Header)
    (hw : Header.WF h) (hn : Header.len h ≤ 255)
    (hk : ∀ e ∈ h, headerKeyNormalize unicodeLower e.1 = e.1 ∧ e.2 ≠ [] ∧
      ∀ v ∈ e.2, DecodableLine (e.1, v))
    (hlast : Header.len h = 255 → ∀ k,
      (sortStrings (Header.keys h)).getLast? = some k →
        (Header.get h k).length = 1) :
    ∃ h2, Header.write bufferWrite h [] = .ok (encode h) ∧
      headerRead unicodeLower (encode h) = some (.ok (h2, [])) ∧
      Header.Equiv h2 h :=
  ⟨_, write_buffer_eq_encode h,
    headerRead_encode_decodable unicodeLower h hn hk hlast,
    equiv_addLines_linesOf unicodeLower h hw
      (fun e he => ⟨(hk e he).1, (hk e he).2.1⟩)⟩

/-- C1, witness: the collection with `CSeq: 1`, `Accept: a`, `Accept: b` and
the key `:a`, which starts with a colon. -/
theorem headerRead_write_roundtrip_witness :
    ∃ h2, Header.write bufferWrite
        [(bytes "CSeq", [bytes "1"]), (bytes "Accept", [bytes "a", bytes "b"]),
          (bytes ":a", [bytes "v"])] [] =
        .ok (encode
          [(bytes "CSeq", [bytes "1"]), (bytes "Accept", [bytes "a", bytes "b"]),
            (bytes ":a", [bytes "v"])]) ∧
      headerRead id (encode
          [(bytes "CSeq", [bytes "1"]), (bytes "Accept", [bytes "a", bytes "b"]),
            (bytes ":a", [bytes "v"])]) =
        some (.ok (h2, [])) ∧
      Header.Equiv h2
        [(bytes "CSeq", [bytes "1"]), (bytes "Accept", [bytes "a", bytes "b"]),
          (bytes ":a", [bytes "v"])] :=
  headerRead_write_roundtrip id
    [(bytes "CSeq", [bytes "1"]), (bytes "Accept", [bytes "a", bytes "b"]),
      (bytes ":a", [bytes "v"])]
    (by decide) (by decide) (by decide) (fun hh => absurd hh (by decide))

/-! ## The limit on the length of a key -/

theorem headerRead_after_distinctLines (ul : Str → Str) (b : Nat)
    (tail : List Nat) (hb : b ≠ CR) :
    headerRead ul (renderLines (distinctLines 255) ++ b :: tail) =
      some (.error .tooManyHeaders) := by
  have hd := nodup_lineKeys_distinctLines ul 255
  have hlen : Header.len (addLines ul [] (distinctLines 255)) = 255 := by
    rw [len_addLines_eq_distinctKeys, distinctKeys_distinctLines]
  rw [headerRead_lines_then ul (distinctLines 255) (b :: tail)
    (wellFormed_distinctLines 255 (by decide))
    (fun i hi => by
      rw [len_addLines_eq_distinctKeys,
        distinctKeys_of_nodup ul _ (nodup_lineKeys_take ul _ i hd), List.length_take]
      rw [length_distinctLines] at hi ⊢
      simp only [headerMaxEntryCount]
      omega)]
  exact headerReadLoop_tooMany ul _ _ b tail hb
    (by rw [hlen]; simp [headerMaxEntryCount])

/-- C10, counterexample: after the 255 lines `x: 1`, `xx: 1`, ... with pairwise
distinct keys, a line whose key has 1024 bytes fails with `TooManyHeaders`,
not with `KeyTooLong`, and a line whose key has 1023 bytes is not accepted
either: the count of the keys is checked before the key is read. -/
theorem headerRead_long_key_after_255_keys :
    (∀ l ∈ distinctLines 255, WellFormedLine l) ∧
    (∀ unicodeLower : Str → Str,
      headerRead unicodeLower (renderLines (distinctLines 255) ++
          (120 :: (List.replicate 1023 120 ++ bytes ": 1\r\n\r\n"))) =
        some (.error .tooManyHeaders) ∧
      headerRead unicodeLower (renderLines (distinctLines 255) ++
          (120 :: (List.replicate 1022 120 ++ bytes ": 1\r\n\r\n"))) =
        some (.error .tooManyHeaders)) ∧
    DecodeError.tooManyHeaders ≠ DecodeError.keyTooLong :=
  ⟨wellFormed_distinctLines 255 (by decide),
    fun ul => ⟨headerRead_after_distinctLines ul 120 _ (by decide),
      headerRead_after_distinctLines ul 120 _ (by decide)⟩,
    by decide⟩

/-- C10, as amended: for a line that starts when the decoder has accepted the
lines before it and holds fewer than 255 keys, a key portion, the first byte
and the bytes before the first colon after it, of 1024 bytes or more fails
with `KeyTooLong`, and a line that is otherwise accepted and whose key is 1023
bytes long is accepted. -/
theorem headerRead_key_length_boundary (unicodeLower : Str → Str)
    (ls : List RawLine) (hd : ∀ l ∈ ls, DecodableLine l.line)
    (hk : distinctKeys unicodeLower (ls.map RawLine.line) < 255) :
    (∀ b ks, b ≠ CR → 1023 ≤ ks.length → (∀ c ∈ ks.take 1023, c ≠ COLON) →
      headerRead unicodeLower (renderRaws ls ++ b :: ks) =
        some (.error .keyTooLong)) ∧
    (∀ k n v rest, DecodableLine (k, v) → k.length = 1023 →
      headerRead unicodeLower
          (renderRaws ls ++ renderRaw (k, n, v) ++ bytes "\r\n" ++ rest) =
        some (.ok (Header.add (addLines unicodeLower [] (ls.map RawLine.line))
          (headerKeyNormalize unicodeLower k) v, rest))) := by
  have hg := guard_of_distinctKeys_raws unicodeLower ls hk
  constructor
  · intro b ks hb hlen hks
    rw [headerRead_raws_then unicodeLower ls (b :: ks) hd (fun i _ => hg i)]
    have h0 := hg ls.length
    rw [List.take_length] at h0
    have e : readBytesLimited ks COLON (headerMaxKeyLength - 1) =
        .error (.lengthExceeded (headerMaxKeyLength - 1)) :=
      readUntil_exceeded COLON _ _ ks (by simpa [headerMaxKeyLength] using hlen)
        (by simpa [headerMaxKeyLength] using hks)
    simp only [List.length_cons, headerReadLoop, ReadByte, if_neg hb, headerReadEntry,
      if_neg (not_le.2 h0), e, DecodeError.keyTooLong]
  · intro k n v rest hkv _
    have e : renderRaws ls ++ renderRaw (k, n, v) ++ bytes "\r\n" ++ rest =
        renderRaws (ls ++ [(k, n, v)]) ++ CR :: LF :: rest := by
      simp [renderRaws_append, renderRaws, bytes_crlf]
    rw [e, headerRead_raws_crlf unicodeLower (ls ++ [(k, n, v)]) rest]
    · rw [List.map_append, addLines_append]; rfl
    · intro l hl
      rw [List.mem_append, List.mem_singleton] at hl
      rcases hl with hl | hl
      · exact hd l hl
      · rw [hl]; exact hkv
    · intro i hi
      rw [List.length_append, List.length_singleton] at hi
      rw [List.take_append_of_le_length (by omega)]
      exact hg i

/-- C10, witness: after the line `A: b`, a key of 1024 bytes `x` fails with
`KeyTooLong` and a key of 1023 bytes `x` is accepted. -/
theorem headerRead_key_length_boundary_witness :
    headerRead id (renderRaws [(bytes "A", 1, bytes "b")] ++
        120 :: (List.replicate 1023 120 ++ bytes ": 1\r\n\r\n")) =
      some (.error .keyTooLong) ∧
    headerRead id (renderRaws [(bytes "A", 1, bytes "b")] ++
        renderRaw (List.replicate 1023 120, 1, [49]) ++ bytes "\r\n" ++ []) =
      some (.ok (Header.add
        (addLines id [] ([(bytes "A", 1, bytes "b")].map RawLine.line))
        (headerKeyNormalize id (List.replicate 1023 120)) [49], [])) :=
  ⟨(headerRead_key_length_boundary id [(bytes "A", 1, bytes "b")] (by decide)
      (by decide)).1 120
      (List.replicate 1023 120 ++ bytes ": 1\r\n\r\n") (by decide)
      (by rw [List.length_append, List.length_replicate]; omega)
      (by
        rw [List.take_left' (List.length_replicate 1023 120)]
        intro c hc
        rw [List.eq_of_mem_replicate hc]
        decide),
    (headerRead_key_length_boundary id [(bytes "A", 1, bytes "b")] (by decide)
      (by decide)).2
      (List.replicate 1023 120) 1 [49] []
      (DecodableLine_of_wellFormed _
        (wellFormed_distinctLines 1023 (by decide) _
          (List.mem_map.2 ⟨1022, List.mem_range.2 (by decide), rfl⟩)))
      (List.length_replicate 1023 120)⟩

/-! ## The limit on the length of a value, on any line -/

theorem headerRead_raws_line_crlf (ul : Str → Str) (ls : List RawLine)
    (hd : ∀ l ∈ ls, DecodableLine l.line)
    (hk : distinctKeys ul (ls.map RawLine.line) < 255)
    (k : Str) (n : Nat) (v : Str) (rest : List Nat) (hkv : DecodableLine (k, v)) :
    headerRead ul (renderRaws ls ++ renderRaw (k, n, v) ++ CR :: LF :: rest) =
      some (.ok (Header.add (addLines ul [] (ls.map RawLine.line))
        (headerKeyNormalize ul k) v, rest)) := by
  have hg := guard_of_distinctKeys_raws ul ls hk
  have e : renderRaws ls ++ renderRaw (k, n, v) ++ CR :: LF :: rest =
      renderRaws (ls ++ [(k, n, v)]) ++ CR :: LF :: rest := by
    simp [renderRaws_append, renderRaws]
  rw [e, headerRead_raws_crlf ul (ls ++ [(k, n, v)]) rest]
  · rw [List.map_append, addLines_append]; rfl
  · intro l hl
    rw [List.mem_append, List.mem_singleton] at hl
    rcases hl with hl | hl
    · exact hd l hl
    · rw [hl]; exact hkv
  · intro i hi
    rw [List.length_append, List.length_singleton] at hi
    rw [List.take_append_of_le_length (by omega)]
    exact hg i

theorem headerReadLoop_value_tooLong (ul : Str → Str) (fuel : Nat) (h : Header)
    (k : Str) (n : Nat) (v : Str) (tail : List Nat)
    (hlen : Header.len h < headerMaxEntryCount)
    (hk1 : 1 ≤ k.length) (hk2 : k.length ≤ 1023) (hk3 : k.head? ≠ some CR)
    (hk4 : COLON ∉ k.tail) (hv2 : v.head? ≠ some SP) (hv3 : CR ∉ v)
    (hv4 : 1024 ≤ v.length) :
    headerReadLoop ul (fuel + 1) h
        (k ++ COLON :: (List.replicate n SP ++ (v ++ tail))) =
      some (.error .valueTooLong) := by
  cases k with
  | nil => simp at hk1
  | cons b krest =>
    cases v with
    | nil => simp at hv4
    | cons c cs =>
      rw [List.cons_append]
      apply headerReadLoop_entry_error ul fuel h b _ _ (by simpa using hk3)
      rw [List.cons_append]
      apply headerReadEntry_valueTooLong ul h b krest n c (cs ++ tail) hlen
        (by simpa using hk4) (by simpa using hk2) (by simpa using hv2)
      · simp only [List.length_cons, List.length_append] at hv4 ⊢; omega
      · intro d hd
        rw [← List.cons_append, List.take_append_of_le_length hv4] at hd
        intro hc
        rw [hc] at hd
        exact hv3 (List.mem_of_mem_take hd)

/-- C11, as amended: on a line that starts when the decoder has accepted the
lines before it and holds fewer than 255 keys, and whose key is accepted by
the key scan, the value scan fails with `ValueTooLong` exactly when the value,
the bytes from the first byte after the spaces up to the next carriage return,
is longer than 1023 bytes: a line with a value of at most 1023 bytes is
accepted, and one with a value of 1024 bytes or more fails with
`ValueTooLong`. -/
theorem headerRead_value_length_boundary (unicodeLower : Str → Str)
    (ls : List RawLine) (hd : ∀ l ∈ ls, DecodableLine l.line)
    (hk : distinctKeys unicodeLower (ls.map RawLine.line) < 255)
    (k : Str) (n : Nat) (v : Str)
    (hk1 : 1 ≤ k.length) (hk2 : k.length ≤ 1023) (hk3 : k.head? ≠ some CR)
    (hk4 : COLON ∉ k.tail)
    (hv1 : v ≠ []) (hv2 : v.head? ≠ some SP) (hv3 : CR ∉ v) :
    (v.length ≤ 1023 → ∀ rest,
      headerRead unicodeLower (renderRaws ls ++
          (k ++ bytes ":" ++ List.replicate n SP ++ v ++ bytes "\r\n\r\n") ++ rest) =
        some (.ok (Header.add (addLines unicodeLower [] (ls.map RawLine.line))
          (headerKeyNormalize unicodeLower k) v, rest))) ∧
    (1024 ≤ v.length → ∀ tail,
      headerRead unicodeLower (renderRaws ls ++
          (k ++ bytes ":" ++ List.replicate n SP ++ v ++ bytes "\r" ++ tail)) =
        some (.error .valueTooLong)) := by
  have e1 : bytes ":" = [COLON] := by decide
  constructor
  · intro hv4 rest
    have hin : renderRaws ls ++
        (k ++ bytes ":" ++ List.replicate n SP ++ v ++ bytes "\r\n\r\n") ++ rest =
        renderRaws ls ++ renderRaw (k, n, v) ++ CR :: LF :: rest := by
      have e2 : bytes "\r\n\r\n" = [CR, LF, CR, LF] := by decide
      simp [e1, e2, renderRaw]
    rw [hin]
    exact headerRead_raws_line_crlf unicodeLower ls hd hk k n v rest
      ⟨⟨hk1, hk2, hk3, hk4⟩, List.length_pos.2 hv1, hv4, hv3, hv2⟩
  · intro hv4 tail
    have hin : k ++ bytes ":" ++ List.replicate n SP ++ v ++ bytes "\r" ++ tail =
        k ++ COLON :: (List.replicate n SP ++ (v ++ (bytes "\r" ++ tail))) := by
      simp [e1]
    have h0 := guard_of_distinctKeys_raws unicodeLower ls hk ls.length
    rw [List.take_length] at h0
    rw [hin, headerRead_raws_then unicodeLower ls _ hd
      (fun i _ => guard_of_distinctKeys_raws unicodeLower ls hk i)]
    exact headerReadLoop_value_tooLong unicodeLower _ _ k n v _ h0 hk1 hk2 hk3 hk4
      hv2 hv3 hv4

/-- C11, witness: after the line `A: b`, the line `X: ` with a value of 1023
bytes `a` is accepted and with a value of 1024 bytes `a` it fails with
`ValueTooLong`. -/
theorem headerRead_value_length_boundary_witness :
    headerRead id (renderRaws [(bytes "A", 1, bytes "b")] ++
        (bytes "X" ++ bytes ":" ++ List.replicate 1 SP ++ List.replicate 1023 97 ++
          bytes "\r\n\r\n") ++ []) =
      some (.ok (Header.add
        (addLines id [] ([(bytes "A", 1, bytes "b")].map RawLine.line))
        (headerKeyNormalize id (bytes "X")) (List.replicate 1023 97), [])) ∧
    headerRead id (renderRaws [(bytes "A", 1, bytes "b")] ++
        (bytes "X" ++ bytes ":" ++ List.replicate 1 SP ++ List.replicate 1024 97 ++
          bytes "\r" ++ bytes "\n\r\n")) =
      some (.error .valueTooLong) :=
  ⟨(headerRead_value_length_boundary id [(bytes "A", 1, bytes "b")] (by decide)
      (by decide) (bytes "X") 1 (List.replicate 1023 97)
      (by decide) (by decide) (by decide) (by decide)
      (List.ne_nil_of_length_pos (by rw [List.length_replicate]; omega))
      (head?_replicate_a 1022) (cr_not_mem_replicate_a 1023)).1
      (by rw [List.length_replicate]) [],
    (headerRead_value_length_boundary id [(bytes "A", 1, bytes "b")] (by decide)
      (by decide) (bytes "X") 1 (List.replicate 1024 97)
      (by decide) (by decide) (by decide) (by decide)
      (List.ne_nil_of_length_pos (by rw [List.length_replicate]; omega))
      (head?_replicate_a 1023) (cr_not_mem_replicate_a 1024)).2
      (by rw [List.length_replicate]) (bytes "\n\r\n")⟩

/-! ## Keys that the key scan splits, keys that are stored as they arrive -/

/-- C14, counterexample: for the key `a:b` and the value `v` the key scan stops
at the first colon; the decoder returns the key `A` with the value `b: v` when
one space follows the second colon and with the value `b:  v` when two spaces
do, so the result is neither the value `v` nor independent of the number of
spaces. -/
theorem headerRead_leading_spaces_colon_in_key :
    (∀ unicodeLower : Str → Str,
      headerRead unicodeLower
          (bytes "a:b" ++ bytes ":" ++ List.replicate 1 SP ++ bytes "v" ++
            bytes "\r\n\r\n") =
        some (.ok ([(bytes "A", [bytes "b: v"])], [])) ∧
      headerRead unicodeLower
          (bytes "a:b" ++ bytes ":" ++ List.replicate 2 SP ++ bytes "v" ++
            bytes "\r\n\r\n") =
        some (.ok ([(bytes "A", [bytes "b:  v"])], []))) ∧
    bytes "b: v" ≠ bytes "b:  v" ∧ bytes "b: v" ≠ bytes "v" := by
  refine ⟨fun ul => ⟨?_, ?_⟩, by decide, by decide⟩
  · rw [headerRead_ascii ul _ (by decide)]; decide
  · rw [headerRead_ascii ul _ (by decide)]; decide

theorem headerKeyNormalize_cases (ul : Str → Str) (k : Str) :
    headerKeyNormalize ul k =
      if stringsToLower ul k = bytes "cseq" ∨
          stringsToLower ul k = bytes "www-authenticate" ∨
          stringsToLower ul k = bytes "rtp-info" ∨
          k.all validHeaderFieldByte = true
      then normalizeSpec ul k else k := by
  have d1 : bytes "cseq" ≠ bytes "rtp-info" := by decide
  have d2 : bytes "cseq" ≠ bytes "www-authenticate" := by decide
  have d3 : bytes "www-authenticate" ≠ bytes "rtp-info" := by decide
  by_cases h3 : stringsToLower ul k = bytes "cseq"
  · simp [headerKeyNormalize, normalizeSpec, h3, d1, d2]
  by_cases h2 : stringsToLower ul k = bytes "www-authenticate"
  · simp [headerKeyNormalize, normalizeSpec, h2, d3, d2.symm]
  by_cases h1 : stringsToLower ul k = bytes "rtp-info"
  · simp [headerKeyNormalize, normalizeSpec, h1, d1.symm, d3.symm]
  rw [headerKeyNormalize_generic ul k h1 h2 h3]
  by_cases hv : k.all validHeaderFieldByte = true
  · rw [if_pos (Or.inr (Or.inr (Or.inr hv)))]
    unfold normalizeSpec CanonicalHeaderKey; simp only []
    rw [if_neg h3, if_neg h2, if_neg h1, if_pos hv, canonicalize_eq_titleCaseKey]
  · rw [if_neg (by simp [h1, h2, h3, hv])]
    unfold CanonicalHeaderKey; rw [if_neg hv]

/-- C16, as amended: whenever the decoder succeeds, every key of the
collection it returns is its own normalized key, and the keys of the
collection are the normalized keys of the lines read.  The key stored for a
line is the canonical form of the spec, a fixed capitalization or title case
by hyphen segments, when the key on the wire lower-cases to one of the three
exceptions or is made of valid header field bytes: the capitalization on the
wire is then not kept.  A key that holds a space or another byte that is not a
valid header field byte is stored as it is on the wire, its capitalization
included. -/
theorem headerRead_keys_canonical (unicodeLower : Str → Str) (rb : Reader)
    (h : Header) (rest : Reader)
    (hr : headerRead unicodeLower rb = some (.ok (h, rest))) :
    (∀ k ∈ Header.keys h, headerKeyNormalize unicodeLower k = k) ∧
    ∃ ls : List RawLine, rb = renderRaws ls ++ bytes "\r\n" ++ rest ∧
      (∀ k, k ∈ Header.keys h ↔ ∃ l ∈ ls, k = headerKeyNormalize unicodeLower l.1) ∧
      ∀ l ∈ ls, headerKeyNormalize unicodeLower l.1 =
        if stringsToLower unicodeLower l.1 = bytes "cseq" ∨
            stringsToLower unicodeLower l.1 = bytes "www-authenticate" ∨
            stringsToLower unicodeLower l.1 = bytes "rtp-info" ∨
            l.1.all validHeaderFieldByte = true
        then normalizeSpec unicodeLower l.1 else l.1 := by
  obtain ⟨ls, _, e1, e2, _⟩ := headerRead_ok_inv unicodeLower rb h rest hr
  have hkeys : ∀ k, k ∈ Header.keys h ↔
      ∃ l ∈ ls, k = headerKeyNormalize unicodeLower l.1 := by
    intro k
    rw [e2, mem_keys_addLines]
    simp only [Header.keys, List.map_nil, List.not_mem_nil, false_or, lineKeys,
      List.map_map, List.mem_map, Function.comp, RawLine.line]
    constructor
    · rintro ⟨l, hl, rfl⟩; exact ⟨l, hl, rfl⟩
    · rintro ⟨l, hl, rfl⟩; exact ⟨l, hl, rfl⟩
  refine ⟨?_, ls, by rw [e1, bytes_crlf]; simp, hkeys,
    fun l _ => headerKeyNormalize_cases unicodeLower l.1⟩
  intro k hk
  obtain ⟨l, _, rfl⟩ := (hkeys k).1 hk
  exact headerKeyNormalize_fixed unicodeLower _

/-- C16, witness: `cseq: 1` gives the single key `CSeq` with the value list
`1`. -/
theorem headerRead_keys_canonical_witness :
    headerRead id (bytes "cseq: 1\r\n\r\n") =
        some (.ok ([(bytes "CSeq", [bytes "1"])], [])) ∧
      (∀ k ∈ Header.keys [(bytes "CSeq", [bytes "1"])], headerKeyNormalize id k = k) ∧
      ∃ ls : List RawLine, bytes "cseq: 1\r\n\r\n" = renderRaws ls ++ bytes "\r\n" ++ [] ∧
        (∀ k, k ∈ Header.keys [(bytes "CSeq", [bytes "1"])] ↔
          ∃ l ∈ ls, k = headerKeyNormalize id l.1) ∧
        ∀ l ∈ ls, headerKeyNormalize id l.1 =
          if stringsToLower id l.1 = bytes "cseq" ∨
              stringsToLower id l.1 = bytes "www-authenticate" ∨
              stringsToLower id l.1 = bytes "rtp-info" ∨
              l.1.all validHeaderFieldByte = true
          then normalizeSpec id l.1 else l.1 :=
  ⟨by decide,
    headerRead_keys_canonical id (bytes "cseq: 1\r\n\r\n")
      [(bytes "CSeq", [bytes "1"])] [] (by decide)⟩

/-- C16, counterexample: the line `a B: 1` is stored under the key `a B`, the
key as it is on the wire, while the canonical form of the spec is `A b`: the
capitalization on the wire is kept. -/
theorem headerRead_keeps_capitalisation_with_space :
    (∀ unicodeLower : Str → Str,
      headerRead unicodeLower (bytes "a B: 1\r\n\r\n") =
        some (.ok ([(bytes "a B", [bytes "1"])], [])) ∧
      headerKeyNormalize unicodeLower (bytes "a B") = bytes "a B" ∧
      normalizeSpec unicodeLower (bytes "a B") = bytes "A b") ∧
    bytes "a B" ≠ bytes "A b" := by
  refine ⟨fun ul => ⟨?_, ?_, ?_⟩, by decide⟩
  · rw [headerRead_ascii ul _ (by decide)]; decide
  · rw [headerKeyNormalize_ascii ul _ (by decide)]; decide
  · unfold normalizeSpec
    rw [stringsToLower_ascii ul _ (by decide)]; decide

end Gortsplib
